import Mathlib

/-!
# Verification of the SimpleMind mind-map document model and codec

A shallow embedding of `simplemind_parser.py` (the `SimpleMindNode` /
`SimpleMindMap` classes and the topic-list codec of `SimpleMindParser`) and of
the document-mutating tool handlers of `simplemind_mcp_server.py`
(`add_node`, `update_node`, `delete_node`, `get_node_path`, `search_nodes`).

Modelling conventions:

* Python objects are modelled by an explicit store (`heap`) mapping an
  allocation reference (`Ref`, a natural number standing for object identity)
  to the object's current field values.  The `nodes` dict of `SimpleMindMap`
  maps id strings to references; `children` lists hold references, mirroring
  the aliasing of Python object references.
* Python `dict` is modelled by an insertion-ordered association list with
  replace-in-place semantics for assignment of an existing key.
* Python `float` coordinates are modelled by rationals; the `"%.2f"`
  serialization of the encoder is modelled by exact rounding to two decimal
  places, and `math.sqrt` is abstracted as an explicit function parameter
  `sf` (the theorems about placement only constrain it at perfect squares,
  where the floating-point square root is exact).
* The archive level (ZIP framing, XML syntax, metadata, relations, images) is
  abstracted away: an archive is modelled by its flat list of topic records,
  the only part the claims under verification depend on.
* Python `while` loops and recursion whose termination is not structural are
  given an explicit fuel parameter; a dedicated result constructor records
  fuel exhaustion (meaning: the Python loop is still running after that many
  iterations).
-/

/-! ## Association lists with Python dict semantics -/

/-- Lookup in an insertion-ordered association list (Python `d.get(k)` /
`d[k]`). -/
def lookupA {α β : Type} [DecidableEq α] (l : List (α × β)) (k : α) : Option β :=
  match l with
  | [] => none
  | (k', v) :: t => if k' = k then some v else lookupA t k

/-- Python `d[k] = v`: replace the value in place if the key is present
(keeping its position), otherwise append the new binding. -/
def setA {α β : Type} [DecidableEq α] (l : List (α × β)) (k : α) (v : β) :
    List (α × β) :=
  match l with
  | [] => [(k, v)]
  | (k', v') :: t => if k' = k then (k, v) :: t else (k', v') :: setA t k v

/-- Python `del d[k]`: remove the binding for `k`. -/
def delA {α β : Type} [DecidableEq α] (l : List (α × β)) (k : α) :
    List (α × β) :=
  l.filter (fun p => p.1 ≠ k)

theorem lookupA_eq_none {α β : Type} [DecidableEq α] (l : List (α × β)) (k : α) :
    lookupA l k = none ↔ k ∉ l.map Prod.fst := by
  induction l with
  | nil => simp [lookupA]
  | cons p t ih =>
    obtain ⟨k', v⟩ := p
    by_cases h : k' = k
    · subst h
      simp [lookupA]
    · simp [lookupA, h, ih, Ne.symm h]

theorem lookupA_isSome {α β : Type} [DecidableEq α] (l : List (α × β)) (k : α) :
    (lookupA l k).isSome ↔ k ∈ l.map Prod.fst := by
  induction l with
  | nil => simp [lookupA]
  | cons p t ih =>
    obtain ⟨k', v⟩ := p
    by_cases h : k' = k
    · subst h
      simp [lookupA]
    · simp [lookupA, h, ih, Ne.symm h]

theorem lookupA_mem {α β : Type} [DecidableEq α] {l : List (α × β)} {k : α}
    {v : β} (h : lookupA l k = some v) : (k, v) ∈ l := by
  induction l with
  | nil => simp [lookupA] at h
  | cons p t ih =>
    obtain ⟨k', v'⟩ := p
    by_cases hk : k' = k
    · subst hk
      simp [lookupA] at h
      simp [h]
    · simp [lookupA, hk] at h
      exact List.mem_cons_of_mem _ (ih h)

theorem lookupA_of_mem {α β : Type} [DecidableEq α] {l : List (α × β)} {k : α}
    {v : β} (hnd : (l.map Prod.fst).Nodup) (h : (k, v) ∈ l) :
    lookupA l k = some v := by
  induction l with
  | nil => simp at h
  | cons p t ih =>
    obtain ⟨k', v'⟩ := p
    simp only [List.map_cons, List.nodup_cons] at hnd
    rcases List.mem_cons.1 h with h1 | h1
    · obtain ⟨rfl, rfl⟩ := Prod.mk.injEq .. ▸ h1
      simp [lookupA]
    · have hne : k' ≠ k := by
        rintro rfl
        exact hnd.1 (List.mem_map.2 ⟨(k', v), h1, rfl⟩)
      simp [lookupA, hne, ih hnd.2 h1]

theorem setA_map_fst_of_mem {α β : Type} [DecidableEq α] {l : List (α × β)}
    {k : α} (v : β) (h : k ∈ l.map Prod.fst) :
    (setA l k v).map Prod.fst = l.map Prod.fst := by
  induction l with
  | nil => simp at h
  | cons p t ih =>
    obtain ⟨k', v'⟩ := p
    by_cases hk : k' = k
    · simp [setA, hk]
    · simp only [List.map_cons, List.mem_cons] at h
      rcases h with h | h
      · exact (hk h.symm).elim
      · simp [setA, hk, ih h]

theorem setA_map_fst_of_not_mem {α β : Type} [DecidableEq α] {l : List (α × β)}
    {k : α} (v : β) (h : k ∉ l.map Prod.fst) :
    (setA l k v).map Prod.fst = l.map Prod.fst ++ [k] := by
  induction l with
  | nil => simp [setA]
  | cons p t ih =>
    obtain ⟨k', v'⟩ := p
    simp only [List.map_cons, List.mem_cons] at h
    push_neg at h
    simp [setA, Ne.symm h.1, ih h.2]

theorem lookupA_setA_self {α β : Type} [DecidableEq α] (l : List (α × β))
    (k : α) (v : β) : lookupA (setA l k v) k = some v := by
  induction l with
  | nil => simp [setA, lookupA]
  | cons p t ih =>
    obtain ⟨k', v'⟩ := p
    by_cases hk : k' = k <;> simp [setA, hk, lookupA, ih]

theorem lookupA_setA_ne {α β : Type} [DecidableEq α] (l : List (α × β))
    {k k' : α} (v : β) (h : k ≠ k') : lookupA (setA l k v) k' = lookupA l k' := by
  induction l with
  | nil => simp [setA, lookupA, h]
  | cons p t ih =>
    obtain ⟨k₀, v₀⟩ := p
    by_cases hk : k₀ = k
    · subst hk
      simp [setA, lookupA, h]
    · simp only [setA, if_neg hk]
      by_cases hk' : k₀ = k' <;> simp [lookupA, hk', ih]

theorem lookupA_delA_self {α β : Type} [DecidableEq α] (l : List (α × β))
    (k : α) : lookupA (delA l k) k = none := by
  induction l with
  | nil => simp [delA, lookupA]
  | cons p t ih =>
    obtain ⟨k', v'⟩ := p
    by_cases hk : k' = k
    · subst hk
      simpa [delA] using ih
    · simpa [delA, lookupA, hk] using ih

theorem lookupA_delA_ne {α β : Type} [DecidableEq α] (l : List (α × β))
    {k k' : α} (h : k ≠ k') : lookupA (delA l k) k' = lookupA l k' := by
  induction l with
  | nil => simp [delA, lookupA]
  | cons p t ih =>
    obtain ⟨k₀, v₀⟩ := p
    by_cases hk : k₀ = k
    · subst hk
      simpa [delA, lookupA, List.filter_cons, h] using ih
    · by_cases hk' : k₀ = k'
      · subst hk'
        simp [delA, lookupA, List.filter_cons, hk]
      · simpa [delA, lookupA, List.filter_cons, hk, hk'] using ih

theorem lookupA_append_left {α β : Type} [DecidableEq α] {l : List (α × β)}
    (l' : List (α × β)) {k : α} {v : β} (h : lookupA l k = some v) :
    lookupA (l ++ l') k = some v := by
  induction l with
  | nil => simp [lookupA] at h
  | cons p t ih =>
    obtain ⟨k', v'⟩ := p
    by_cases hk : k' = k <;> simp_all [lookupA]

theorem lookupA_append_right {α β : Type} [DecidableEq α] {l : List (α × β)}
    (l' : List (α × β)) {k : α} (h : lookupA l k = none) :
    lookupA (l ++ l') k = lookupA l' k := by
  induction l with
  | nil => simp
  | cons p t ih =>
    obtain ⟨k', v'⟩ := p
    by_cases hk : k' = k <;> simp_all [lookupA]

/-! ## Builtin models: `int(s)`, `str(i)`, `s.lower()`, `in`, `"%.2f"` -/

/-- One decimal digit (`0` – `9`) as a character. -/
def digitChar (d : ℕ) : Char := Char.ofNat (48 + d)

/-- Accumulating decimal parse of a digit string (empty input allowed,
handled by `pyInt`). -/
def digitsValCore : List Char → ℕ → Option ℕ
  | [], acc => some acc
  | c :: t, acc =>
    if 48 ≤ c.toNat ∧ c.toNat ≤ 57 then digitsValCore t (acc * 10 + (c.toNat - 48))
    else none

/-- Value of a nonempty all-digit character list. -/
def digitsVal : List Char → Option ℕ
  | [] => none
  | cs => digitsValCore cs 0

/-- Model of Python `int(s)` restricted to canonical decimal literals with an
optional sign (the whitespace/underscore tolerance of the builtin is not
modelled; the node ids appearing in the claims are canonical literals). -/
def pyInt (s : String) : Option ℤ :=
  match s.data with
  | [] => none
  | c :: rest =>
    if c = '-' then (digitsVal rest).map (fun n => -(n : ℤ))
    else if c = '+' then (digitsVal rest).map (fun n => (n : ℤ))
    else (digitsVal (c :: rest)).map (fun n => (n : ℤ))

/-- Little-endian decimal digits, fuelled so that it reduces by
computation (`fuel ≥ n` makes it total). -/
def natDigitsRev : ℕ → ℕ → List ℕ
  | 0, _ => []
  | fuel + 1, n => if n = 0 then [] else n % 10 :: natDigitsRev fuel (n / 10)

theorem natDigitsRev_eq_digits : ∀ (fuel n : ℕ), n ≤ fuel →
    natDigitsRev fuel n = Nat.digits 10 n := by
  intro fuel
  induction fuel with
  | zero =>
    intro n hn
    interval_cases n
    simp [natDigitsRev]
  | succ fuel ih =>
    intro n hn
    by_cases h0 : n = 0
    · subst h0
      simp [natDigitsRev]
    · rw [natDigitsRev, if_neg h0]
      rw [Nat.digits_def' (by norm_num : 1 < 10) (Nat.pos_of_ne_zero h0)]
      rw [ih (n / 10) ?_]
      have := Nat.div_lt_self (Nat.pos_of_ne_zero h0) (by norm_num : 1 < 10)
      omega

/-- Model of Python `str(n)` for a natural number. -/
def natDecStr (n : ℕ) : String :=
  if n = 0 then "0"
  else ⟨((natDigitsRev n n).reverse.map digitChar)⟩

/-- Model of Python `str(i)` for an integer. -/
def intDecStr (i : ℤ) : String :=
  if i < 0 then "-" ++ natDecStr i.natAbs else natDecStr i.toNat

theorem digitsValCore_digits (bs : List ℕ) (hb : ∀ d ∈ bs, d < 10) (acc : ℕ) :
    digitsValCore (bs.map digitChar) acc =
      some (bs.foldl (fun a d => a * 10 + d) acc) := by
  induction bs generalizing acc with
  | nil => simp [digitsValCore]
  | cons d t ih =>
    have hd : d < 10 := hb d (List.mem_cons_self d t)
    have hchar : (digitChar d).toNat = 48 + d := by
      interval_cases d <;> decide
    have hrange : 48 ≤ (digitChar d).toNat ∧ (digitChar d).toNat ≤ 57 := by
      interval_cases d <;> decide
    simp only [List.map_cons, digitsValCore]
    rw [if_pos hrange, hchar]
    simp only [Nat.add_sub_cancel_left, List.foldl_cons]
    exact ih (fun x hx => hb x (List.mem_cons_of_mem _ hx)) _

theorem foldl_reverse_digits (ds : List ℕ) (acc : ℕ) :
    (ds.reverse.foldl (fun a d => a * 10 + d) acc) =
      acc * 10 ^ ds.length + Nat.ofDigits 10 ds := by
  induction ds generalizing acc with
  | nil => simp
  | cons d t ih =>
    simp only [List.reverse_cons, List.foldl_append, List.foldl_cons,
      List.foldl_nil, ih, Nat.ofDigits_cons, List.length_cons]
    ring

theorem digitsVal_natDecStr (n : ℕ) (hn : 0 < n) :
    digitsVal (natDecStr n).data = some n := by
  have hne : n ≠ 0 := Nat.pos_iff_ne_zero.mp hn
  have hdig : Nat.digits 10 n ≠ [] := Nat.digits_ne_nil_iff_ne_zero.mpr hne
  have hlt : ∀ d ∈ (Nat.digits 10 n).reverse, d < 10 := by
    intro d hd
    exact Nat.digits_lt_base (by norm_num) (List.mem_reverse.mp hd)
  unfold natDecStr
  rw [if_neg hne]
  have hbridge : natDigitsRev n n = Nat.digits 10 n :=
    natDigitsRev_eq_digits n n le_rfl
  have hmapne : ((Nat.digits 10 n).reverse.map digitChar) ≠ [] := by
    simp [hdig]
  show digitsVal ((natDigitsRev n n).reverse.map digitChar) = some n
  rw [hbridge]
  rw [digitsVal.eq_def]
  split
  · exact absurd (by assumption) hmapne
  · rw [digitsValCore_digits _ hlt 0, foldl_reverse_digits]
    simp [Nat.ofDigits_digits]

theorem pyInt_natDecStr (n : ℕ) (hn : 0 < n) :
    pyInt (natDecStr n) = some (n : ℤ) := by
  have hval := digitsVal_natDecStr n hn
  have hdig : Nat.digits 10 n ≠ [] :=
    Nat.digits_ne_nil_iff_ne_zero.mpr (Nat.pos_iff_ne_zero.mp hn)
  have hhead : ∀ c ∈ (natDecStr n).data, 48 ≤ c.toNat ∧ c.toNat ≤ 57 := by
    intro c hc
    unfold natDecStr at hc
    rw [if_neg (Nat.pos_iff_ne_zero.mp hn)] at hc
    simp only [String.data] at hc
    rw [natDigitsRev_eq_digits n n le_rfl] at hc
    rcases List.mem_map.1 hc with ⟨d, hd, rfl⟩
    have : d < 10 := Nat.digits_lt_base (by norm_num) (List.mem_reverse.mp hd)
    interval_cases d <;> decide
  unfold pyInt
  rcases hne : (natDecStr n).data with _ | ⟨c, rest⟩
  · rw [hne] at hval
    simp [digitsVal] at hval
  · have hc := hhead c (hne ▸ List.mem_cons_self c rest)
    have hcm : c ≠ '-' := by
      rintro rfl
      exact absurd hc.1 (by decide)
    have hcp : c ≠ '+' := by
      rintro rfl
      exact absurd hc.1 (by decide)
    rw [hne] at hval
    simp [hcm, hcp, hval]

theorem pyInt_intDecStr_pos (i : ℤ) (hi : 0 < i) :
    pyInt (intDecStr i) = some i := by
  unfold intDecStr
  rw [if_neg (by omega)]
  have : (i.toNat : ℤ) = i := Int.toNat_of_nonneg (by omega)
  rw [pyInt_natDecStr i.toNat (by omega), this]

/-- Model of Python `s.lower()`.  `Char.toLower` lower-cases the ASCII
range, which covers the strings the claims exercise. -/
def pyLower (s : String) : String := s.map Char.toLower

/-- `needle` is a prefix of `hay` (character lists). -/
def isPrefixL : List Char → List Char → Bool
  | [], _ => true
  | _ :: _, [] => false
  | a :: as, b :: bs => a = b && isPrefixL as bs

/-- Model of Python substring containment `needle in hay` on character
lists: `needle` occurs contiguously in `hay`. -/
def isSubL (needle : List Char) : List Char → Bool
  | [] => needle.isEmpty
  | c :: t => isPrefixL needle (c :: t) || isSubL needle t

/-- Model of Python `needle in hay` for strings. -/
def strContains (hay needle : String) : Bool := isSubL needle.data hay.data

theorem strContains_empty (hay : String) : strContains hay "" = true := by
  unfold strContains
  show isSubL [] hay.data = true
  induction hay.data with
  | nil => rfl
  | cons c t ih => simp [isSubL, isPrefixL]

/-- Model of the encoder's `"%.2f"` formatting composed with the decoder's
`float(...)` parse: the coordinate comes back rounded to two decimal
places (nearest-integer rounding of 100·q; the binary-float tie-breaking
detail is immaterial to the claims, which use non-tie values). -/
def round2 (q : ℚ) : ℚ := (round (q * 100) : ℤ) / 100

theorem round2_int_div (n : ℤ) : round2 ((n : ℚ) / 100) = (n : ℚ) / 100 := by
  unfold round2
  rw [div_mul_cancel₀ _ (by norm_num : (100 : ℚ) ≠ 0)]
  rw [round_intCast]

/-! ## The document model (`simplemind_parser.py`) -/

/-- Object identity of a Python `SimpleMindNode` instance. -/
abbrev Ref := ℕ

/-- State of a `SimpleMindNode` object (`SimpleMindNode.__init__`), with
`children` holding references to other node objects. -/
structure NodeObj where
  id : String
  text : String
  parent_id : String
  x : ℚ
  y : ℚ
  notes : String
  guid : String
  palette : String
  colorinfo : String
  icon : String
  url_link : String
  layout_mode : String
  layout_direction : String
  layout_flow : String
  parent_relation_guid : String
  children : List Ref
deriving DecidableEq

instance : Inhabited NodeObj :=
  ⟨{ id := "", text := "", parent_id := "", x := 0, y := 0, notes := "",
     guid := "", palette := "", colorinfo := "", icon := "", url_link := "",
     layout_mode := "", layout_direction := "", layout_flow := "",
     parent_relation_guid := "", children := [] }⟩

/-- `SimpleMindNode(id, text, parent_id, x, y, notes, guid)` as created by the
server's `add_node` handler and the decoder: remaining optional fields default
to empty, `children` starts empty. -/
def mkNode (id text parent_id : String) (x y : ℚ) (notes guid : String)
    (palette colorinfo icon url_link layout_mode layout_direction layout_flow :
      String := "") : NodeObj :=
  { id := id, text := text, parent_id := parent_id, x := x, y := y,
    notes := notes, guid := guid, palette := palette, colorinfo := colorinfo,
    icon := icon, url_link := url_link, layout_mode := layout_mode,
    layout_direction := layout_direction, layout_flow := layout_flow,
    parent_relation_guid := "", children := [] }

/-- State of a `SimpleMindMap` instance: object store plus the fields the
claims depend on (`nodes` dict and `root_node`); document metadata (title,
guid, style, viewport, relations, images) carries no node information and is
omitted. -/
structure SimpleMindMap where
  heap : List (Ref × NodeObj)
  nextRef : Ref
  nodes : List (String × Ref)
  root_node : Option Ref
deriving DecidableEq

/-- `SimpleMindMap()`: empty document. -/
def SimpleMindMap.empty : SimpleMindMap :=
  { heap := [], nextRef := 0, nodes := [], root_node := none }

/-- Dereference a node object (cannot fail for a reference that was ever
allocated; the default is never reached in the verified configurations). -/
def heapGet (m : SimpleMindMap) (r : Ref) : Option NodeObj := lookupA m.heap r

/-- Update the object stored at `r`. -/
def heapSet (m : SimpleMindMap) (r : Ref) (o : NodeObj) : SimpleMindMap :=
  { m with heap := setA m.heap r o }

/-- Allocate a fresh `SimpleMindNode` object (Python object construction). -/
def allocNode (m : SimpleMindMap) (o : NodeObj) : SimpleMindMap × Ref :=
  ({ m with heap := m.heap ++ [(m.nextRef, o)], nextRef := m.nextRef + 1 },
    m.nextRef)

/-- `SimpleMindMap.add_node(node)`:
`self.nodes[node.id] = node`; if `node.parent_id == "-1"` set `root_node`;
`elif node.parent_id in self.nodes` append to the parent's `children`. -/
def add_node (m : SimpleMindMap) (r : Ref) : SimpleMindMap :=
  match heapGet m r with
  | none => m
  | some o =>
    let m1 : SimpleMindMap := { m with nodes := setA m.nodes o.id r }
    if o.parent_id = "-1" then { m1 with root_node := some r }
    else
      match lookupA m1.nodes o.parent_id with
      | none => m1
      | some rp =>
        match heapGet m1 rp with
        | none => m1
        | some op => heapSet m1 rp { op with children := op.children ++ [r] }

/-- Allocate a node object and insert it (`SimpleMindNode(...)` followed by
`mindmap.add_node(node)`). -/
def addNodeObj (m : SimpleMindMap) (o : NodeObj) : SimpleMindMap :=
  let (m1, r) := allocNode m o
  add_node m1 r

/-- `SimpleMindMap.get_node(node_id)`: `self.nodes.get(node_id)`. -/
def get_node (m : SimpleMindMap) (i : String) : Option Ref := lookupA m.nodes i

/-- Whether a node matches a search query: case-insensitive substring match
on `text`, and on `notes` when `search_notes` is set (the `elif` of the
source collapses to this disjunction; matching both fields appends once). -/
def searchMatch (q_lower : String) (search_notes : Bool) (o : NodeObj) : Bool :=
  strContains (pyLower o.text) q_lower ||
    (search_notes && strContains (pyLower o.notes) q_lower)

/-- `SimpleMindMap.search_nodes(query, search_notes)`: iterate
`self.nodes.values()` in insertion order, appending a node once if its text
matches, else once if notes are searched and match. -/
def search_nodes (m : SimpleMindMap) (query : String) (search_notes : Bool) :
    List Ref :=
  let ql := pyLower query
  m.nodes.filterMap fun p =>
    match heapGet m p.2 with
    | none => none
    | some o =>
      if strContains (pyLower o.text) ql then some p.2
      else if search_notes && strContains (pyLower o.notes) ql then some p.2
      else none

/-! ## The codec (`SimpleMindParser.read` / `SimpleMindParser.write`)

An archive is abstracted to its flat list of `<topic>` records (the `meta`
block, `relations` and image entries carry no node data).  An `Option` field
records presence or absence of the corresponding optional XML attribute or
child element; coordinate attributes carry the parsed rational value. -/

/-- One `<topic>` element of `document/mindmap.xml`. -/
structure TopicRecord where
  id : String
  parent : String
  guid : String
  x : ℚ
  y : ℚ
  palette : Option String
  colorinfo : Option String
  icon : Option String
  text : String
  note : Option String
  url_link : Option String
  /-- `<layout mode direction flow>`; an omitted `direction`/`flow`
  attribute is represented by `""`, exactly what the decoder's
  `.get(..., '')` produces. -/
  layout : Option (String × String × String)
  parent_relation : Option String
deriving DecidableEq

/-- First pass of `SimpleMindParser.read` for one `<topic>`: build the
`SimpleMindNode` with every optional attribute defaulted to the empty
string. -/
def decNode (rec : TopicRecord) : NodeObj :=
  { id := rec.id
    text := rec.text
    parent_id := rec.parent
    x := rec.x
    y := rec.y
    notes := rec.note.getD ""
    guid := rec.guid
    palette := rec.palette.getD ""
    colorinfo := rec.colorinfo.getD ""
    icon := rec.icon.getD ""
    url_link := rec.url_link.getD ""
    layout_mode := (rec.layout.map (fun l => l.1)).getD ""
    layout_direction := (rec.layout.map (fun l => l.2.1)).getD ""
    layout_flow := (rec.layout.map (fun l => l.2.2)).getD ""
    parent_relation_guid := rec.parent_relation.getD ""
    children := [] }

/-- `SimpleMindParser.read`: create the nodes of the topic list in document
order via `add_node` (the source contains no second linking pass; linking
happens only through `add_node`'s parent check). -/
def decode (recs : List TopicRecord) : SimpleMindMap :=
  recs.foldl (fun m rec => addNodeObj m (decNode rec)) SimpleMindMap.empty

/-- Emit the attributes of one node as a `<topic>` record
(`add_topic_element`, attribute part): optional fields are written only when
non-empty; coordinates are written as `f"{v:.2f}"`. -/
def mkRecord (o : NodeObj) : TopicRecord :=
  { id := o.id
    parent := o.parent_id
    guid := o.guid
    x := round2 o.x
    y := round2 o.y
    palette := if o.palette = "" then none else some o.palette
    colorinfo := if o.colorinfo = "" then none else some o.colorinfo
    icon := if o.icon = "" then none else some o.icon
    text := o.text
    note := if o.notes = "" then none else some o.notes
    url_link := if o.url_link = "" then none else some o.url_link
    layout :=
      if o.layout_mode = "" then none
      else some (o.layout_mode, o.layout_direction, o.layout_flow)
    parent_relation :=
      if o.parent_relation_guid = "" then none
      else some o.parent_relation_guid }

/-- Recursive part of `add_topic_element`: emit the node then its children,
pre-order.  The Python recursion is structural on the object graph; the fuel
parameter bounds the recursion depth and is never exhausted on a
well-formed document. -/
def emitT (m : SimpleMindMap) : ℕ → Ref → List TopicRecord
  | 0, _ => []
  | fuel + 1, r =>
    match heapGet m r with
    | none => []
    | some o => mkRecord o :: o.children.flatMap (emitT m fuel)

/-- `SimpleMindParser.write`, topics section: emit every node whose
`parent_id` is the root sentinel, recursively with its subtree. -/
def encode (m : SimpleMindMap) : List TopicRecord :=
  let roots := m.nodes.filterMap fun p =>
    match heapGet m p.2 with
    | some o => if o.parent_id = "-1" then some p.2 else none
    | none => none
  roots.flatMap (emitT m (m.nodes.length + 1))

/-! ## The tool handlers (`simplemind_mcp_server.py`, `handle_call_tool`)

Each handler is modelled as a function from document state (and arguments) to
a result constructor plus the resulting document state; the read/write of the
archive around each handler is the codec above and is not repeated here.
Result constructors distinguish the handler's crafted in-band error responses
from a Python exception propagating to the dispatcher's blanket
`except Exception` handler. -/

/-- Truthiness of an optional string argument (`if not new_text`): absent or
empty is falsy. -/
def pyTruthyStr : Option String → Bool
  | none => false
  | some s => s ≠ ""

/-- Python `max(list)`; raises on an empty list (`none`). -/
def pyMaxList : List ℤ → Option ℤ
  | [] => none
  | h :: t => some (t.foldl max h)

/-- The `add_node` placement computation (lines 450–494), a pure function of
the grandparent position (when the parent is not a root), the parent
position, and the existing sibling count.  `sf` stands for `math.sqrt`. -/
def computePosition (sf : ℚ → ℚ) (gp : Option (ℚ × ℚ)) (p : ℚ × ℚ)
    (nChildren : ℕ) : ℚ × ℚ :=
  match gp with
  | some (gx, gy) =>
    let dx := p.1 - gx
    let dy := p.2 - gy
    let base_x := p.1 + dx
    let base_y := p.2 + dy
    if 0 < nChildren then
      let perp_dx := -dy
      let perp_dy := dx
      let perp_length := sf (perp_dx ^ 2 + perp_dy ^ 2)
      let perp_dx' := if 0 < perp_length then perp_dx / perp_length * 80 else perp_dx
      let perp_dy' := if 0 < perp_length then perp_dy / perp_length * 80 else perp_dy
      let offset_mult : ℤ :=
        if nChildren % 2 = 0 then ((nChildren : ℤ) / 2)
        else -(((nChildren : ℤ) + 1) / 2)
      (base_x + perp_dx' * offset_mult, base_y + perp_dy' * offset_mult)
    else (base_x, base_y)
  | none => (p.1 + 200, p.2 + (nChildren : ℚ) * 100)

/-- Outcome of the `add_node` tool: crafted parent-not-found response,
uncaught exception (reaching the dispatcher's blanket handler), or success
with the allocated id. -/
inductive AddNodeRes where
  | parentNotFound
  | exn
  | ok (newId : String)
deriving DecidableEq

/-- The `add_node` tool handler (lines 430–513): resolve the parent, allocate
`str(max(int(id) for id in nodes) + 1)` (an unparsable id raises `ValueError`,
modelled by `.exn`), compute the placement, create and insert the node. -/
def tool_add_node (sf : ℚ → ℚ) (m : SimpleMindMap)
    (parent_id text notes : String) : AddNodeRes × SimpleMindMap :=
  match get_node m parent_id with
  | none => (.parentNotFound, m)
  | some rp =>
    match (m.nodes.map Prod.fst).mapM pyInt with
    | none => (.exn, m)
    | some vals =>
      match pyMaxList vals with
      | none => (.exn, m)
      | some mx =>
        let new_id := intDecStr (mx + 1)
        let parent := (heapGet m rp).getD default
        let gp : Option (ℚ × ℚ) :=
          if parent.parent_id ≠ "-1" then
            (get_node m parent.parent_id).map fun rg =>
              (((heapGet m rg).getD default).x, ((heapGet m rg).getD default).y)
          else none
        let pos := computePosition sf gp (parent.x, parent.y)
          parent.children.length
        let new_node := mkNode new_id text parent_id pos.1 pos.2 notes
          ("GENERATED_" ++ new_id)
        (.ok new_id, addNodeObj m new_node)

/-- Outcome of the `update_node` tool. -/
inductive UpdRes where
  | noFields
  | notFound
  | ok
deriving DecidableEq

/-- The `update_node` tool handler (lines 515–550): reject when both
arguments are falsy (`if not new_text and not new_notes`), then resolve the
node; apply `text` only when truthy, apply `notes` whenever present
(including the empty string). -/
def tool_update_node (m : SimpleMindMap) (node_id : String)
    (text notes : Option String) : UpdRes × SimpleMindMap :=
  if ¬ pyTruthyStr text ∧ ¬ pyTruthyStr notes then (.noFields, m)
  else
    match get_node m node_id with
    | none => (.notFound, m)
    | some r =>
      let o := (heapGet m r).getD default
      let o1 := if pyTruthyStr text then { o with text := text.getD "" } else o
      let o2 := if notes.isSome then { o1 with notes := notes.getD "" } else o1
      (.ok, heapSet m r o2)

/-- `count_descendants` (lines 573–577), fuelled on recursion depth. -/
def countDesc (m : SimpleMindMap) : ℕ → Ref → ℕ
  | 0, _ => 0
  | fuel + 1, r =>
    match heapGet m r with
    | none => 0
    | some o => 1 + (o.children.map (countDesc m fuel)).sum

/-- `remove_node_and_children` (lines 587–592): post-order walk over the
object graph deleting ids from the `nodes` dict; only the dict changes, so
the walk is a function of the (fixed) heap. -/
def removeRec (heap : List (Ref × NodeObj)) :
    ℕ → Ref → List (String × Ref) → List (String × Ref)
  | 0, _, nd => nd
  | fuel + 1, r, nd =>
    match lookupA heap r with
    | none => nd
    | some o =>
      let nd1 := o.children.foldl (fun acc c => removeRec heap fuel c acc) nd
      if (lookupA nd1 o.id).isSome then delA nd1 o.id else nd1

/-- Outcome of the `delete_node` tool. -/
inductive DelRes where
  | notFound
  | rootForbidden
  | ok (count : ℕ)
deriving DecidableEq

/-- The `delete_node` tool handler (lines 552–600): resolve the node, refuse
the root, count the subtree, remove the node from its parent's children
(comparing object ids), then delete the subtree's ids from the dict. -/
def tool_delete_node (m : SimpleMindMap) (node_id : String) :
    DelRes × SimpleMindMap :=
  match get_node m node_id with
  | none => (.notFound, m)
  | some r =>
    let o := (heapGet m r).getD default
    if o.parent_id = "-1" then (.rootForbidden, m)
    else
      let fuel := m.nodes.length + 1
      let deleted_count := countDesc m fuel r
      let m1 :=
        match get_node m o.parent_id with
        | none => m
        | some rp =>
          match heapGet m rp with
          | none => m
          | some op =>
            let kept := op.children.filter
              fun c => ((heapGet m c).getD default).id ≠ node_id
            heapSet m rp { op with children := kept }
      (.ok deleted_count, { m1 with nodes := removeRec m1.heap fuel r m1.nodes })

/-- Outcome of the `get_node_path` tool; `stillRunning` means the unbounded
`while` loop of the source has not finished within the given number of
iterations. -/
inductive PathRes where
  | notFound
  | ok (path : List (String × String))
  | stillRunning
deriving DecidableEq

/-- The `while current:` loop of `get_node_path` (lines 616–622):
prepend `(id, text)`, stop at the sentinel, else follow `parent_id`
(a failed parent lookup makes `current` `None` and ends the loop, returning
the truncated path). -/
def pathLoop (m : SimpleMindMap) : ℕ → Option Ref → List (String × String) →
    PathRes
  | 0, _, _ => .stillRunning
  | _ + 1, none, acc => .ok acc
  | fuel + 1, some r, acc =>
    match heapGet m r with
    | none => .ok acc
    | some o =>
      let acc' := (o.id, o.text) :: acc
      if o.parent_id = "-1" then .ok acc'
      else pathLoop m fuel (get_node m o.parent_id) acc'

/-- The `get_node_path` tool handler (lines 602–633). -/
def tool_get_node_path (m : SimpleMindMap) (node_id : String) (fuel : ℕ) :
    PathRes :=
  match get_node m node_id with
  | none => .notFound
  | some r => pathLoop m fuel (some r) []

/-- A mutating tool invocation (the operations quantified over by the
tree-invariant claim). -/
inductive Op where
  | add (parent_id text notes : String)
  | upd (node_id : String) (text notes : Option String)
  | del (node_id : String)

/-- Document state after one tool call (failures leave the state — hence the
persisted file — unchanged). -/
def applyOp (sf : ℚ → ℚ) (m : SimpleMindMap) : Op → SimpleMindMap
  | .add pid t nts => (tool_add_node sf m pid t nts).2
  | .upd i t nts => (tool_update_node m i t nts).2
  | .del i => (tool_delete_node m i).2

/-- Document state after a sequence of tool calls. -/
def applyOps (sf : ℚ → ℚ) (m : SimpleMindMap) (ops : List Op) : SimpleMindMap :=
  ops.foldl (applyOp sf) m

/-! ## Tree abstraction and the §3 document invariants

A well-formed document is abstracted by a rose tree of node ids (`IdTree`).
The representation predicate `repNode` ties each tree node to a live heap
object: the `nodes` dict maps the id to the object, the object's `id` and
`parent_id` match the tree position, and its `children` list aligns
one-to-one with the tree children. -/

/-- Rose tree of node ids. -/
inductive IdTree where
  | mk (rootId : String) (children : List IdTree)

/-- Root id of a tree. -/
def IdTree.rootId : IdTree → String
  | .mk i _ => i

/-- Children of the root. -/
def IdTree.childTrees : IdTree → List IdTree
  | .mk _ cs => cs

mutual
/-- Pre-order list of the ids of a tree. -/
def IdTree.preIds : IdTree → List String
  | .mk i cs => i :: preIdsF cs
/-- Pre-order ids of a forest. -/
def preIdsF : List IdTree → List String
  | [] => []
  | c :: cs => c.preIds ++ preIdsF cs
end

mutual
/-- The document realizes tree `t` at reference `r`, with expected parent id
`expParent` (`"-1"` at the root). -/
def repNode (m : SimpleMindMap) (expParent : String) : IdTree → Ref → Bool
  | .mk i cs, r =>
    decide (lookupA m.nodes i = some r) &&
    match heapGet m r with
    | none => false
    | some o =>
      decide (o.id = i) && decide (o.parent_id = expParent) &&
        repForest m i cs o.children
/-- The children of a node realize the corresponding subtrees, in order. -/
def repForest (m : SimpleMindMap) (pid : String) :
    List IdTree → List Ref → Bool
  | [], [] => true
  | c :: cs, rc :: rcs => repNode m pid c rc && repForest m pid cs rcs
  | [], _ :: _ => false
  | _ :: _, [] => false
end

/-- Well-formedness of a document (the invariants of spec §3, plus the
object-store bookkeeping they presuppose), witnessed by an abstracting tree:
unique ids, a single root, every node realized at its tree position, no node
id equal to the root sentinel. -/
structure DocInv (m : SimpleMindMap) (t : IdTree) : Prop where
  heapNodup : (m.heap.map Prod.fst).Nodup
  heapFresh : ∀ p ∈ m.heap, p.1 < m.nextRef
  keysNodup : (m.nodes.map Prod.fst).Nodup
  refsNodup : (m.nodes.map Prod.snd).Nodup
  preNodup : t.preIds.Nodup
  keysPerm : List.Perm (m.nodes.map Prod.fst) t.preIds
  noSentinel : "-1" ∉ t.preIds
  rootRep : ∃ rr, m.root_node = some rr ∧ repNode m "-1" t rr = true

/-- The claimed mutual-consistency property: a node appears in another
node's children sequence iff its `parent_id` equals that node's id
(over all pairs of nodes of the mapping). -/
def childrenConsistentB (m : SimpleMindMap) : Bool :=
  m.nodes.all fun p1 => m.nodes.all fun p2 =>
    match heapGet m p1.2, heapGet m p2.2 with
    | some o1, some o2 => (o1.children.contains p2.2) == (o2.parent_id == p1.1)
    | _, _ => true

/-- One parent-to-child step through a `children` list. -/
def childStep (m : SimpleMindMap) (a b : Ref) : Prop :=
  ∃ oa, heapGet m a = some oa ∧ b ∈ oa.children

/-- Every node of the mapping is reachable from the root through children
sequences. -/
def AllReachable (m : SimpleMindMap) : Prop :=
  ∃ rr, m.root_node = some rr ∧
    ∀ p ∈ m.nodes, Relation.ReflTransGen (childStep m) rr p.2

/-- Walk `parent_id` links from a given parent id; `true` iff the sentinel is
reached within the given number of steps. -/
def chainToRootB (m : SimpleMindMap) : ℕ → String → Bool
  | 0, _ => false
  | fuel + 1, pid =>
    if pid = "-1" then true
    else
      match lookupA m.nodes pid with
      | none => false
      | some r =>
        match heapGet m r with
        | none => false
        | some o => chainToRootB m fuel o.parent_id

/-- Executable statement of the document invariants of spec §3, used to
exhibit documents that satisfy the claims' hypotheses: unique ids, id-keyed
objects, mutual consistency of `parent_id` and children sequences, and
parent chains that reach the sentinel within the mapping's size (hence
resolve and are acyclic). -/
def inv3B (m : SimpleMindMap) : Bool :=
  decide ((m.nodes.map Prod.fst).Nodup) &&
  childrenConsistentB m &&
  m.nodes.all fun p =>
    match heapGet m p.2 with
    | none => false
    | some o =>
      (o.id == p.1) && chainToRootB m (m.nodes.length + 1) o.parent_id

mutual
/-- Locate the subtree rooted at id `i`. -/
def subtreeAt : IdTree → String → Option IdTree
  | .mk j cs, i => if j = i then some (.mk j cs) else subtreeAtF cs i
/-- Locate a subtree in a forest. -/
def subtreeAtF : List IdTree → String → Option IdTree
  | [], _ => none
  | c :: cs, i =>
    match subtreeAt c i with
    | some s => some s
    | none => subtreeAtF cs i
end

mutual
/-- Append a new leaf `nid` to the children of the node with id `pid`. -/
def insertLeafT (pid nid : String) : IdTree → IdTree
  | .mk j cs =>
    if j = pid then .mk j (cs ++ [.mk nid []])
    else .mk j (insertLeafF pid nid cs)
/-- Leaf insertion in a forest. -/
def insertLeafF (pid nid : String) : List IdTree → List IdTree
  | [] => []
  | c :: cs => insertLeafT pid nid c :: insertLeafF pid nid cs
end

mutual
/-- Remove every subtree whose root id is `i`. -/
def removeSubT (i : String) : IdTree → IdTree
  | .mk j cs => .mk j (removeSubF i cs)
/-- Subtree removal in a forest. -/
def removeSubF (i : String) : List IdTree → List IdTree
  | [] => []
  | c :: cs =>
    if c.rootId = i then removeSubF i cs
    else removeSubT i c :: removeSubF i cs
end

/-! ## Observable abstraction of a document

For the round-trip claim, two documents are compared through `absGet`: per
node id, all field values plus the ids of the children in order.  This is
exactly the claimed "same node set, same field values, same tree shape". -/

/-- Field values and children ids of one node. -/
structure AbsNode where
  id : String
  text : String
  parent_id : String
  x : ℚ
  y : ℚ
  notes : String
  guid : String
  palette : String
  colorinfo : String
  icon : String
  url_link : String
  layout_mode : String
  layout_direction : String
  layout_flow : String
  parent_relation_guid : String
  childIds : List String
deriving DecidableEq

/-- Observation of the node with id `i`: its fields and its children's ids. -/
def absGet (m : SimpleMindMap) (i : String) : Option AbsNode :=
  match lookupA m.nodes i with
  | none => none
  | some r =>
    match heapGet m r with
    | none => none
    | some o =>
      some { id := o.id, text := o.text, parent_id := o.parent_id, x := o.x,
             y := o.y, notes := o.notes, guid := o.guid, palette := o.palette,
             colorinfo := o.colorinfo, icon := o.icon, url_link := o.url_link,
             layout_mode := o.layout_mode,
             layout_direction := o.layout_direction,
             layout_flow := o.layout_flow,
             parent_relation_guid := o.parent_relation_guid,
             childIds := o.children.map
               fun c => ((heapGet m c).getD default).id }

/-! ## Characterization of decoding a parent-before-child record list -/

/-- Pair each list element with its index, starting at `k`. -/
def enumFromL {α : Type} (k : ℕ) : List α → List (ℕ × α)
  | [] => []
  | a :: t => (k, a) :: enumFromL (k + 1) t

theorem enumFromL_append {α : Type} (k : ℕ) (xs ys : List α) :
    enumFromL k (xs ++ ys) = enumFromL k xs ++ enumFromL (k + xs.length) ys := by
  induction xs generalizing k with
  | nil => simp [enumFromL]
  | cons a t ih =>
    simp only [List.cons_append, enumFromL, List.length_cons]
    show (k, a) :: enumFromL (k + 1) (t ++ ys) =
      (k, a) :: (enumFromL (k + 1) t ++ enumFromL (k + (t.length + 1)) ys)
    rw [ih (k + 1)]
    have : k + 1 + t.length = k + (t.length + 1) := by omega
    rw [this]

theorem enumFromL_fst {α : Type} (k : ℕ) (xs : List α) :
    (enumFromL k xs).map Prod.fst = List.range' k xs.length := by
  induction xs generalizing k with
  | nil => simp [enumFromL]
  | cons a t ih => simp [enumFromL, List.range', ih]

theorem enumFromL_fst_lt {α : Type} {k : ℕ} {xs : List α} {p : ℕ × α}
    (h : p ∈ enumFromL k xs) : k ≤ p.1 ∧ p.1 < k + xs.length := by
  induction xs generalizing k with
  | nil => simp [enumFromL] at h
  | cons a t ih =>
    rcases List.mem_cons.1 h with rfl | h
    · simp
    · have := ih h
      simp only [List.length_cons]
      omega

theorem enumFromL_snd {α : Type} (k : ℕ) (xs : List α) :
    (enumFromL k xs).map Prod.snd = xs := by
  induction xs generalizing k with
  | nil => rfl
  | cons a t ih => simp [enumFromL, ih]

/-- References of the records naming `i` as parent (the children the decoder
links under node `i`), for records indexed from `base`. -/
def recChildRefs (base : ℕ) (recs : List TopicRecord) (i : String) :
    List Ref :=
  ((enumFromL base recs).filter fun p => p.2.parent = i).map Prod.fst

/-- The heap the decoder builds: the `k`-th record's object, with the
children links accumulated by `add_node`. -/
def decodeHeap (recs : List TopicRecord) : List (Ref × NodeObj) :=
  (enumFromL 0 recs).map fun p =>
    (p.1, { decNode p.2 with children := recChildRefs 0 recs p.2.id })

/-- The `nodes` dict the decoder builds: id of the `k`-th record to `k`. -/
def decodeNodes (recs : List TopicRecord) : List (String × Ref) :=
  (enumFromL 0 recs).map fun p => (p.2.id, p.1)

/-- The final `root_node`: the reference of the last record whose parent is
the sentinel. -/
def lastRootRef (recs : List TopicRecord) : Option Ref :=
  ((enumFromL 0 recs).filter fun p => p.2.parent = "-1").foldl
    (fun _ p => some p.1) none

/-- Every record's parent refers to an earlier record's id or is the
sentinel (the flat list is in parent-before-child order). -/
def parentsSeen (seen : List String) : List TopicRecord → Prop
  | [] => True
  | r :: rest => (r.parent = "-1" ∨ r.parent ∈ seen) ∧
      parentsSeen (seen ++ [r.id]) rest

/-- A record list a conformant encoder produces: distinct non-sentinel ids,
parents before children. -/
structure GoodRecs (recs : List TopicRecord) : Prop where
  idsNodup : (recs.map TopicRecord.id).Nodup
  noSentinel : "-1" ∉ recs.map TopicRecord.id
  parentsOk : parentsSeen [] recs

theorem setA_eq_append {α β : Type} [DecidableEq α] {l : List (α × β)} {k : α}
    (v : β) (h : k ∉ l.map Prod.fst) : setA l k v = l ++ [(k, v)] := by
  induction l with
  | nil => simp [setA]
  | cons p t ih =>
    obtain ⟨k', v'⟩ := p
    simp only [List.map_cons, List.mem_cons] at h
    push_neg at h
    simp [setA, Ne.symm h.1, ih h.2]

theorem setA_eq_map {α β : Type} [DecidableEq α] {l : List (α × β)} {k : α}
    (v : β) (hnd : (l.map Prod.fst).Nodup) (h : k ∈ l.map Prod.fst) :
    setA l k v = l.map fun p => if p.1 = k then (k, v) else p := by
  induction l with
  | nil => simp at h
  | cons p t ih =>
    obtain ⟨k', v'⟩ := p
    simp only [List.map_cons, List.nodup_cons] at hnd
    simp only [List.map_cons, List.mem_cons] at h
    by_cases hk : k' = k
    · subst hk
      have : ∀ p ∈ t, (fun p : α × β => if p.1 = k' then (k', v) else p) p = p := by
        intro p hp
        have : p.1 ≠ k' := by
          intro hc
          exact hnd.1 (hc ▸ List.mem_map.2 ⟨p, hp, rfl⟩)
        simp [this]
      simp [setA, List.map_congr_left this]
    · rcases h with h | h
      · exact (hk h.symm).elim
      · simp [setA, hk, ih hnd.2 h]

theorem parentsSeen_append (seen : List String) (xs ys : List TopicRecord) :
    parentsSeen seen (xs ++ ys) ↔
      parentsSeen seen xs ∧ parentsSeen (seen ++ xs.map TopicRecord.id) ys := by
  induction xs generalizing seen with
  | nil => simp [parentsSeen]
  | cons r t ih =>
    constructor
    · rintro ⟨h0, h1⟩
      have h1' := (ih (seen ++ [r.id])).mp h1
      refine ⟨⟨h0, h1'.1⟩, ?_⟩
      simpa [List.append_assoc] using h1'.2
    · rintro ⟨⟨h0, h1⟩, h2⟩
      refine ⟨h0, (ih (seen ++ [r.id])).mpr ⟨h1, ?_⟩⟩
      simpa [List.append_assoc] using h2

theorem parentsSeen_subset {seen : List String} {recs : List TopicRecord}
    (h : parentsSeen seen recs) :
    ∀ r ∈ recs, r.parent = "-1" ∨ r.parent ∈ seen ∨
      r.parent ∈ recs.map TopicRecord.id := by
  induction recs generalizing seen with
  | nil => simp
  | cons r0 t ih =>
    intro r hr
    obtain ⟨h0, ht⟩ := h
    rcases List.mem_cons.1 hr with rfl | hr
    · tauto
    · rcases ih ht r hr with h1 | h1 | h1
      · exact Or.inl h1
      · simp only [List.mem_append, List.mem_singleton] at h1
        rcases h1 with h1 | h1
        · exact Or.inr (Or.inl h1)
        · simp [h1]
      · simp [h1]

theorem decodeNodes_fst (recs : List TopicRecord) :
    (decodeNodes recs).map Prod.fst = recs.map TopicRecord.id := by
  unfold decodeNodes
  rw [List.map_map]
  have : (Prod.fst ∘ fun p : ℕ × TopicRecord => (p.2.id, p.1)) =
      TopicRecord.id ∘ Prod.snd := rfl
  rw [this, ← List.map_map, enumFromL_snd]

theorem decodeHeap_fst (recs : List TopicRecord) :
    (decodeHeap recs).map Prod.fst = List.range' 0 recs.length := by
  unfold decodeHeap
  rw [List.map_map]
  have : (Prod.fst ∘ fun p : ℕ × TopicRecord =>
      (p.1, { decNode p.2 with children := recChildRefs 0 recs p.2.id })) =
      Prod.fst := rfl
  rw [this, enumFromL_fst]

theorem recChildRefs_append_single (rs : List TopicRecord) (rec : TopicRecord)
    (i : String) :
    recChildRefs 0 (rs ++ [rec]) i =
      recChildRefs 0 rs i ++ if rec.parent = i then [rs.length] else [] := by
  unfold recChildRefs
  rw [enumFromL_append, List.filter_append, List.map_append]
  congr 1
  by_cases h : rec.parent = i <;> simp [enumFromL, List.filter, h]

theorem lastRootRef_append (rs : List TopicRecord) (rec : TopicRecord) :
    lastRootRef (rs ++ [rec]) =
      if rec.parent = "-1" then some rs.length else lastRootRef rs := by
  unfold lastRootRef
  rw [enumFromL_append, List.filter_append]
  by_cases h : rec.parent = "-1"
  · simp [enumFromL, List.filter, h, List.foldl_append]
  · simp [enumFromL, List.filter, h, List.foldl_append]

theorem enumFromL_fst_inj {α : Type} {k : ℕ} {xs : List α} {p q : ℕ × α}
    (hp : p ∈ enumFromL k xs) (hq : q ∈ enumFromL k xs) (h : p.1 = q.1) :
    p = q := by
  induction xs generalizing k with
  | nil => simp [enumFromL] at hp
  | cons a t ih =>
    rcases List.mem_cons.1 hp with rfl | hp <;>
      rcases List.mem_cons.1 hq with rfl | hq
    · rfl
    · have := enumFromL_fst_lt hq
      omega
    · have := enumFromL_fst_lt hp
      omega
    · exact ih hp hq

theorem lookupA_decodeNodes {recs : List TopicRecord}
    (hnd : (recs.map TopicRecord.id).Nodup) {k : ℕ} {r : TopicRecord}
    (h : (k, r) ∈ enumFromL 0 recs) :
    lookupA (decodeNodes recs) r.id = some k := by
  apply lookupA_of_mem
  · rw [decodeNodes_fst]
    exact hnd
  · unfold decodeNodes
    exact List.mem_map.2 ⟨(k, r), h, rfl⟩

theorem lookupA_decodeHeap {recs : List TopicRecord} {k : ℕ} {r : TopicRecord}
    (h : (k, r) ∈ enumFromL 0 recs) :
    lookupA (decodeHeap recs) k =
      some { decNode r with children := recChildRefs 0 recs r.id } := by
  apply lookupA_of_mem
  · rw [decodeHeap_fst]
    exact List.nodup_range' _ _
  · unfold decodeHeap
    exact List.mem_map.2 ⟨(k, r), h, rfl⟩

theorem enumFromL_mem_snd {α : Type} {k : ℕ} {xs : List α} {p : ℕ × α}
    (h : p ∈ enumFromL k xs) : p.2 ∈ xs := by
  induction xs generalizing k with
  | nil => simp [enumFromL] at h
  | cons a t ih =>
    rcases List.mem_cons.1 h with rfl | h
    · simp
    · exact List.mem_cons_of_mem _ (ih h)

theorem mem_enumFromL_of_mem {α : Type} {xs : List α} {x : α} (k : ℕ)
    (h : x ∈ xs) : ∃ j, (j, x) ∈ enumFromL k xs := by
  induction xs generalizing k with
  | nil => simp at h
  | cons a t ih =>
    rcases List.mem_cons.1 h with rfl | h
    · exact ⟨k, List.mem_cons_self _ _⟩
    · obtain ⟨j, hj⟩ := ih (k + 1) h
      exact ⟨j, List.mem_cons_of_mem _ hj⟩

theorem enumFromL_key_inj {α β : Type} [DecidableEq β] {f : α → β} {k : ℕ}
    {xs : List α} (hnd : (xs.map f).Nodup) {p q : ℕ × α}
    (hp : p ∈ enumFromL k xs) (hq : q ∈ enumFromL k xs)
    (h : f p.2 = f q.2) : p = q := by
  induction xs generalizing k with
  | nil => simp [enumFromL] at hp
  | cons a t ih =>
    simp only [List.map_cons, List.nodup_cons] at hnd
    rcases List.mem_cons.1 hp with rfl | hp <;>
      rcases List.mem_cons.1 hq with rfl | hq
    · rfl
    · exact absurd (List.mem_map.2 ⟨q.2, enumFromL_mem_snd hq, h.symm⟩) hnd.1
    · exact absurd (List.mem_map.2 ⟨p.2, enumFromL_mem_snd hp, h⟩) hnd.1
    · exact ih hnd.2 hp hq

theorem recChildRefs_nil {recs : List TopicRecord} {i : String}
    (h : ∀ r ∈ recs, r.parent ≠ i) : recChildRefs 0 recs i = [] := by
  unfold recChildRefs
  rw [List.filter_eq_nil_iff.2, List.map_nil]
  intro p hp
  simpa using h p.2 (enumFromL_mem_snd hp)

theorem decodeNodes_append_single (rs : List TopicRecord) (rec : TopicRecord) :
    decodeNodes (rs ++ [rec]) = decodeNodes rs ++ [(rec.id, rs.length)] := by
  unfold decodeNodes
  rw [enumFromL_append, List.map_append]
  simp [enumFromL]

theorem add_node_spec (m : SimpleMindMap) (r : Ref) (o : NodeObj)
    (hM : heapGet m r = some o) :
    add_node m r =
      (let m1 : SimpleMindMap := { m with nodes := setA m.nodes o.id r }
      if o.parent_id = "-1" then { m1 with root_node := some r }
      else
        match lookupA m1.nodes o.parent_id with
        | none => m1
        | some rp =>
          match heapGet m1 rp with
          | none => m1
          | some op => heapSet m1 rp { op with children := op.children ++ [r] }) := by
  unfold add_node
  rw [hM]

theorem add_node_root {m : SimpleMindMap} {r : Ref} {o : NodeObj}
    (hM : heapGet m r = some o) (hp : o.parent_id = "-1") :
    add_node m r =
      { m with
        nodes := setA m.nodes o.id r,
        root_node := some r } := by
  unfold add_node
  rw [hM]
  simp [hp]

theorem add_node_link {m : SimpleMindMap} {r : Ref} {o : NodeObj} {rp : Ref}
    {op : NodeObj} (hM : heapGet m r = some o) (hp : o.parent_id ≠ "-1")
    (hlp : lookupA (setA m.nodes o.id r) o.parent_id = some rp)
    (hop : heapGet m rp = some op) :
    add_node m r =
      { m with
        nodes := setA m.nodes o.id r,
        heap := setA m.heap rp { op with children := op.children ++ [r] } } := by
  unfold add_node
  rw [hM]
  simp only [if_neg hp]
  have h1 : lookupA (SimpleMindMap.nodes { m with nodes := setA m.nodes o.id r })
      o.parent_id = some rp := hlp
  have h2 : heapGet { m with nodes := setA m.nodes o.id r } rp = some op := hop
  simp only [h1, h2]
  rfl

theorem add_node_unlinked {m : SimpleMindMap} {r : Ref} {o : NodeObj}
    (hM : heapGet m r = some o) (hp : o.parent_id ≠ "-1")
    (hlp : lookupA (setA m.nodes o.id r) o.parent_id = none) :
    add_node m r = { m with nodes := setA m.nodes o.id r } := by
  unfold add_node
  rw [hM]
  simp only [if_neg hp]
  have h1 : lookupA (SimpleMindMap.nodes { m with nodes := setA m.nodes o.id r })
      o.parent_id = none := hlp
  rw [h1]

theorem decode_eq (recs : List TopicRecord) :
    GoodRecs recs →
      decode recs =
        { heap := decodeHeap recs, nextRef := recs.length,
          nodes := decodeNodes recs, root_node := lastRootRef recs } := by
  induction recs using List.reverseRecOn with
  | nil => intro _; rfl
  | append_singleton rs rec ih =>
    intro hg
    have hnd := hg.idsNodup
    rw [List.map_append, List.map_singleton] at hnd
    have hsplit := List.nodup_append.1 hnd
    have hndrs : (rs.map TopicRecord.id).Nodup := hsplit.1
    have hfresh : rec.id ∉ rs.map TopicRecord.id := fun hm =>
      hsplit.2.2 hm (List.mem_singleton.2 rfl)
    have hns := hg.noSentinel
    rw [List.map_append, List.map_singleton] at hns
    have hnsrs : "-1" ∉ rs.map TopicRecord.id := fun h =>
      hns (List.mem_append.2 (Or.inl h))
    have hrecns : rec.id ≠ "-1" := fun h =>
      hns (List.mem_append.2 (Or.inr (by simp [h])))
    have hpar := (parentsSeen_append [] rs [rec]).1 hg.parentsOk
    have hparrs : parentsSeen [] rs := hpar.1
    have hrecpar : rec.parent = "-1" ∨ rec.parent ∈ rs.map TopicRecord.id := by
      have h1 := hpar.2.1
      simpa using h1
    have ihm := ih ⟨hndrs, hnsrs, hparrs⟩
    have hnochild : ∀ r' ∈ rs ++ [rec], r'.parent ≠ rec.id := by
      intro r' hr' hcon
      rcases List.mem_append.1 hr' with h | h
      · rcases parentsSeen_subset hparrs r' h with h1 | h1 | h1
        · exact hrecns (hcon.symm.trans h1)
        · simp at h1
        · exact hfresh (hcon ▸ h1)
      · have : r' = rec := by simpa using h
        subst this
        rcases hrecpar with h1 | h1
        · exact hrecns (hcon.symm.trans h1)
        · exact hfresh (hcon ▸ h1)
    have hstep : decode (rs ++ [rec]) = addNodeObj (decode rs) (decNode rec) := by
      unfold decode
      rw [List.foldl_append]
      rfl
    rw [hstep, ihm]
    set L := rs.length with hL
    have halloc : addNodeObj
        { heap := decodeHeap rs, nextRef := L, nodes := decodeNodes rs,
          root_node := lastRootRef rs } (decNode rec) =
        add_node
          { heap := decodeHeap rs ++ [(L, decNode rec)], nextRef := L + 1,
            nodes := decodeNodes rs, root_node := lastRootRef rs } L := rfl
    rw [halloc]
    have hhg : heapGet
        { heap := decodeHeap rs ++ [(L, decNode rec)], nextRef := L + 1,
          nodes := decodeNodes rs, root_node := lastRootRef rs } L =
        some (decNode rec) := by
      show lookupA (decodeHeap rs ++ [(L, decNode rec)]) L = some (decNode rec)
      rw [lookupA_append_right]
      · simp [lookupA]
      · rw [lookupA_eq_none, decodeHeap_fst]
        intro hmem
        have := List.mem_range'_1.1 hmem
        omega
    have hido : (decNode rec).id = rec.id := rfl
    have hpido : (decNode rec).parent_id = rec.parent := rfl
    have hsetn : setA (decodeNodes rs) (decNode rec).id L =
        decodeNodes rs ++ [(rec.id, L)] := by
      rw [hido, setA_eq_append]
      rw [decodeNodes_fst]
      exact hfresh
    have hchildnew : recChildRefs 0 (rs ++ [rec]) rec.id = [] :=
      recChildRefs_nil hnochild
    have hheapTgt : decodeHeap (rs ++ [rec]) =
        (enumFromL 0 rs).map (fun p =>
          (p.1, { decNode p.2 with
                  children := recChildRefs 0 (rs ++ [rec]) p.2.id })) ++
          [(L, decNode rec)] := by
      unfold decodeHeap
      rw [enumFromL_append, List.map_append]
      congr 1
      have h0 : enumFromL (0 + L) [rec] = [(L, rec)] := by
        simp [enumFromL]
      rw [h0]
      simp [hchildnew, decNode]
    by_cases hroot : rec.parent = "-1"
    · rw [add_node_root hhg (hpido.trans hroot)]
      have hheap : decodeHeap (rs ++ [rec]) = decodeHeap rs ++ [(L, decNode rec)] := by
        rw [hheapTgt]
        congr 1
        unfold decodeHeap
        apply List.map_congr_left
        intro p hp
        have hne : rec.parent ≠ p.2.id := by
          rw [hroot]
          intro hc
          exact hnsrs (hc ▸ List.mem_map.2 ⟨p.2, enumFromL_mem_snd hp, rfl⟩)
        rw [recChildRefs_append_single, if_neg hne, List.append_nil]
      simp only [SimpleMindMap.mk.injEq]
      refine ⟨hheap.symm, by simp, ?_, ?_⟩
      · rw [hsetn, decodeNodes_append_single]
      · rw [lastRootRef_append, if_pos hroot]
    · have hparmem : rec.parent ∈ rs.map TopicRecord.id := hrecpar.resolve_left hroot
      obtain ⟨pr, hprmem, hprid⟩ := List.mem_map.1 hparmem
      obtain ⟨j, hj⟩ := mem_enumFromL_of_mem 0 hprmem
      have hjlt : j < L := by
        have := enumFromL_fst_lt hj
        simpa using this.2
      have hlp : lookupA
          (setA (decodeNodes rs) (decNode rec).id L) (decNode rec).parent_id =
          some j := by
        rw [hsetn, hpido, ← hprid]
        exact lookupA_append_left _ (lookupA_decodeNodes hndrs hj)
      have hopj : heapGet
          { heap := decodeHeap rs ++ [(L, decNode rec)], nextRef := L + 1,
            nodes := decodeNodes rs, root_node := lastRootRef rs } j =
          some { decNode pr with children := recChildRefs 0 rs pr.id } := by
        show lookupA (decodeHeap rs ++ [(L, decNode rec)]) j = _
        exact lookupA_append_left _ (lookupA_decodeHeap hj)
      rw [add_node_link hhg (fun hc => hroot (hpido.symm.trans hc)) hlp hopj]
      simp only [SimpleMindMap.mk.injEq]
      refine ⟨?_, by simp, ?_, ?_⟩
      · -- heap equality
        show setA (decodeHeap rs ++ [(L, decNode rec)]) j
            { decNode pr with children := recChildRefs 0 rs pr.id ++ [L] } =
          decodeHeap (rs ++ [rec])
        have hkeys : ((decodeHeap rs ++ [(L, decNode rec)]).map Prod.fst).Nodup := by
          rw [List.map_append, decodeHeap_fst]
          rw [List.nodup_append]
          refine ⟨List.nodup_range' _ _, by simp, ?_⟩
          intro a ha hb
          have hb' : a = rs.length := by simpa using hb
          rw [hb'] at ha
          have := List.mem_range'_1.1 ha
          omega
        have hjmem : j ∈ (decodeHeap rs ++ [(L, decNode rec)]).map Prod.fst := by
          rw [List.map_append, decodeHeap_fst]
          refine List.mem_append.2 (Or.inl ?_)
          exact List.mem_range'_1.2 ⟨by omega, by omega⟩
        rw [setA_eq_map _ hkeys hjmem, hheapTgt]
        rw [List.map_append]
        congr 1
        · unfold decodeHeap
          rw [List.map_map]
          apply List.map_congr_left
          intro p hp
          by_cases hpj : p.1 = j
          · have hpeq : p = (j, pr) := enumFromL_fst_inj hp hj hpj
            subst hpeq
            have hcc : recChildRefs 0 (rs ++ [rec]) pr.id =
                recChildRefs 0 rs pr.id ++ [L] := by
              rw [recChildRefs_append_single, if_pos hprid.symm]
            simp [Function.comp, hcc]
          · simp only [Function.comp_apply, if_neg hpj]
            have hne : rec.parent ≠ p.2.id := by
              intro hc
              have : p = (j, pr) := by
                apply enumFromL_key_inj (f := TopicRecord.id) hndrs hp hj
                rw [← hc, hprid]
              exact hpj (by rw [this])
            rw [recChildRefs_append_single, if_neg hne, List.append_nil]
        · simp only [List.map_cons, List.map_nil]
          have : L ≠ j := by omega
          simp [this]
      · rw [hsetn, decodeNodes_append_single]
      · rw [lastRootRef_append, if_neg hroot]

/-! ## Characterization of encoding a well-formed document -/

/-- The object registered under id `i` (meaningful when `i` is live). -/
def objOfId (m : SimpleMindMap) (i : String) : NodeObj :=
  (heapGet m ((lookupA m.nodes i).getD 0)).getD default

/-- The id stored in the object at `r`. -/
def objIdAt (m : SimpleMindMap) (r : Ref) : String :=
  ((heapGet m r).getD default).id

mutual
/-- The record list the encoder emits for the subtree abstracted by `t`. -/
def treeRecs (m : SimpleMindMap) : IdTree → List TopicRecord
  | .mk i cs => mkRecord (objOfId m i) :: treeRecsF m cs
/-- Records of a forest, in sibling order. -/
def treeRecsF (m : SimpleMindMap) : List IdTree → List TopicRecord
  | [] => []
  | c :: cs => treeRecs m c ++ treeRecsF m cs
end

mutual
/-- Height of a tree. -/
def IdTree.depth : IdTree → ℕ
  | .mk _ cs => depthF cs + 1
/-- Height of a forest. -/
def depthF : List IdTree → ℕ
  | [] => 0
  | c :: cs => max c.depth (depthF cs)
end

mutual
/-- Ids of the children of every node labelled `i` (a single node, under
`Nodup`), in pre-order. -/
def childIdsOf : IdTree → String → List String
  | .mk a cs, i =>
    (if a = i then cs.map (fun c => c.rootId) else []) ++ childIdsOfF cs i
/-- `childIdsOf` over a forest. -/
def childIdsOfF : List IdTree → String → List String
  | [], _ => []
  | c :: cs, i => childIdsOf c i ++ childIdsOfF cs i
end

theorem repNode_elim {m : SimpleMindMap} {expP i : String} {cs : List IdTree}
    {r : Ref} (h : repNode m expP (.mk i cs) r = true) :
    lookupA m.nodes i = some r ∧ ∃ o, heapGet m r = some o ∧ o.id = i ∧
      o.parent_id = expP ∧ repForest m i cs o.children = true := by
  rw [repNode] at h
  rcases hG : heapGet m r with _ | o
  · rw [hG] at h
    simp at h
  · rw [hG] at h
    simp only [Bool.and_eq_true, decide_eq_true_eq] at h
    exact ⟨h.1, o, rfl, h.2.1.1, h.2.1.2, h.2.2⟩

theorem repNode_intro {m : SimpleMindMap} {expP i : String} {cs : List IdTree}
    {r : Ref} {o : NodeObj} (h1 : lookupA m.nodes i = some r)
    (hG : heapGet m r = some o) (hid : o.id = i) (hp : o.parent_id = expP)
    (hf : repForest m i cs o.children = true) :
    repNode m expP (.mk i cs) r = true := by
  rw [repNode, hG]
  simp [h1, hid, hp, hf]

theorem repForest_elim_cons {m : SimpleMindMap} {pid : String} {c : IdTree}
    {cs : List IdTree} {rcs : List Ref}
    (h : repForest m pid (c :: cs) rcs = true) :
    ∃ rc rcs', rcs = rc :: rcs' ∧ repNode m pid c rc = true ∧
      repForest m pid cs rcs' = true := by
  cases rcs with
  | nil => rw [repForest] at h; simp at h
  | cons rc rcs' =>
    rw [repForest] at h
    simp only [Bool.and_eq_true] at h
    exact ⟨rc, rcs', rfl, h.1, h.2⟩

theorem repForest_elim_nil {m : SimpleMindMap} {pid : String} {rcs : List Ref}
    (h : repForest m pid [] rcs = true) : rcs = [] := by
  cases rcs with
  | nil => rfl
  | cons a l => rw [repForest] at h; simp at h

theorem objOfId_eq {m : SimpleMindMap} {i : String} {r : Ref} {o : NodeObj}
    (h1 : lookupA m.nodes i = some r) (hG : heapGet m r = some o) :
    objOfId m i = o := by
  unfold objOfId
  rw [h1]
  simp [hG]

theorem objIdAt_eq {m : SimpleMindMap} {r : Ref} {o : NodeObj}
    (hG : heapGet m r = some o) : objIdAt m r = o.id := by
  unfold objIdAt
  rw [hG]
  rfl

theorem repForest_objIds {m : SimpleMindMap} {pid : String} :
    ∀ (cs : List IdTree) (rcs : List Ref),
      repForest m pid cs rcs = true →
      rcs.map (objIdAt m) = cs.map (fun c => c.rootId) := by
  intro cs
  induction cs with
  | nil =>
    intro rcs h
    rw [repForest_elim_nil h]
    rfl
  | cons c cs' ih =>
    intro rcs h
    obtain ⟨rc, rcs', rfl, hc, hcs⟩ := repForest_elim_cons h
    cases c with
    | mk a ccs =>
      obtain ⟨h1, o, hG, hid, hp, hfor⟩ := repNode_elim hc
      simp only [List.map_cons]
      rw [objIdAt_eq hG, hid, ih rcs' hcs]
      rfl

mutual
theorem treeRecs_ids {m : SimpleMindMap} {expP : String} (t : IdTree) (r : Ref)
    (h : repNode m expP t r = true) :
    (treeRecs m t).map TopicRecord.id = t.preIds := by
  cases t with
  | mk i cs =>
    obtain ⟨h1, o, hG, hid, hp, hf⟩ := repNode_elim h
    have hrecid : (mkRecord (objOfId m i)).id = i := by
      show (objOfId m i).id = i
      rw [objOfId_eq h1 hG, hid]
    rw [treeRecs, IdTree.preIds, List.map_cons, hrecid,
      treeRecsF_ids cs o.children i hf]

theorem treeRecsF_ids {m : SimpleMindMap} (cs : List IdTree) (rcs : List Ref)
    (pid : String) (h : repForest m pid cs rcs = true) :
    (treeRecsF m cs).map TopicRecord.id = preIdsF cs := by
  cases cs with
  | nil => rfl
  | cons c cs' =>
    obtain ⟨rc, rcs', rfl, hc, hcs⟩ := repForest_elim_cons h
    rw [treeRecsF, preIdsF, List.map_append, treeRecs_ids c rc hc,
      treeRecsF_ids cs' rcs' pid hcs]
end

mutual
theorem treeRecs_recmem {m : SimpleMindMap} {expP : String} (t : IdTree)
    (r : Ref) (h : repNode m expP t r = true) :
    ∀ rec ∈ treeRecs m t, rec = mkRecord (objOfId m rec.id) := by
  cases t with
  | mk i cs =>
    obtain ⟨h1, o, hG, hid, hp, hf⟩ := repNode_elim h
    intro rec hrec
    rw [treeRecs] at hrec
    rcases List.mem_cons.1 hrec with rfl | hrec
    · have hrecid : (mkRecord (objOfId m i)).id = i := by
        show (objOfId m i).id = i
        rw [objOfId_eq h1 hG, hid]
      rw [hrecid]
    · exact treeRecsF_recmem cs o.children i hf rec hrec

theorem treeRecsF_recmem {m : SimpleMindMap} (cs : List IdTree)
    (rcs : List Ref) (pid : String) (h : repForest m pid cs rcs = true) :
    ∀ rec ∈ treeRecsF m cs, rec = mkRecord (objOfId m rec.id) := by
  cases cs with
  | nil => intro rec hrec; rw [treeRecsF] at hrec; simp at hrec
  | cons c cs' =>
    obtain ⟨rc, rcs', rfl, hc, hcs⟩ := repForest_elim_cons h
    intro rec hrec
    rw [treeRecsF] at hrec
    rcases List.mem_append.1 hrec with hrec | hrec
    · exact treeRecs_recmem c rc hc rec hrec
    · exact treeRecsF_recmem cs' rcs' pid hcs rec hrec
end

mutual
theorem treeRecs_parent_mem {m : SimpleMindMap} {expP : String} (t : IdTree)
    (r : Ref) (h : repNode m expP t r = true) :
    ∀ rec ∈ treeRecs m t, rec.parent = expP ∨ rec.parent ∈ t.preIds := by
  cases t with
  | mk i cs =>
    obtain ⟨h1, o, hG, hid, hp, hf⟩ := repNode_elim h
    intro rec hrec
    rw [treeRecs] at hrec
    rcases List.mem_cons.1 hrec with rfl | hrec
    · left
      show (objOfId m i).parent_id = expP
      rw [objOfId_eq h1 hG, hp]
    · right
      rcases treeRecsF_parent_mem cs o.children i hf rec hrec with h2 | h2
      · rw [IdTree.preIds, h2]
        exact List.mem_cons_self _ _
      · rw [IdTree.preIds]
        exact List.mem_cons_of_mem _ h2

theorem treeRecsF_parent_mem {m : SimpleMindMap} (cs : List IdTree)
    (rcs : List Ref) (pid : String) (h : repForest m pid cs rcs = true) :
    ∀ rec ∈ treeRecsF m cs, rec.parent = pid ∨ rec.parent ∈ preIdsF cs := by
  cases cs with
  | nil => intro rec hrec; rw [treeRecsF] at hrec; simp at hrec
  | cons c cs' =>
    obtain ⟨rc, rcs', rfl, hc, hcs⟩ := repForest_elim_cons h
    intro rec hrec
    rw [treeRecsF] at hrec
    rcases List.mem_append.1 hrec with hrec | hrec
    · rcases treeRecs_parent_mem c rc hc rec hrec with h2 | h2
      · exact Or.inl h2
      · right
        rw [preIdsF]
        exact List.mem_append.2 (Or.inl h2)
    · rcases treeRecsF_parent_mem cs' rcs' pid hcs rec hrec with h2 | h2
      · exact Or.inl h2
      · right
        rw [preIdsF]
        exact List.mem_append.2 (Or.inr h2)
end

theorem parentsSeen_mono {seen seen' : List String} :
    ∀ {recs : List TopicRecord}, seen ⊆ seen' → parentsSeen seen recs →
      parentsSeen seen' recs := by
  intro recs
  induction recs generalizing seen seen' with
  | nil => intro _ _; trivial
  | cons r t ih =>
    intro hsub h
    obtain ⟨h0, h1⟩ := h
    constructor
    · rcases h0 with h0 | h0
      · exact Or.inl h0
      · exact Or.inr (hsub h0)
    · refine ih ?_ h1
      intro x hx
      rcases List.mem_append.1 hx with hx | hx
      · exact List.mem_append.2 (Or.inl (hsub hx))
      · exact List.mem_append.2 (Or.inr hx)

mutual
theorem treeRecs_parentsSeen {m : SimpleMindMap} {expP : String} (t : IdTree)
    (r : Ref) (h : repNode m expP t r = true) (seen : List String)
    (hs : expP = "-1" ∨ expP ∈ seen) : parentsSeen seen (treeRecs m t) := by
  cases t with
  | mk i cs =>
    obtain ⟨h1, o, hG, hid, hp, hf⟩ := repNode_elim h
    rw [treeRecs]
    refine ⟨?_, ?_⟩
    · show (mkRecord (objOfId m i)).parent = "-1" ∨
        (mkRecord (objOfId m i)).parent ∈ seen
      have : (mkRecord (objOfId m i)).parent = expP := by
        show (objOfId m i).parent_id = expP
        rw [objOfId_eq h1 hG, hp]
      rw [this]
      exact hs
    · have hrecid : (mkRecord (objOfId m i)).id = i := by
        show (objOfId m i).id = i
        rw [objOfId_eq h1 hG, hid]
      rw [hrecid]
      exact treeRecsF_parentsSeen cs o.children i hf (seen ++ [i])
        (by simp)

theorem treeRecsF_parentsSeen {m : SimpleMindMap} (cs : List IdTree)
    (rcs : List Ref) (pid : String) (h : repForest m pid cs rcs = true)
    (seen : List String) (hs : pid ∈ seen) :
    parentsSeen seen (treeRecsF m cs) := by
  cases cs with
  | nil => trivial
  | cons c cs' =>
    obtain ⟨rc, rcs', rfl, hc, hcs⟩ := repForest_elim_cons h
    rw [treeRecsF]
    rw [parentsSeen_append]
    refine ⟨treeRecs_parentsSeen c rc hc seen (Or.inr hs), ?_⟩
    rw [treeRecs_ids c rc hc]
    exact treeRecsF_parentsSeen cs' rcs' pid hcs (seen ++ c.preIds)
      (List.mem_append.2 (Or.inl hs))
end

mutual
theorem depth_le_preIds (t : IdTree) : t.depth ≤ t.preIds.length := by
  cases t with
  | mk i cs =>
    rw [IdTree.depth, IdTree.preIds, List.length_cons]
    have := depthF_le_preIds cs
    omega

theorem depthF_le_preIds (cs : List IdTree) :
    depthF cs ≤ (preIdsF cs).length := by
  cases cs with
  | nil => rw [depthF]; simp
  | cons c cs' =>
    rw [depthF, preIdsF, List.length_append]
    have h1 := depth_le_preIds c
    have h2 := depthF_le_preIds cs'
    omega
end

mutual
theorem emitT_eq {m : SimpleMindMap} {expP : String} (t : IdTree) (r : Ref)
    (h : repNode m expP t r = true) (fuel : ℕ) (hf : t.depth ≤ fuel) :
    emitT m fuel r = treeRecs m t := by
  cases t with
  | mk i cs =>
    obtain ⟨h1, o, hG, hid, hp, hfor⟩ := repNode_elim h
    cases fuel with
    | zero =>
      rw [IdTree.depth] at hf
      omega
    | succ fuel' =>
      rw [emitT]
      simp only [hG]
      rw [treeRecs, objOfId_eq h1 hG]
      congr 1
      have hdep : depthF cs ≤ fuel' := by
        rw [IdTree.depth] at hf
        omega
      exact emitF_eq cs o.children i hfor fuel' hdep

theorem emitF_eq {m : SimpleMindMap} (cs : List IdTree) (rcs : List Ref)
    (pid : String) (h : repForest m pid cs rcs = true) (fuel : ℕ)
    (hf : depthF cs ≤ fuel) : rcs.flatMap (emitT m fuel) = treeRecsF m cs := by
  cases cs with
  | nil =>
    rw [repForest_elim_nil h]
    rfl
  | cons c cs' =>
    obtain ⟨rc, rcs', rfl, hc, hcs⟩ := repForest_elim_cons h
    rw [List.flatMap_cons, treeRecsF]
    rw [depthF] at hf
    rw [emitT_eq c rc hc fuel (by omega), emitF_eq cs' rcs' pid hcs fuel (by omega)]
end

theorem filter_parent_nil {l : List TopicRecord} {i : String}
    (h : ∀ rec ∈ l, rec.parent ≠ i) :
    l.filter (fun rec => decide (rec.parent = i)) = [] := by
  rw [List.filter_eq_nil_iff]
  intro rec hrec
  simpa using h rec hrec

mutual
theorem treeRecs_childFilter {m : SimpleMindMap} {expP : String} (t : IdTree)
    (r : Ref) (h : repNode m expP t r = true) (hnd : t.preIds.Nodup)
    (hx : expP ∉ t.preIds) :
    ∀ i ∈ t.preIds,
      ((treeRecs m t).filter (fun rec => decide (rec.parent = i))).map
          TopicRecord.id =
        (objOfId m i).children.map (objIdAt m) := by
  cases t with
  | mk a cs =>
    obtain ⟨h1, o, hG, hid, hp, hfor⟩ := repNode_elim h
    intro i hi
    rw [IdTree.preIds] at hnd hi hx
    rw [List.nodup_cons] at hnd
    rw [treeRecs, List.filter_cons]
    have hpar_a : (mkRecord (objOfId m a)).parent = expP := by
      show (objOfId m a).parent_id = expP
      rw [objOfId_eq h1 hG, hp]
    have hne : ¬ ((mkRecord (objOfId m a)).parent = i) := by
      rw [hpar_a]
      intro hc
      exact hx (hc ▸ hi)
    rw [if_neg (by simpa using hne)]
    rcases List.mem_cons.1 hi with rfl | hi2
    · have hobj : objOfId m i = o := objOfId_eq h1 hG
      rw [hobj, repForest_objIds cs o.children hfor]
      exact (treeRecsF_childFilter cs o.children i hfor hnd.2 hnd.1).1
    · have hia : i ≠ a := by
        rintro rfl
        exact hnd.1 hi2
      exact (treeRecsF_childFilter cs o.children a hfor hnd.2 hnd.1).2 i hi2

theorem treeRecsF_childFilter {m : SimpleMindMap} (cs : List IdTree)
    (rcs : List Ref) (pid : String) (h : repForest m pid cs rcs = true)
    (hnd : (preIdsF cs).Nodup) (hx : pid ∉ preIdsF cs) :
    (((treeRecsF m cs).filter
        (fun rec => decide (rec.parent = pid))).map TopicRecord.id =
      cs.map (fun c => c.rootId)) ∧
    ∀ i ∈ preIdsF cs,
      ((treeRecsF m cs).filter (fun rec => decide (rec.parent = i))).map
          TopicRecord.id =
        (objOfId m i).children.map (objIdAt m) := by
  cases cs with
  | nil =>
    constructor
    · rfl
    · intro i hi
      rw [preIdsF] at hi
      simp at hi
  | cons c cs' =>
    obtain ⟨rc, rcs', rfl, hc, hcs⟩ := repForest_elim_cons h
    rw [preIdsF] at hnd hx
    have hndc : c.preIds.Nodup := (List.nodup_append.1 hnd).1
    have hndcs : (preIdsF cs').Nodup := (List.nodup_append.1 hnd).2.1
    have hdisj : c.preIds.Disjoint (preIdsF cs') := (List.nodup_append.1 hnd).2.2
    have hxc : pid ∉ c.preIds := fun hm => hx (List.mem_append.2 (Or.inl hm))
    have hxcs : pid ∉ preIdsF cs' := fun hm => hx (List.mem_append.2 (Or.inr hm))
    have hcparents : ∀ rec ∈ treeRecs m c,
        rec.parent = pid ∨ rec.parent ∈ c.preIds :=
      treeRecs_parent_mem c rc hc
    have hcsparents : ∀ rec ∈ treeRecsF m cs',
        rec.parent = pid ∨ rec.parent ∈ preIdsF cs' :=
      treeRecsF_parent_mem cs' rcs' pid hcs
    constructor
    · -- children of the forest's parent: the heads of the blocks
      rw [treeRecsF, List.filter_append, List.map_append]
      have hblock : ((treeRecs m c).filter
          (fun rec => decide (rec.parent = pid))).map TopicRecord.id =
          [c.rootId] := by
        cases c with
        | mk b bcs =>
          obtain ⟨hb1, ob, hbG, hbid, hbp, hbfor⟩ := repNode_elim hc
          rw [treeRecs, List.filter_cons]
          have hheadpar : (mkRecord (objOfId m b)).parent = pid := by
            show (objOfId m b).parent_id = pid
            rw [objOfId_eq hb1 hbG, hbp]
          rw [if_pos (by simpa using hheadpar)]
          have hbody : (treeRecsF m bcs).filter
              (fun rec => decide (rec.parent = pid)) = [] := by
            apply filter_parent_nil
            intro rec hrec hcon
            rcases treeRecsF_parent_mem bcs ob.children b hbfor rec hrec with
              h2 | h2
            · apply hxc
              rw [IdTree.preIds, ← h2, hcon]
              exact List.mem_cons_self _ _
            · apply hxc
              rw [IdTree.preIds]
              exact List.mem_cons_of_mem _ (hcon ▸ h2)
          rw [hbody, List.map_cons, List.map_nil]
          show [(objOfId m b).id] = [IdTree.rootId (.mk b bcs)]
          rw [objOfId_eq hb1 hbG, hbid]
          rfl
      rw [hblock]
      have hrest := (treeRecsF_childFilter cs' rcs' pid hcs hndcs hxcs).1
      rw [hrest]
      rfl
    · intro i hi
      rw [preIdsF] at hi
      rw [treeRecsF, List.filter_append, List.map_append]
      rcases List.mem_append.1 hi with hic | hics
      · have hrest : (treeRecsF m cs').filter
            (fun rec => decide (rec.parent = i)) = [] := by
          apply filter_parent_nil
          intro rec hrec hcon
          rcases hcsparents rec hrec with h2 | h2
          · exact hxc ((hcon.symm.trans h2) ▸ hic)
          · exact hdisj hic (hcon ▸ h2)
        rw [hrest, List.map_nil, List.append_nil]
        exact treeRecs_childFilter c rc hc hndc hxc i hic
      · have hblock : (treeRecs m c).filter
            (fun rec => decide (rec.parent = i)) = [] := by
          apply filter_parent_nil
          intro rec hrec hcon
          rcases hcparents rec hrec with h2 | h2
          · exact hxcs ((hcon.symm.trans h2) ▸ hics)
          · exact hdisj (hcon ▸ h2) hics
        rw [hblock, List.map_nil, List.nil_append]
        exact (treeRecsF_childFilter cs' rcs' pid hcs hndcs hxcs).2 i hics
end

mutual
theorem repNode_occ {m : SimpleMindMap} {expP : String} (t : IdTree) (r : Ref)
    (h : repNode m expP t r = true) :
    ∀ i ∈ t.preIds, ∃ pid sub r', IdTree.rootId sub = i ∧
      repNode m pid sub r' = true ∧
      ((pid = expP ∧ sub = t ∧ r' = r) ∨ pid ∈ t.preIds) := by
  cases t with
  | mk a cs =>
    obtain ⟨h1, o, hG, hid, hp, hfor⟩ := repNode_elim h
    intro i hi
    rw [IdTree.preIds] at hi
    rcases List.mem_cons.1 hi with rfl | hi2
    · exact ⟨expP, .mk i cs, r, rfl, h, Or.inl ⟨rfl, rfl, rfl⟩⟩
    · obtain ⟨pid, sub, r', hroot, hrep, hcase⟩ :=
        repForest_occ cs o.children a hfor i hi2
      refine ⟨pid, sub, r', hroot, hrep, Or.inr ?_⟩
      rcases hcase with h2 | h2
      · rw [IdTree.preIds, h2]
        exact List.mem_cons_self _ _
      · rw [IdTree.preIds]
        exact List.mem_cons_of_mem _ h2

theorem repForest_occ {m : SimpleMindMap} (cs : List IdTree) (rcs : List Ref)
    (pid0 : String) (h : repForest m pid0 cs rcs = true) :
    ∀ i ∈ preIdsF cs, ∃ pid sub r', IdTree.rootId sub = i ∧
      repNode m pid sub r' = true ∧ (pid = pid0 ∨ pid ∈ preIdsF cs) := by
  cases cs with
  | nil =>
    intro i hi
    rw [preIdsF] at hi
    simp at hi
  | cons c cs' =>
    obtain ⟨rc, rcs', rfl, hc, hcs⟩ := repForest_elim_cons h
    intro i hi
    rw [preIdsF] at hi
    rcases List.mem_append.1 hi with hic | hics
    · obtain ⟨pid, sub, r', hroot, hrep, hcase⟩ := repNode_occ c rc hc i hic
      refine ⟨pid, sub, r', hroot, hrep, ?_⟩
      rcases hcase with ⟨h2, _, _⟩ | h2
      · exact Or.inl h2
      · refine Or.inr ?_
        rw [preIdsF]
        exact List.mem_append.2 (Or.inl h2)
    · obtain ⟨pid, sub, r', hroot, hrep, hcase⟩ :=
        repForest_occ cs' rcs' pid0 hcs i hics
      refine ⟨pid, sub, r', hroot, hrep, ?_⟩
      rcases hcase with h2 | h2
      · exact Or.inl h2
      · refine Or.inr ?_
        rw [preIdsF]
        exact List.mem_append.2 (Or.inr h2)
end

theorem optRT (s : String) :
    ((if s = "" then none else some s) : Option String).getD "" = s := by
  by_cases h : s = "" <;> simp [h]

/-- Decoding the record emitted for one node restores the node's fields,
provided the coordinates are exact two-decimal values and the layout
direction/flow are empty whenever the mode is. -/
theorem decNode_mkRecord {o : NodeObj} (hx : round2 o.x = o.x)
    (hy : round2 o.y = o.y)
    (hlay : o.layout_mode = "" → o.layout_direction = "" ∧ o.layout_flow = "") :
    decNode (mkRecord o) = { o with children := [] } := by
  unfold decNode mkRecord
  by_cases hm : o.layout_mode = ""
  · obtain ⟨hd, hf⟩ := hlay hm
    simp [optRT, hx, hy, hm, hd, hf]
  · simp [optRT, hx, hy, hm]

theorem enumFromL_filter_parent_snd (k : ℕ) (xs : List TopicRecord)
    (i : String) :
    ((enumFromL k xs).filter fun p => decide (p.2.parent = i)).map Prod.snd =
      xs.filter fun rec => decide (rec.parent = i) := by
  induction xs generalizing k with
  | nil => rfl
  | cons a t ih =>
    by_cases h : a.parent = i <;>
      simp [enumFromL, List.filter_cons, h, ih]

theorem recChildRefs_ids (recs : List TopicRecord) (i : String) :
    (recChildRefs 0 recs i).map
        (fun c => ((lookupA (decodeHeap recs) c).getD default).id) =
      (recs.filter (fun rec => decide (rec.parent = i))).map TopicRecord.id := by
  unfold recChildRefs
  rw [List.map_map]
  have hcong : ∀ p ∈ (enumFromL 0 recs).filter (fun p => decide (p.2.parent = i)),
      ((fun c => ((lookupA (decodeHeap recs) c).getD default).id) ∘ Prod.fst) p =
        (TopicRecord.id ∘ Prod.snd) p := by
    intro p hp
    have hp' : p ∈ enumFromL 0 recs := List.mem_of_mem_filter hp
    have hpp : (p.1, p.2) ∈ enumFromL 0 recs := by simpa using hp'
    show ((lookupA (decodeHeap recs) p.1).getD default).id = p.2.id
    rw [lookupA_decodeHeap hpp]
    rfl
  rw [List.map_congr_left hcong, ← List.map_map, enumFromL_filter_parent_snd]

theorem filterMap_eq_singleton {α β : Type} {l : List α} {f : α → Option β}
    {a0 : α} {b0 : β} (hnd : l.Nodup) (hmem : a0 ∈ l) (hf : f a0 = some b0)
    (hothers : ∀ a ∈ l, a ≠ a0 → f a = none) :
    l.filterMap f = [b0] := by
  induction l with
  | nil => simp at hmem
  | cons x xs ih =>
    rw [List.nodup_cons] at hnd
    rcases List.mem_cons.1 hmem with rfl | hmem2
    · rw [List.filterMap_cons, hf]
      have hnil : xs.filterMap f = [] := by
        rw [List.filterMap_eq_nil_iff]
        intro a ha
        exact hothers a (List.mem_cons_of_mem _ ha) (fun hc => hnd.1 (hc ▸ ha))
      rw [hnil]
    · have hx : f x = none :=
        hothers x (List.mem_cons_self _ _) (fun hc => hnd.1 (hc ▸ hmem2))
      rw [List.filterMap_cons, hx]
      exact ih hnd.2 hmem2 (fun a ha => hothers a (List.mem_cons_of_mem _ ha))

theorem live_node_facts {m : SimpleMindMap} {t : IdTree} (hI : DocInv m t)
    {rr : Ref} (hrn : m.root_node = some rr)
    (hrep : repNode m "-1" t rr = true) {i : String} {r : Ref}
    (hmem : (i, r) ∈ m.nodes) :
    ∃ o, heapGet m r = some o ∧ o.id = i ∧
      (o.parent_id = "-1" ↔ (i = t.rootId ∧ r = rr)) := by
  have hlook : lookupA m.nodes i = some r := lookupA_of_mem hI.keysNodup hmem
  have hikey : i ∈ m.nodes.map Prod.fst := List.mem_map.2 ⟨(i, r), hmem, rfl⟩
  have hipre : i ∈ t.preIds := hI.keysPerm.mem_iff.1 hikey
  obtain ⟨pid, sub, r', hroot, hrep', hcase⟩ := repNode_occ t rr hrep i hipre
  cases sub with
  | mk i' cs' =>
    have hii : i' = i := hroot
    subst hii
    obtain ⟨h1, o, hG, hid, hp, hfor⟩ := repNode_elim hrep'
    have hrr' : r' = r := by
      rw [hlook] at h1
      exact (Option.some.injEq .. ▸ h1).symm
    subst hrr'
    refine ⟨o, hG, hid, ?_⟩
    constructor
    · intro hpar
      have hpidm : pid = "-1" := hp ▸ hpar
      rcases hcase with ⟨_, hsub, hr⟩ | hmem2
      · constructor
        · rw [← hsub]
          rfl
        · exact hr
      · exact absurd (hpidm ▸ hmem2) hI.noSentinel
    · rintro ⟨hiroot, rfl⟩
      cases t with
      | mk a cs =>
        obtain ⟨h1t, ot, hGt, hidt, hpt, hfort⟩ := repNode_elim hrep
        rw [hGt] at hG
        have hoo : ot = o := Option.some.inj hG
        rw [← hoo, hpt]

theorem encode_eq_treeRecs {m : SimpleMindMap} {t : IdTree} (hI : DocInv m t) :
    encode m = treeRecs m t := by
  obtain ⟨rr, hrn, hrep⟩ := hI.rootRep
  have hrootmem : (t.rootId, rr) ∈ m.nodes := by
    cases t with
    | mk a cs =>
      obtain ⟨h1, o, hG, hid, hp, hfor⟩ := repNode_elim hrep
      exact lookupA_mem h1
  have hndl : m.nodes.Nodup := hI.keysNodup.of_map
  have hroots : (m.nodes.filterMap fun p =>
      match heapGet m p.2 with
      | some o => if o.parent_id = "-1" then some p.2 else none
      | none => none) = [rr] := by
    apply filterMap_eq_singleton hndl hrootmem
    · obtain ⟨o, hG, hid, hiff⟩ := live_node_facts hI hrn hrep hrootmem
      rw [hG]
      simp only
      rw [if_pos (hiff.2 ⟨rfl, rfl⟩)]
    · intro p hp hne
      obtain ⟨o, hG, hid, hiff⟩ := live_node_facts hI hrn hrep
        (show (p.1, p.2) ∈ m.nodes by simpa using hp)
      rw [hG]
      simp only
      rw [if_neg]
      intro hpar
      obtain ⟨h1, h2⟩ := hiff.1 hpar
      exact hne (by rw [← h1, ← h2])
    
  unfold encode
  rw [hroots]
  have hflat : [rr].flatMap (emitT m (m.nodes.length + 1)) =
      emitT m (m.nodes.length + 1) rr := by
    simp
  rw [hflat]
  apply emitT_eq t rr hrep
  have h1 := depth_le_preIds t
  have h2 : t.preIds.length = m.nodes.length := by
    have := hI.keysPerm.length_eq
    rw [List.length_map] at this
    omega
  omega

theorem absGet_mk (heap : List (Ref × NodeObj)) (nr : Ref)
    (nodes : List (String × Ref)) (rn : Option Ref) (i : String) :
    absGet { heap := heap, nextRef := nr, nodes := nodes, root_node := rn } i =
      match lookupA nodes i with
      | none => none
      | some r =>
        match lookupA heap r with
        | none => none
        | some o =>
          some { id := o.id, text := o.text, parent_id := o.parent_id,
                 x := o.x, y := o.y, notes := o.notes, guid := o.guid,
                 palette := o.palette, colorinfo := o.colorinfo,
                 icon := o.icon, url_link := o.url_link,
                 layout_mode := o.layout_mode,
                 layout_direction := o.layout_direction,
                 layout_flow := o.layout_flow,
                 parent_relation_guid := o.parent_relation_guid,
                 childIds := o.children.map
                   fun c => ((lookupA heap c).getD default).id } := rfl

/-- Round trip for any document satisfying the §3 invariants whose
coordinates are exact two-decimal values and whose layout direction/flow are
set only together with a layout mode: decoding the encoded archive restores
every node's fields and children, per id. -/
theorem roundTrip_of_inv {m : SimpleMindMap} {t : IdTree} (hI : DocInv m t)
    (hfld : ∀ p ∈ m.nodes, ∀ o, heapGet m p.2 = some o →
      round2 o.x = o.x ∧ round2 o.y = o.y ∧
        (o.layout_mode = "" → o.layout_direction = "" ∧ o.layout_flow = "")) :
    ∀ i, absGet (decode (encode m)) i = absGet m i := by
  obtain ⟨rr, hrn, hrep⟩ := hI.rootRep
  have henc := encode_eq_treeRecs hI
  have hids : (treeRecs m t).map TopicRecord.id = t.preIds :=
    treeRecs_ids t rr hrep
  have hgood : GoodRecs (treeRecs m t) := by
    refine ⟨?_, ?_, ?_⟩
    · rw [hids]
      exact hI.preNodup
    · rw [hids]
      exact hI.noSentinel
    · exact treeRecs_parentsSeen t rr hrep [] (Or.inl rfl)
  have hdec := decode_eq (treeRecs m t) hgood
  intro i
  rw [henc, hdec, absGet_mk]
  by_cases hi : i ∈ t.preIds
  · obtain ⟨pid, sub, r', hroot, hrep', hcase⟩ := repNode_occ t rr hrep i hi
    cases sub with
    | mk i0 cs0 =>
      have hi0 : i0 = i := hroot
      subst hi0
      obtain ⟨h1, o, hG, hid, hp, hfor⟩ := repNode_elim hrep'
      have hmemM : (i0, r') ∈ m.nodes := lookupA_mem h1
      obtain ⟨hx2, hy2, hlay⟩ := hfld (i0, r') hmemM o hG
      have hobjOf : objOfId m i0 = o := objOfId_eq h1 hG
      have hirs : i0 ∈ (treeRecs m t).map TopicRecord.id := by
        rw [hids]
        exact hi
      obtain ⟨rec, hrecmem, hrecid⟩ := List.mem_map.1 hirs
      obtain ⟨k, hk⟩ := mem_enumFromL_of_mem 0 hrecmem
      have hlookdec : lookupA (decodeNodes (treeRecs m t)) i0 = some k := by
        rw [← hrecid]
        exact lookupA_decodeNodes (by rw [hids]; exact hI.preNodup) hk
      have hheapdec := lookupA_decodeHeap hk
      have hrec : rec = mkRecord o := by
        have hthis := treeRecs_recmem t rr hrep rec hrecmem
        rw [hrecid] at hthis
        rw [hthis, hobjOf]
      have hfields : decNode rec = { o with children := [] } := by
        rw [hrec]
        exact decNode_mkRecord hx2 hy2 hlay
      simp only [hlookdec, hheapdec]
      show some _ = absGet m i0
      unfold absGet
      simp only [h1, hG]
      simp only [Option.some.injEq, AbsNode.mk.injEq]
      refine ⟨?_, ?_, ?_, ?_, ?_, ?_, ?_, ?_, ?_, ?_, ?_, ?_, ?_, ?_, ?_, ?_⟩
      · show (decNode rec).id = o.id
        rw [hfields]
      · show (decNode rec).text = o.text
        rw [hfields]
      · show (decNode rec).parent_id = o.parent_id
        rw [hfields]
      · show (decNode rec).x = o.x
        rw [hfields]
      · show (decNode rec).y = o.y
        rw [hfields]
      · show (decNode rec).notes = o.notes
        rw [hfields]
      · show (decNode rec).guid = o.guid
        rw [hfields]
      · show (decNode rec).palette = o.palette
        rw [hfields]
      · show (decNode rec).colorinfo = o.colorinfo
        rw [hfields]
      · show (decNode rec).icon = o.icon
        rw [hfields]
      · show (decNode rec).url_link = o.url_link
        rw [hfields]
      · show (decNode rec).layout_mode = o.layout_mode
        rw [hfields]
      · show (decNode rec).layout_direction = o.layout_direction
        rw [hfields]
      · show (decNode rec).layout_flow = o.layout_flow
        rw [hfields]
      · show (decNode rec).parent_relation_guid = o.parent_relation_guid
        rw [hfields]
      · show (recChildRefs 0 (treeRecs m t) rec.id).map
            (fun c => ((lookupA (decodeHeap (treeRecs m t)) c).getD default).id) =
          o.children.map fun c => ((heapGet m c).getD default).id
        rw [recChildRefs_ids, hrecid]
        rw [treeRecs_childFilter t rr hrep hI.preNodup hI.noSentinel i0 hi]
        rw [hobjOf]
        rfl
  · have hnone1 : lookupA (decodeNodes (treeRecs m t)) i = none := by
      rw [lookupA_eq_none, decodeNodes_fst, hids]
      exact hi
    have hnone2 : lookupA m.nodes i = none := by
      rw [lookupA_eq_none]
      intro hmem
      exact hi (hI.keysPerm.mem_iff.1 hmem)
    rw [hnone1]
    unfold absGet
    rw [hnone2]

/-! ## Concrete documents used as evidence -/

/-- Archive whose topic list names a child before its parent. -/
def recChildFirst : TopicRecord :=
  { id := "2", parent := "1", guid := "", x := 0, y := 0, palette := none,
    colorinfo := none, icon := none, text := "child", note := none,
    url_link := none, layout := none, parent_relation := none }

/-- The root record, listed second. -/
def recRootSecond : TopicRecord :=
  { id := "1", parent := "-1", guid := "", x := 0, y := 0, palette := none,
    colorinfo := none, icon := none, text := "root", note := none,
    url_link := none, layout := none, parent_relation := none }

/-- Document decoded from the child-before-parent archive. -/
def mForwardRef : SimpleMindMap := decode [recChildFirst, recRootSecond]

/-- A document whose single node is its own parent (a corrupt parent
cycle). -/
def mCyclic : SimpleMindMap :=
  { heap := [(0,
      { id := "1", text := "Self", parent_id := "1", x := 0, y := 0,
        notes := "", guid := "", palette := "", colorinfo := "", icon := "",
        url_link := "", layout_mode := "", layout_direction := "",
        layout_flow := "", parent_relation_guid := "", children := [] })]
    nextRef := 1
    nodes := [("1", 0)]
    root_node := none }

/-- A document whose single node has a dangling parent reference. -/
def mDangling : SimpleMindMap :=
  { heap := [(0,
      { id := "3", text := "C", parent_id := "99", x := 0, y := 0,
        notes := "", guid := "", palette := "", colorinfo := "", icon := "",
        url_link := "", layout_mode := "", layout_direction := "",
        layout_flow := "", parent_relation_guid := "", children := [] })]
    nextRef := 1
    nodes := [("3", 0)]
    root_node := none }

theorem pathLoop_cyclic (fuel : ℕ) (acc : List (String × String)) :
    pathLoop mCyclic fuel (some 0) acc = PathRes.stillRunning := by
  induction fuel generalizing acc with
  | zero => rfl
  | succ n ih =>
    have hstep : pathLoop mCyclic (n + 1) (some 0) acc =
        pathLoop mCyclic n (get_node mCyclic "1") (("1", "Self") :: acc) := by
      rw [pathLoop]
      rfl
    rw [hstep]
    exact ih (("1", "Self") :: acc)

/-- **C2.** The decoder has no second linking pass: decoding an archive that
lists a child record before its parent leaves the child in the mapping but
absent from the parent's children sequence, and the parent's children list
empty. -/
theorem decode_forward_reference_unlinked :
    lookupA mForwardRef.nodes "2" = some 0 ∧
      lookupA mForwardRef.nodes "1" = some 1 ∧
      (objOfId mForwardRef "1").children = [] ∧
      (objOfId mForwardRef "2").children = [] ∧
      mForwardRef.root_node = some 1 := by
  decide

/-- **C3.** On a cyclic parent chain `get_node_path` never terminates (the
loop is still running after every number of iterations, in particular after
more steps than the mapping's size), and on a dangling parent reference it
returns a silently truncated path instead of an error. -/
theorem getNodePath_cycle_and_dangling :
    (∀ fuel, tool_get_node_path mCyclic "1" fuel = PathRes.stillRunning) ∧
      tool_get_node_path mDangling "3" (mDangling.nodes.length + 5) =
        PathRes.ok [("3", "C")] := by
  constructor
  · intro fuel
    show pathLoop mCyclic fuel (some 0) [] = PathRes.stillRunning
    exact pathLoop_cyclic fuel []
  · decide

/-- Three-node document: root at the origin, a child at `(100, 0)` that
already has one child of its own. -/
def d8 : SimpleMindMap :=
  { heap := [(0,
      { id := "0", text := "Root", parent_id := "-1", x := 0, y := 0,
        notes := "", guid := "", palette := "", colorinfo := "", icon := "",
        url_link := "", layout_mode := "", layout_direction := "",
        layout_flow := "", parent_relation_guid := "", children := [1] }),
      (1,
      { id := "1", text := "Parent", parent_id := "0", x := 100, y := 0,
        notes := "", guid := "", palette := "", colorinfo := "", icon := "",
        url_link := "", layout_mode := "", layout_direction := "",
        layout_flow := "", parent_relation_guid := "", children := [2] }),
      (2,
      { id := "2", text := "First", parent_id := "1", x := 200, y := 0,
        notes := "", guid := "", palette := "", colorinfo := "", icon := "",
        url_link := "", layout_mode := "", layout_direction := "",
        layout_flow := "", parent_relation_guid := "", children := [] })]
    nextRef := 3
    nodes := [("0", 0), ("1", 1), ("2", 2)]
    root_node := some 0 }

theorem computePosition_d8 (sf : ℚ → ℚ) (hsf : sf 10000 = 100) :
    computePosition sf (some (0, 0)) (100, 0) 1 = (200, -80) := by
  unfold computePosition
  have harg : ((-(0 : ℚ)) ^ 2 + (100 - 0 : ℚ) ^ 2) = 10000 := by norm_num
  norm_num [harg, hsf]

theorem tool_add_node_ok (sf : ℚ → ℚ) (text notes : String)
    {m : SimpleMindMap} {pid : String} {rp : Ref} {vals : List ℤ} {mx : ℤ}
    (h1 : get_node m pid = some rp)
    (h2 : (m.nodes.map Prod.fst).mapM pyInt = some vals)
    (h3 : pyMaxList vals = some mx) :
    tool_add_node sf m pid text notes =
      (AddNodeRes.ok (intDecStr (mx + 1)),
        addNodeObj m
          (mkNode (intDecStr (mx + 1)) text pid
            (computePosition sf
              (if ((heapGet m rp).getD default).parent_id ≠ "-1" then
                (get_node m ((heapGet m rp).getD default).parent_id).map
                  (fun rg => (((heapGet m rg).getD default).x,
                    ((heapGet m rg).getD default).y))
              else none)
              (((heapGet m rp).getD default).x, ((heapGet m rp).getD default).y)
              ((heapGet m rp).getD default).children.length).1
            (computePosition sf
              (if ((heapGet m rp).getD default).parent_id ≠ "-1" then
                (get_node m ((heapGet m rp).getD default).parent_id).map
                  (fun rg => (((heapGet m rg).getD default).x,
                    ((heapGet m rg).getD default).y))
              else none)
              (((heapGet m rp).getD default).x, ((heapGet m rp).getD default).y)
              ((heapGet m rp).getD default).children.length).2
            notes ("GENERATED_" ++ intDecStr (mx + 1)))) := by
  unfold tool_add_node
  rw [h1]
  simp only [h2, h3]

/-- **C8.** With the grandparent at the origin, the parent at `(100, 0)` and
one existing sibling, the new child is placed at the base position `(200, 0)`
offset by one 80-pixel spacing unit on the negative perpendicular side:
`(200, -80)` (the placement is the pure function `computePosition` of the
grandparent position, parent position, and sibling count; `sf` models
`math.sqrt`, exact on the perfect square `10000`). -/
theorem insertChild_placement (sf : ℚ → ℚ) (hsf : sf 10000 = 100) :
    (tool_add_node sf d8 "1" "New" "").1 = AddNodeRes.ok "3" ∧
      objOfId (tool_add_node sf d8 "1" "New" "").2 "3" =
        mkNode "3" "New" "1" 200 (-80) "" "GENERATED_3" := by
  have h1 : get_node d8 "1" = some 1 := rfl
  have h2 : (d8.nodes.map Prod.fst).mapM pyInt = some [0, 1, 2] := by decide
  have h3 : pyMaxList [0, 1, 2] = some 2 := by decide
  have key := tool_add_node_ok sf "New" "" h1 h2 h3
  have hgp : (if ((heapGet d8 1).getD default).parent_id ≠ "-1" then
      (get_node d8 ((heapGet d8 1).getD default).parent_id).map
        (fun rg => (((heapGet d8 rg).getD default).x,
          ((heapGet d8 rg).getD default).y))
      else none) = some ((0 : ℚ), (0 : ℚ)) := by decide
  rw [hgp] at key
  have hpx : (((heapGet d8 1).getD default).x, ((heapGet d8 1).getD default).y) =
      ((100 : ℚ), (0 : ℚ)) := by decide
  rw [hpx] at key
  have hcl : ((heapGet d8 1).getD default).children.length = 1 := by decide
  rw [hcl] at key
  rw [computePosition_d8 sf hsf] at key
  have hid3 : intDecStr (2 + 1) = "3" := by decide
  rw [hid3] at key
  rw [key]
  constructor
  · rfl
  · decide

theorem filterMap_search (m : SimpleMindMap) (ql : String) (sn : Bool) :
    ∀ l : List (String × Ref),
      (l.filterMap fun p =>
        match heapGet m p.2 with
        | none => none
        | some o =>
          if strContains (pyLower o.text) ql then some p.2
          else if sn && strContains (pyLower o.notes) ql then some p.2
          else none) =
      ((l.map Prod.snd).filter fun r =>
        match heapGet m r with
        | none => false
        | some o => searchMatch ql sn o) := by
  intro l
  induction l with
  | nil => rfl
  | cons p t ih =>
    rw [List.filterMap_cons, List.map_cons, List.filter_cons]
    rcases hG : heapGet m p.2 with _ | o
    · simp only [hG, ih]
      rfl
    · simp only [hG]
      by_cases h1 : strContains (pyLower o.text) ql = true
      · have hsm : searchMatch ql sn o = true := by
          unfold searchMatch
          rw [Bool.or_eq_true]
          exact Or.inl h1
        rw [if_pos h1, if_pos hsm, ih]
      · rw [if_neg h1]
        by_cases h2 : (sn && strContains (pyLower o.notes) ql) = true
        · have hsm : searchMatch ql sn o = true := by
            unfold searchMatch
            rw [Bool.or_eq_true]
            exact Or.inr h2
          rw [if_pos h2, if_pos hsm, ih]
        · have hsm : ¬ searchMatch ql sn o = true := by
            unfold searchMatch
            rw [Bool.or_eq_true]
            rintro (hc | hc)
            exacts [h1 hc, h2 hc]
          rw [if_neg h2, if_neg hsm, ih]

theorem search_nodes_filter (m : SimpleMindMap) (query : String) (sn : Bool) :
    search_nodes m query sn =
      ((m.nodes.map Prod.snd).filter fun r =>
        match heapGet m r with
        | none => false
        | some o => searchMatch (pyLower query) sn o) :=
  filterMap_search m (pyLower query) sn m.nodes

theorem add_node_parent_dead {m : SimpleMindMap} {r : Ref} {o : NodeObj}
    {rp : Ref} (hM : heapGet m r = some o) (hp : o.parent_id ≠ "-1")
    (hlp : lookupA (setA m.nodes o.id r) o.parent_id = some rp)
    (hop : heapGet m rp = none) :
    add_node m r = { m with nodes := setA m.nodes o.id r } := by
  unfold add_node
  rw [hM]
  simp only [if_neg hp]
  have h1 : lookupA (SimpleMindMap.nodes { m with nodes := setA m.nodes o.id r })
      o.parent_id = some rp := hlp
  have h2 : heapGet { m with nodes := setA m.nodes o.id r } rp = none := hop
  simp only [h1, h2]

theorem update_node_noFields (m : SimpleMindMap) (i : String)
    (nt nn : Option String) (h : pyTruthyStr nt = false)
    (h2 : pyTruthyStr nn = false) :
    tool_update_node m i nt nn = (UpdRes.noFields, m) := by
  unfold tool_update_node
  rw [if_pos ⟨by simp [h], by simp [h2]⟩]

theorem update_node_notFound (m : SimpleMindMap) (i : String)
    (nt nn : Option String)
    (ht : pyTruthyStr nt = true ∨ pyTruthyStr nn = true)
    (h1 : lookupA m.nodes i = none) :
    tool_update_node m i nt nn = (UpdRes.notFound, m) := by
  unfold tool_update_node
  rw [if_neg (by rcases ht with ht | ht <;> simp [ht])]
  simp only [get_node, h1]

theorem update_node_applies (m : SimpleMindMap) (i : String)
    (nt nn : Option String) (r : Ref) (o : NodeObj)
    (ht : pyTruthyStr nt = true ∨ pyTruthyStr nn = true)
    (h1 : lookupA m.nodes i = some r) (hG : heapGet m r = some o) :
    tool_update_node m i nt nn =
      (UpdRes.ok, heapSet m r
        (if nn.isSome then
          { (if pyTruthyStr nt then { o with text := nt.getD "" } else o) with
            notes := nn.getD "" }
        else if pyTruthyStr nt then { o with text := nt.getD "" } else o)) := by
  unfold tool_update_node
  rw [if_neg (by rcases ht with ht | ht <;> simp [ht])]
  simp only [get_node, h1, hG, Option.getD_some]

/-- **C7.** `search_nodes` returns exactly the nodes whose text contains the
query case-insensitively — or, when notes are searched, whose notes contain
it — in mapping insertion order; on a document whose stored references are
live and distinct each match appears exactly once, and the empty query
matches every node. -/
theorem searchNodes_spec (m : SimpleMindMap) (query : String) (sn : Bool)
    (hlive : ∀ p ∈ m.nodes, (heapGet m p.2).isSome = true)
    (hnd : (m.nodes.map Prod.snd).Nodup) :
    search_nodes m query sn =
      ((m.nodes.map Prod.snd).filter fun r =>
        match heapGet m r with
        | none => false
        | some o => searchMatch (pyLower query) sn o) ∧
      (search_nodes m query sn).Nodup ∧
      search_nodes m "" sn = m.nodes.map Prod.snd := by
  refine ⟨search_nodes_filter m query sn, ?_, ?_⟩
  · rw [search_nodes_filter]
    exact hnd.filter _
  · rw [search_nodes_filter]
    apply List.filter_eq_self.2
    intro r hr
    obtain ⟨p, hp, hpr⟩ := List.mem_map.1 hr
    have hsome := hlive p hp
    rcases hG : heapGet m p.2 with _ | o
    · rw [hG] at hsome
      simp at hsome
    · rw [← hpr, hG]
      show searchMatch (pyLower "") sn o = true
      unfold searchMatch
      rw [Bool.or_eq_true]
      left
      rw [show pyLower "" = "" by
        show String.map Char.toLower "" = ""
        rw [String.map_eq]
        simp]
      exact strContains_empty _

theorem searchNodes_spec_witness :
    search_nodes d8 "paren" true =
        ((d8.nodes.map Prod.snd).filter fun r =>
          match heapGet d8 r with
          | none => false
          | some o => searchMatch (pyLower "paren") true o) ∧
      (search_nodes d8 "paren" true).Nodup ∧
      search_nodes d8 "" true = d8.nodes.map Prod.snd :=
  searchNodes_spec d8 "paren" true (by decide) (by decide)

/-- `add_node` on a live reference: the dict maps the object's id to it, and
every pre-existing child link of every live object survives (the only heap
change appends one element to one children list). -/
theorem add_node_effects (m1 : SimpleMindMap) (r : Ref) (o : NodeObj)
    (hG : heapGet m1 r = some o) :
    (add_node m1 r).nodes = setA m1.nodes o.id r ∧
      (∀ rP oP, heapGet m1 rP = some oP →
        ∃ oP2, heapGet (add_node m1 r) rP = some oP2 ∧
          ∀ c ∈ oP.children, c ∈ oP2.children) := by
  by_cases hpar : o.parent_id = "-1"
  · rw [add_node_root hG hpar]
    exact ⟨rfl, fun rP oP hGP => ⟨oP, hGP, fun c hc => hc⟩⟩
  · rcases hl2 : lookupA (setA m1.nodes o.id r) o.parent_id with _ | rq
    · rw [add_node_unlinked hG hpar hl2]
      exact ⟨rfl, fun rP oP hGP => ⟨oP, hGP, fun c hc => hc⟩⟩
    · rcases hG2 : heapGet m1 rq with _ | oq
      · rw [add_node_parent_dead hG hpar hl2 hG2]
        exact ⟨rfl, fun rP oP hGP => ⟨oP, hGP, fun c hc => hc⟩⟩
      · rw [add_node_link hG hpar hl2 hG2]
        refine ⟨rfl, fun rP oP hGP => ?_⟩
        by_cases hrq : rq = rP
        · subst hrq
          have hoq : oq = oP := by
            rw [hGP] at hG2
            exact (Option.some.inj hG2).symm
          subst hoq
          refine ⟨{ oq with children := oq.children ++ [r] }, ?_, ?_⟩
          · show lookupA (setA m1.heap rq _) rq = _
            rw [lookupA_setA_self]
          · intro c hc
            exact List.mem_append_left _ hc
        · refine ⟨oP, ?_, fun c hc => hc⟩
          show lookupA (setA m1.heap rq _) rP = some oP
          rw [lookupA_setA_ne _ _ hrq]
          exact hGP

/-- **C10.** `add_node` performs no duplicate-id rejection: inserting a
fresh object that carries an id `X` already mapped to a live object `rOld`
linked into parent `rP`'s children succeeds, remaps `X` to the newly
allocated object, and leaves the old object — a distinct one — still
sitting in the parent's children sequence, so the mapping and the children
sequences become mutually inconsistent. -/
theorem addNode_duplicate_id {m : SimpleMindMap} {X : String} {rOld rP : Ref}
    {oOld oP : NodeObj} (oNew : NodeObj)
    (hfresh : ∀ p ∈ m.heap, p.1 < m.nextRef)
    (hlk : lookupA m.nodes X = some rOld)
    (hGOld : heapGet m rOld = some oOld)
    (hGP : heapGet m rP = some oP)
    (hchild : rOld ∈ oP.children)
    (hid : oNew.id = X) :
    lookupA (addNodeObj m oNew).nodes X = some m.nextRef ∧
      m.nextRef ≠ rOld ∧
      ∃ oP2, heapGet (addNodeObj m oNew) rP = some oP2 ∧
        rOld ∈ oP2.children := by
  have hOldLt : rOld < m.nextRef := hfresh _ (lookupA_mem hGOld)
  have hfreshNone : lookupA m.heap m.nextRef = none := by
    rw [lookupA_eq_none]
    intro hmem
    obtain ⟨p, hp, hpk⟩ := List.mem_map.1 hmem
    have hlt := hfresh p hp
    rw [hpk] at hlt
    exact absurd hlt (lt_irrefl _)
  have hheapNew :
      heapGet { m with
          heap := m.heap ++ [(m.nextRef, oNew)]
          nextRef := m.nextRef + 1 } m.nextRef = some oNew := by
    show lookupA (m.heap ++ [(m.nextRef, oNew)]) m.nextRef = some oNew
    rw [lookupA_append_right _ hfreshNone]
    simp [lookupA]
  have hGP1 :
      heapGet { m with
          heap := m.heap ++ [(m.nextRef, oNew)]
          nextRef := m.nextRef + 1 } rP = some oP :=
    lookupA_append_left _ hGP
  have hstep : addNodeObj m oNew =
      add_node { m with
        heap := m.heap ++ [(m.nextRef, oNew)]
        nextRef := m.nextRef + 1 } m.nextRef := rfl
  obtain ⟨hnodes, hheap⟩ := add_node_effects _ _ _ hheapNew
  obtain ⟨oP2, hGP2, hsub⟩ := hheap rP oP hGP1
  refine ⟨?_, ne_of_gt hOldLt, oP2, by rw [hstep]; exact hGP2, hsub rOld hchild⟩
  rw [hstep, hnodes]
  show lookupA (setA m.nodes oNew.id m.nextRef) X = some m.nextRef
  rw [hid]
  exact lookupA_setA_self _ _ _

theorem addNode_duplicate_id_witness :
    lookupA (addNodeObj d8 (mkNode "2" "Dup" "0" 0 0 "" "g")).nodes "2" =
        some 3 ∧
      (3 : Ref) ≠ 2 ∧
      ∃ oP2, heapGet (addNodeObj d8 (mkNode "2" "Dup" "0" 0 0 "" "g")) 1 =
          some oP2 ∧ (2 : Ref) ∈ oP2.children :=
  @addNode_duplicate_id d8 "2" 2 1 ((heapGet d8 2).getD default)
    ((heapGet d8 1).getD default) (mkNode "2" "Dup" "0" 0 0 "" "g")
    (by decide) (by decide) (by decide) (by decide) (by decide) rfl

/-- One-node document used for the update-tool evidence: a root carrying
non-empty notes. -/
def o6 : NodeObj := mkNode "1" "Node" "-1" 0 0 "keep" "G1"

def d6 : SimpleMindMap := addNodeObj SimpleMindMap.empty o6

/-- **C6 (counterexample).** An explicitly empty-string notes value with no
text is rejected by the handler's up-front `if not new_text and not
new_notes` truthiness check: the call reports the missing-fields error and
the node's notes survive unchanged, so empty-string notes are *not* accepted
as a clearing update. -/
theorem updateNode_empty_notes_rejected :
    tool_update_node d6 "1" none (some "") = (UpdRes.noFields, d6) ∧
      (objOfId d6 "1").notes = "keep" := by
  decide

/-- **C6 (amended).** `update_node` rejects the call whenever both arguments
are falsy — absent *or* empty, so an empty-string notes value alone is
rejected rather than applied; then reports not-found for an unknown id; and
otherwise applies `text` only when non-empty and `notes` whenever the
argument is present (an empty notes string clears the field only when
accompanied by a non-empty `text`). -/
theorem updateNode_amended (m : SimpleMindMap) (i : String)
    (nt nn : Option String) :
    (pyTruthyStr nt = false → pyTruthyStr nn = false →
      tool_update_node m i nt nn = (UpdRes.noFields, m)) ∧
    ((pyTruthyStr nt = true ∨ pyTruthyStr nn = true) →
      lookupA m.nodes i = none →
      tool_update_node m i nt nn = (UpdRes.notFound, m)) ∧
    (∀ r o, (pyTruthyStr nt = true ∨ pyTruthyStr nn = true) →
      lookupA m.nodes i = some r → heapGet m r = some o →
      tool_update_node m i nt nn =
        (UpdRes.ok, heapSet m r
          { o with
            text := if pyTruthyStr nt then nt.getD "" else o.text
            notes := if nn.isSome then nn.getD "" else o.notes })) := by
  refine ⟨fun h1 h2 => update_node_noFields m i nt nn h1 h2,
    fun ht h1 => update_node_notFound m i nt nn ht h1,
    fun r o ht h1 hG => ?_⟩
  rw [update_node_applies m i nt nn r o ht h1 hG]
  by_cases hnt : pyTruthyStr nt = true <;>
    by_cases hnn : nn.isSome = true <;>
      simp only [hnt, hnn, if_pos, if_neg, if_true, if_false] <;> rfl

theorem updateNode_amended_witness :
    tool_update_node d6 "1" (some "T") (some "") =
      (UpdRes.ok, heapSet d6 0
        { o6 with
          text := if pyTruthyStr (some "T") then (some "T").getD "" else o6.text
          notes := if (some "").isSome then (some "").getD "" else o6.notes }) :=
  (updateNode_amended d6 "1" (some "T") (some "")).2.2 0 o6 (Or.inl (by decide))
    (by decide) (by decide)

/-- Two-node document whose second id is not numeric. -/
def o9a : NodeObj := mkNode "1" "Root" "-1" 0 0 "" "Ga"

def o9b : NodeObj := mkNode "x" "Opaque" "1" 0 0 "" "Gb"

def d9 : SimpleMindMap := addNodeObj (addNodeObj SimpleMindMap.empty o9a) o9b

/-- **C9 (counterexample).** With an unparsable id `"x"` in the mapping, the
`int(node_id)` in the id-allocation expression raises `ValueError`; nothing
in the handler catches it, so the dispatcher's blanket handler produces an
untyped `Error: ...` response (modelled `AddNodeRes.exn`) — not the typed
invalid-operation response the spec requires — and the document is
unchanged. -/
theorem insertChild_nonnumeric_exn :
    tool_add_node (fun _ => 0) d9 "1" "t" "" = (AddNodeRes.exn, d9) := by
  decide

/-- **C9 (amended).** Once the parent resolves, the id allocation is: if any
existing id fails to parse as an integer the tool raises out of the handler
(untyped exception response, document unchanged); otherwise the new id is
one greater than the maximum of all ids interpreted as integers. -/
theorem insertChild_id_allocation (sf : ℚ → ℚ) (m : SimpleMindMap)
    (pid text notes : String) (rp : Ref)
    (h1 : get_node m pid = some rp) :
    ((m.nodes.map Prod.fst).mapM pyInt = none →
      tool_add_node sf m pid text notes = (AddNodeRes.exn, m)) ∧
    (∀ v vs, (m.nodes.map Prod.fst).mapM pyInt = some (v :: vs) →
      (tool_add_node sf m pid text notes).1 =
        AddNodeRes.ok (intDecStr (vs.foldl max v + 1))) := by
  constructor
  · intro h2
    unfold tool_add_node
    rw [h1]
    simp only [h2]
  · intro v vs h2
    unfold tool_add_node
    rw [h1]
    simp only [h2, pyMaxList]

theorem insertChild_id_allocation_witness :
    (tool_add_node (fun _ => 0) d8 "1" "New" "").1 =
      AddNodeRes.ok (intDecStr ([(1 : ℤ), 2].foldl max 0 + 1)) :=
  (insertChild_id_allocation (fun _ => 0) d8 "1" "New" "" 1 (by decide)).2 0
    [1, 2] (by decide)

/-- Document that satisfies the §3 invariants although one of its nodes is
named `"-1"`: the sentinel-named node and the root sit in each other's
children sequences, which is exactly what the children/parent-id
consistency condition forces for this naming. -/
def d4 : SimpleMindMap :=
  { heap := [(0,
      { id := "0", text := "R", parent_id := "-1", x := 0, y := 0,
        notes := "", guid := "", palette := "", colorinfo := "", icon := "",
        url_link := "", layout_mode := "", layout_direction := "",
        layout_flow := "", parent_relation_guid := "", children := [1] }),
      (1,
      { id := "-1", text := "N", parent_id := "0", x := 0, y := 0,
        notes := "", guid := "", palette := "", colorinfo := "", icon := "",
        url_link := "", layout_mode := "", layout_direction := "",
        layout_flow := "", parent_relation_guid := "", children := [0] })]
    nextRef := 2
    nodes := [("0", 0), ("-1", 1)]
    root_node := some 0 }

/-- **C4 (counterexample).** A document satisfying the executable §3
invariants (`inv3B`) in which one node's id is the sentinel string `"-1"`:
inserting a child under that node routes `add_node` into its root branch
(the new node's `parent_id` *is* the sentinel string), so the new node is
never appended to its parent's children sequence and the mapping and the
children sequences become mutually inconsistent after a single tool call. -/
theorem treeInvariant_counterexample :
    inv3B d4 = true ∧
      childrenConsistentB (applyOps (fun _ => 0) d4 [Op.add "-1" "x" ""]) =
        false := by
  decide

theorem round2_zero : round2 0 = 0 := by
  simpa using round2_int_div 0

/-- Root node carrying a layout direction but no layout mode. -/
def oLayout : NodeObj :=
  mkNode "1" "Root" "-1" 0 0 "" "G1" "" "" "" "" "" "side" ""

def mLayout : SimpleMindMap := addNodeObj SimpleMindMap.empty oLayout

/-- The `<topic>` record the encoder emits for `oLayout`: the layout element
is omitted because `layout_mode` is empty, losing the direction. -/
def recLayout : TopicRecord :=
  { id := "1", parent := "-1", guid := "G1", x := 0, y := 0, palette := none,
    colorinfo := none, icon := none, text := "Root", note := none,
    url_link := none, layout := none, parent_relation := none }

theorem mkRecord_oLayout : mkRecord oLayout = recLayout := by
  simp [mkRecord, oLayout, mkNode, recLayout, round2_zero]

/-- **C1 (counterexample).** A one-node document built by `add_node` and
satisfying the executable §3 invariants, whose root carries
`layout_direction = "side"` with an empty `layout_mode`: the encoder writes
the layout element only when the mode is non-empty, so decoding the encoded
archive returns the direction to the empty default and the round trip is
not the identity on this document's observable fields. -/
theorem roundTrip_counterexample :
    inv3B mLayout = true ∧
      (objOfId mLayout "1").layout_direction = "side" ∧
      (objOfId (decode (encode mLayout)) "1").layout_direction = "" ∧
      absGet (decode (encode mLayout)) "1" ≠ absGet mLayout "1" := by
  have henc : encode mLayout = [mkRecord oLayout] := rfl
  refine ⟨by decide, by decide, ?_, ?_⟩
  · rw [henc, mkRecord_oLayout]
    decide
  · rw [henc, mkRecord_oLayout]
    decide

/-- **C1 (amended).** For every document satisfying the §3 invariants
(witnessed by an abstracting id tree) whose coordinates are exact
two-decimal values and whose layout direction/flow are set only together
with a non-empty layout mode, decoding the encoded archive restores every
node's id, field values and children ids exactly: `decode (encode m)`
observationally equals `m` at every id. -/
theorem encode_decode_roundTrip {m : SimpleMindMap} {t : IdTree}
    (hI : DocInv m t)
    (hfld : ∀ p ∈ m.nodes, ∀ o, heapGet m p.2 = some o →
      round2 o.x = o.x ∧ round2 o.y = o.y ∧
        (o.layout_mode = "" → o.layout_direction = "" ∧ o.layout_flow = "")) :
    ∀ i, absGet (decode (encode m)) i = absGet m i :=
  roundTrip_of_inv hI hfld

/-- One-node document with exact coordinates and coherent layout fields. -/
def oW : NodeObj := mkNode "1" "Root" "-1" 0 0 "" "G1"

def mW : SimpleMindMap := addNodeObj SimpleMindMap.empty oW

def tW : IdTree := IdTree.mk "1" []

theorem docInv_mW : DocInv mW tW :=
  ⟨by decide, by decide, by decide, by decide, by decide, by decide,
    by decide, ⟨0, rfl, by decide⟩⟩

theorem hfld_mW : ∀ p ∈ mW.nodes, ∀ o, heapGet mW p.2 = some o →
    round2 o.x = o.x ∧ round2 o.y = o.y ∧
      (o.layout_mode = "" → o.layout_direction = "" ∧ o.layout_flow = "") := by
  intro p hp o hG
  have hn : mW.nodes = [("1", 0)] := rfl
  rw [hn] at hp
  obtain rfl := List.mem_singleton.1 hp
  have hG' : heapGet mW 0 = some o := hG
  have hG0 : heapGet mW 0 = some oW := rfl
  rw [hG0] at hG'
  obtain rfl := Option.some.inj hG'
  refine ⟨?_, ?_, fun _ => ⟨rfl, rfl⟩⟩
  · show round2 0 = 0
    exact round2_zero
  · show round2 0 = 0
    exact round2_zero

theorem encode_decode_roundTrip_witness :
    absGet (decode (encode mW)) "1" = absGet mW "1" :=
  @encode_decode_roundTrip mW tW docInv_mW hfld_mW "1"

theorem insertChild_placement_witness :
    (tool_add_node (fun _ => 100) d8 "1" "New" "").1 = AddNodeRes.ok "3" ∧
      objOfId (tool_add_node (fun _ => 100) d8 "1" "New" "").2 "3" =
        mkNode "3" "New" "1" 200 (-80) "" "GENERATED_3" :=
  insertChild_placement (fun _ => 100) rfl

/-! ## Characterization of `delete_node` -/

/-- The ids `remove_node_and_children` deletes: the pre-order ids of the
object subtree rooted at `r`, fuelled like `removeRec`. -/
def collectIds (heap : List (Ref × NodeObj)) : ℕ → Ref → List String
  | 0, _ => []
  | fuel + 1, r =>
    match lookupA heap r with
    | none => []
    | some o => o.id :: o.children.flatMap (collectIds heap fuel)

theorem delA_of_lookupA_none {α β : Type} [DecidableEq α]
    {l : List (α × β)} {k : α} (h : lookupA l k = none) : delA l k = l := by
  apply List.filter_eq_self.2
  intro p hp
  rw [lookupA_eq_none] at h
  simp only [decide_eq_true_eq]
  intro hc
  exact h (List.mem_map.2 ⟨p, hp, hc⟩)

theorem removeRec_foldl_filter (heap : List (Ref × NodeObj)) (fuel : ℕ)
    (IH : ∀ r nd, removeRec heap fuel r nd =
      nd.filter fun p => decide (p.1 ∉ collectIds heap fuel r)) :
    ∀ (cs : List Ref) (nd : List (String × Ref)),
      cs.foldl (fun acc c => removeRec heap fuel c acc) nd =
        nd.filter fun p =>
          decide (p.1 ∉ cs.flatMap (collectIds heap fuel)) := by
  intro cs
  induction cs with
  | nil =>
    intro nd
    simp
  | cons c cs' ih =>
    intro nd
    rw [List.foldl_cons, IH, ih, List.filter_filter]
    apply List.filter_congr
    intro p _
    rw [List.flatMap_cons]
    simp only [List.mem_append, not_or, Bool.decide_and, Bool.and_comm]

theorem removeRec_filter (heap : List (Ref × NodeObj)) :
    ∀ (fuel : ℕ) (r : Ref) (nd : List (String × Ref)),
      removeRec heap fuel r nd =
        nd.filter fun p => decide (p.1 ∉ collectIds heap fuel r) := by
  intro fuel
  induction fuel with
  | zero =>
    intro r nd
    simp [removeRec, collectIds]
  | succ fuel' ih =>
    intro r nd
    rw [removeRec, collectIds]
    rcases hL : lookupA heap r with _ | o
    · simp [hL]
    · simp only [hL]
      have hfold := removeRec_foldl_filter heap fuel' ih o.children nd
      show (if (lookupA (o.children.foldl
              (fun acc c => removeRec heap fuel' c acc) nd) o.id).isSome
          then delA (o.children.foldl
              (fun acc c => removeRec heap fuel' c acc) nd) o.id
          else o.children.foldl
              (fun acc c => removeRec heap fuel' c acc) nd) = _
      rw [hfold]
      have hstep : delA (nd.filter fun p =>
            decide (p.1 ∉ o.children.flatMap (collectIds heap fuel'))) o.id =
          nd.filter fun p =>
            decide (p.1 ∉ o.id :: o.children.flatMap (collectIds heap fuel')) := by
        rw [delA, List.filter_filter]
        apply List.filter_congr
        intro p _
        simp only [List.mem_cons, not_or, Bool.decide_and, Bool.and_comm]
      by_cases hS : (lookupA (nd.filter fun p =>
          decide (p.1 ∉ o.children.flatMap (collectIds heap fuel'))) o.id).isSome
      · rw [if_pos hS, hstep]
      · rw [if_neg hS]
        have hnone : lookupA (nd.filter fun p =>
            decide (p.1 ∉ o.children.flatMap (collectIds heap fuel'))) o.id =
            none := by
          rcases h2 : lookupA (nd.filter fun p =>
              decide (p.1 ∉ o.children.flatMap (collectIds heap fuel'))) o.id
              with _ | v
          · rfl
          · rw [h2] at hS
            simp at hS
        rw [← delA_of_lookupA_none hnone, hstep]

theorem lookupA_inj_values {l : List (String × Ref)}
    (hnd : (l.map Prod.snd).Nodup) {k1 k2 : String} {v : Ref}
    (h1 : lookupA l k1 = some v) (h2 : lookupA l k2 = some v) : k1 = k2 := by
  have hm1 := lookupA_mem h1
  have hm2 := lookupA_mem h2
  have := List.inj_on_of_nodup_map hnd hm1 hm2 rfl
  exact congrArg Prod.fst this

theorem filter_mem_of_sublist {s t : List String} (hsub : s.Sublist t)
    (hnd : t.Nodup) : t.filter (fun a => decide (a ∈ s)) = s := by
  induction hsub with
  | slnil => rfl
  | @cons s' t' b hsub ih =>
    rw [List.nodup_cons] at hnd
    rw [List.filter_cons]
    have hb : ¬ (b ∈ s') := fun hbs => hnd.1 (hsub.subset hbs)
    rw [if_neg (by simpa using hb)]
    exact ih hnd.2
  | @cons₂ s' t' b hsub ih =>
    rw [List.nodup_cons] at hnd
    rw [List.filter_cons]
    rw [if_pos (by simp)]
    congr 1
    have ht' : t'.filter (fun a => decide (a ∈ b :: s')) =
        t'.filter (fun a => decide (a ∈ s')) := by
      apply List.filter_congr
      intro a ha
      have hab : a ≠ b := fun hc => hnd.1 (hc ▸ ha)
      simp [List.mem_cons, hab]
    rw [ht']
    exact ih hnd.2

mutual
theorem subtreeAt_rootId (t : IdTree) (i : String) (sub : IdTree)
    (h : subtreeAt t i = some sub) : sub.rootId = i := by
  cases t with
  | mk a cs =>
    rw [subtreeAt] at h
    by_cases ha : a = i
    · rw [if_pos ha] at h
      obtain rfl := Option.some.inj h
      exact ha
    · rw [if_neg ha] at h
      exact subtreeAtF_rootId cs i sub h

theorem subtreeAtF_rootId (cs : List IdTree) (i : String) (sub : IdTree)
    (h : subtreeAtF cs i = some sub) : sub.rootId = i := by
  cases cs with
  | nil => simp [subtreeAtF] at h
  | cons c cs' =>
    rw [subtreeAtF] at h
    rcases hc : subtreeAt c i with _ | s
    · rw [hc] at h
      exact subtreeAtF_rootId cs' i sub h
    · rw [hc] at h
      obtain rfl := Option.some.inj h
      exact subtreeAt_rootId c i s hc
end

mutual
theorem subtreeAt_sublist (t : IdTree) (i : String) (sub : IdTree)
    (h : subtreeAt t i = some sub) : sub.preIds.Sublist t.preIds := by
  cases t with
  | mk a cs =>
    rw [subtreeAt] at h
    by_cases ha : a = i
    · rw [if_pos ha] at h
      obtain rfl := Option.some.inj h
      exact List.Sublist.refl _
    · rw [if_neg ha] at h
      rw [IdTree.preIds]
      exact (subtreeAtF_sublist cs i sub h).cons a

theorem subtreeAtF_sublist (cs : List IdTree) (i : String) (sub : IdTree)
    (h : subtreeAtF cs i = some sub) : sub.preIds.Sublist (preIdsF cs) := by
  cases cs with
  | nil => simp [subtreeAtF] at h
  | cons c cs' =>
    rw [subtreeAtF] at h
    rcases hc : subtreeAt c i with _ | s
    · rw [hc] at h
      rw [preIdsF]
      exact (subtreeAtF_sublist cs' i sub h).trans
        (List.sublist_append_right _ _)
    · rw [hc] at h
      obtain rfl := Option.some.inj h
      rw [preIdsF]
      exact (subtreeAt_sublist c i s hc).trans (List.sublist_append_left _ _)
end

mutual
theorem countDesc_of_rep {m : SimpleMindMap} {expP : String} (t : IdTree)
    (r : Ref) (h : repNode m expP t r = true) (fuel : ℕ)
    (hf : t.depth ≤ fuel) : countDesc m fuel r = t.preIds.length := by
  cases t with
  | mk i cs =>
    obtain ⟨h1, o, hG, hid, hp, hfor⟩ := repNode_elim h
    cases fuel with
    | zero =>
      rw [IdTree.depth] at hf
      omega
    | succ fuel' =>
      rw [countDesc]
      simp only [hG]
      rw [IdTree.preIds, List.length_cons]
      have hdep : depthF cs ≤ fuel' := by
        rw [IdTree.depth] at hf
        omega
      rw [countDescF_of_rep cs o.children i hfor fuel' hdep]
      omega

theorem countDescF_of_rep {m : SimpleMindMap} (cs : List IdTree)
    (rcs : List Ref) (pid : String) (h : repForest m pid cs rcs = true)
    (fuel : ℕ) (hf : depthF cs ≤ fuel) :
    (rcs.map (countDesc m fuel)).sum = (preIdsF cs).length := by
  cases cs with
  | nil =>
    rw [repForest_elim_nil h]
    rfl
  | cons c cs' =>
    obtain ⟨rc, rcs', rfl, hc, hcs⟩ := repForest_elim_cons h
    rw [depthF] at hf
    rw [List.map_cons, List.sum_cons, preIdsF, List.length_append]
    rw [countDesc_of_rep c rc hc fuel (by omega),
      countDescF_of_rep cs' rcs' pid hcs fuel (by omega)]
end

mutual
theorem collectIds_of_rep {m : SimpleMindMap} {expP : String} (t : IdTree)
    (r : Ref) (h : repNode m expP t r = true) (fuel : ℕ)
    (hf : t.depth ≤ fuel) : collectIds m.heap fuel r = t.preIds := by
  cases t with
  | mk i cs =>
    obtain ⟨h1, o, hG, hid, hp, hfor⟩ := repNode_elim h
    cases fuel with
    | zero =>
      rw [IdTree.depth] at hf
      omega
    | succ fuel' =>
      rw [collectIds]
      simp only [show lookupA m.heap r = some o from hG]
      rw [IdTree.preIds]
      have hdep : depthF cs ≤ fuel' := by
        rw [IdTree.depth] at hf
        omega
      rw [hid, collectIdsF_of_rep cs o.children i hfor fuel' hdep]

theorem collectIdsF_of_rep {m : SimpleMindMap} (cs : List IdTree)
    (rcs : List Ref) (pid : String) (h : repForest m pid cs rcs = true)
    (fuel : ℕ) (hf : depthF cs ≤ fuel) :
    rcs.flatMap (collectIds m.heap fuel) = preIdsF cs := by
  cases cs with
  | nil =>
    rw [repForest_elim_nil h]
    rfl
  | cons c cs' =>
    obtain ⟨rc, rcs', rfl, hc, hcs⟩ := repForest_elim_cons h
    rw [depthF] at hf
    rw [List.flatMap_cons, preIdsF]
    rw [collectIds_of_rep c rc hc fuel (by omega),
      collectIdsF_of_rep cs' rcs' pid hcs fuel (by omega)]
end

mutual
theorem repNode_heapSet {m : SimpleMindMap} {rq : Ref} {oq : NodeObj}
    (t : IdTree) (r : Ref) (expP : String)
    (h : repNode m expP t r = true)
    (hav : ∀ j ∈ t.preIds, lookupA m.nodes j ≠ some rq) :
    repNode (heapSet m rq oq) expP t r = true := by
  cases t with
  | mk i cs =>
    obtain ⟨h1, o, hG, hid, hp, hfor⟩ := repNode_elim h
    have hri : rq ≠ r := by
      intro hc
      exact hav i (by rw [IdTree.preIds]; exact List.mem_cons_self _ _)
        (hc ▸ h1)
    have hG' : heapGet (heapSet m rq oq) r = some o := by
      show lookupA (setA m.heap rq oq) r = some o
      rw [lookupA_setA_ne _ _ hri]
      exact hG
    have hfor' : repForest (heapSet m rq oq) i cs o.children = true :=
      repForest_heapSet cs o.children i hfor
        (fun j hj => hav j (by rw [IdTree.preIds]; exact List.mem_cons_of_mem _ hj))
    exact repNode_intro h1 hG' hid hp hfor'

theorem repForest_heapSet {m : SimpleMindMap} {rq : Ref} {oq : NodeObj}
    (cs : List IdTree) (rcs : List Ref) (pid : String)
    (h : repForest m pid cs rcs = true)
    (hav : ∀ j ∈ preIdsF cs, lookupA m.nodes j ≠ some rq) :
    repForest (heapSet m rq oq) pid cs rcs = true := by
  cases cs with
  | nil =>
    rw [repForest_elim_nil h]
    rfl
  | cons c cs' =>
    obtain ⟨rc, rcs', rfl, hc, hcs⟩ := repForest_elim_cons h
    rw [repForest, Bool.and_eq_true]
    constructor
    · exact repNode_heapSet c rc pid hc
        (fun j hj => hav j (by rw [preIdsF]; exact List.mem_append.2 (Or.inl hj)))
    · exact repForest_heapSet cs' rcs' pid hcs
        (fun j hj => hav j (by rw [preIdsF]; exact List.mem_append.2 (Or.inr hj)))
end

mutual
theorem subtreeAt_rep {m : SimpleMindMap} (t : IdTree) (r : Ref)
    (expP : String) (h : repNode m expP t r = true)
    (hnd : t.preIds.Nodup) (hx : expP ∉ t.preIds) (i : String)
    (sub : IdTree) (hs : subtreeAt t i = some sub) :
    ∃ pid r2, lookupA m.nodes i = some r2 ∧ repNode m pid sub r2 = true ∧
      pid ∉ sub.preIds ∧
      ((pid = expP ∧ sub = t ∧ r2 = r) ∨ pid ∈ t.preIds) := by
  cases t with
  | mk a cs =>
    obtain ⟨h1, o, hG, hid, hp, hfor⟩ := repNode_elim h
    rw [subtreeAt] at hs
    by_cases ha : a = i
    · rw [if_pos ha] at hs
      obtain rfl := Option.some.inj hs
      subst ha
      exact ⟨expP, r, h1, h, hx, Or.inl ⟨rfl, rfl, rfl⟩⟩
    · rw [if_neg ha] at hs
      rw [IdTree.preIds] at hnd hx
      rw [List.nodup_cons] at hnd
      obtain ⟨pid, r2, hl, hrep, hnin, hcase⟩ :=
        subtreeAtF_rep cs o.children a hfor hnd.2 hnd.1 i sub hs
      refine ⟨pid, r2, hl, hrep, hnin, Or.inr ?_⟩
      rcases hcase with rfl | hmem
      · rw [IdTree.preIds]
        exact List.mem_cons_self _ _
      · rw [IdTree.preIds]
        exact List.mem_cons_of_mem _ hmem

theorem subtreeAtF_rep {m : SimpleMindMap} (cs : List IdTree)
    (rcs : List Ref) (pid0 : String) (h : repForest m pid0 cs rcs = true)
    (hnd : (preIdsF cs).Nodup) (hx : pid0 ∉ preIdsF cs) (i : String)
    (sub : IdTree) (hs : subtreeAtF cs i = some sub) :
    ∃ pid r2, lookupA m.nodes i = some r2 ∧ repNode m pid sub r2 = true ∧
      pid ∉ sub.preIds ∧ (pid = pid0 ∨ pid ∈ preIdsF cs) := by
  cases cs with
  | nil => simp [subtreeAtF] at hs
  | cons c cs' =>
    obtain ⟨rc, rcs', rfl, hc, hcs⟩ := repForest_elim_cons h
    rw [preIdsF] at hnd hx
    have hndc : c.preIds.Nodup := (List.nodup_append.1 hnd).1
    have hndcs' : (preIdsF cs').Nodup := (List.nodup_append.1 hnd).2.1
    have hxc : pid0 ∉ c.preIds := fun hm => hx (List.mem_append.2 (Or.inl hm))
    have hxcs : pid0 ∉ preIdsF cs' :=
      fun hm => hx (List.mem_append.2 (Or.inr hm))
    rw [subtreeAtF] at hs
    rcases hcsub : subtreeAt c i with _ | s
    · rw [hcsub] at hs
      obtain ⟨pid, r2, hl, hrep, hnin, hcase⟩ :=
        subtreeAtF_rep cs' rcs' pid0 hcs hndcs' hxcs i sub hs
      refine ⟨pid, r2, hl, hrep, hnin, ?_⟩
      rcases hcase with h2 | h2
      · exact Or.inl h2
      · exact Or.inr (List.mem_append.2 (Or.inr h2))
    · rw [hcsub] at hs
      obtain rfl := Option.some.inj hs
      obtain ⟨pid, r2, hl, hrep, hnin, hcase⟩ :=
        subtreeAt_rep c rc pid0 hc hndc hxc i s hcsub
      refine ⟨pid, r2, hl, hrep, hnin, ?_⟩
      rcases hcase with ⟨h2, _, _⟩ | h2
      · exact Or.inl h2
      · exact Or.inr (List.mem_append.2 (Or.inl h2))
end

theorem tool_delete_notFound {m : SimpleMindMap} {i : String}
    (h : get_node m i = none) : tool_delete_node m i = (DelRes.notFound, m) := by
  unfold tool_delete_node
  simp only [h]

theorem tool_delete_root {m : SimpleMindMap} {i : String} {r : Ref}
    {o : NodeObj} (hlook : get_node m i = some r) (hG : heapGet m r = some o)
    (hpar : o.parent_id = "-1") :
    tool_delete_node m i = (DelRes.rootForbidden, m) := by
  unfold tool_delete_node
  simp only [hlook, hG, Option.getD_some]
  rw [if_pos hpar]

theorem tool_delete_ok_eq {m : SimpleMindMap} {i : String} {r rp : Ref}
    {o op : NodeObj}
    (hlook : get_node m i = some r) (hG : heapGet m r = some o)
    (hpar : o.parent_id ≠ "-1")
    (hlp : get_node m o.parent_id = some rp) (hGp : heapGet m rp = some op) :
    tool_delete_node m i =
      (DelRes.ok (countDesc m (m.nodes.length + 1) r),
        { heapSet m rp
            { op with children := (op.children.filter
                fun c => ((heapGet m c).getD default).id ≠ i) } with
          nodes := removeRec
            (heapSet m rp
              { op with children := (op.children.filter
                  fun c => ((heapGet m c).getD default).id ≠ i) }).heap
            (m.nodes.length + 1) r m.nodes }) := by
  unfold tool_delete_node
  simp only [hlook, hG, Option.getD_some]
  rw [if_neg hpar]
  simp only [hlp, hGp]
  rfl

theorem filter_not_mem_length {m : SimpleMindMap} {t : IdTree}
    (hI : DocInv m t) {S : List String} (hsub : S.Sublist t.preIds) :
    (m.nodes.filter fun p => decide (p.1 ∉ S)).length =
      m.nodes.length - S.length := by
  have hsplit := @List.length_eq_length_filter_add _ m.nodes
    (fun p => decide (p.1 ∈ S))
  have hcompose : (m.nodes.filter fun p => decide (p.1 ∈ S)) =
      m.nodes.filter ((fun k => decide (k ∈ S)) ∘ Prod.fst) := rfl
  have hinlen : (m.nodes.filter fun p => decide (p.1 ∈ S)).length = S.length := by
    rw [← List.length_map (m.nodes.filter fun p => decide (p.1 ∈ S)) Prod.fst]
    rw [hcompose, ← List.filter_map]
    have hperm : ((m.nodes.map Prod.fst).filter
        fun k => decide (k ∈ S)).Perm (t.preIds.filter fun k => decide (k ∈ S)) :=
      hI.keysPerm.filter _
    rw [hperm.length_eq, filter_mem_of_sublist hsub hI.preNodup]
  have hsplit2 := @List.length_eq_length_filter_add _ m.nodes
    (fun p => decide (p.1 ∉ S))
  have hposcong : (m.nodes.filter fun p => (! (fun q => decide (q.1 ∉ S)) p)) =
      m.nodes.filter fun p => decide (p.1 ∈ S) := by
    apply List.filter_congr
    intro p _
    simp [decide_not]
  rw [hposcong] at hsplit2
  rw [hsplit2, hinlen]
  omega

/-- **C5.** On a document satisfying the §3 invariants: deleting an absent id
reports not-found, deleting the root reports the invalid operation — both
leaving the document unchanged — and deleting any other node whose subtree
holds `N + 1` ids (the target plus its `N` descendants) reports exactly that
count, removes exactly those ids from the id-mapping (shrinking it by
`N + 1` entries), and removes the target object from its parent's children
sequence. -/
theorem deleteNode_spec {m : SimpleMindMap} {t : IdTree} (hI : DocInv m t)
    (i : String) :
    (lookupA m.nodes i = none → tool_delete_node m i = (DelRes.notFound, m)) ∧
    (i = t.rootId → tool_delete_node m i = (DelRes.rootForbidden, m)) ∧
    (∀ sub, subtreeAt t i = some sub → i ≠ t.rootId →
      (tool_delete_node m i).1 = DelRes.ok sub.preIds.length ∧
      (tool_delete_node m i).2.nodes =
        m.nodes.filter (fun p => decide (p.1 ∉ sub.preIds)) ∧
      (tool_delete_node m i).2.nodes.length =
        m.nodes.length - sub.preIds.length ∧
      ∃ r rp op2, lookupA m.nodes i = some r ∧
        lookupA m.nodes ((objOfId m i).parent_id) = some rp ∧
        heapGet (tool_delete_node m i).2 rp = some op2 ∧
        r ∉ op2.children) := by
  obtain ⟨rr, hrn, hrept⟩ := hI.rootRep
  refine ⟨?_, ?_, ?_⟩
  · intro h
    exact tool_delete_notFound (show get_node m i = none from h)
  · intro hroot
    cases t with
    | mk a cs =>
      obtain ⟨h1, o, hG, hid, hp, hfor⟩ := repNode_elim hrept
      have ha : a = i := hroot.symm
      subst ha
      exact tool_delete_root (show get_node m a = some rr from h1) hG hp
  · intro sub hsubAt hneroot
    obtain ⟨pid, r, hl, hrep, hpidnin, hcase⟩ :=
      subtreeAt_rep t rr "-1" hrept hI.preNodup hI.noSentinel i sub hsubAt
    have hrootid : sub.rootId = i := subtreeAt_rootId t i sub hsubAt
    cases sub with
    | mk i0 cs0 =>
      have hi0 : i0 = i := hrootid
      subst hi0
      obtain ⟨h1, o, hG, hid, hp, hfor⟩ := repNode_elim hrep
      have hpidmem : pid ∈ t.preIds := by
        rcases hcase with ⟨hpid1, hsubt, hr⟩ | hmem2
        · exfalso
          apply hneroot
          rw [← hsubt]
          rfl
        · exact hmem2
      have hpar : o.parent_id ≠ "-1" := by
        rw [hp]
        intro hc
        exact hI.noSentinel (hc ▸ hpidmem)
      have hpidkey : pid ∈ m.nodes.map Prod.fst := hI.keysPerm.mem_iff.2 hpidmem
      have hpsome : (lookupA m.nodes pid).isSome :=
        (lookupA_isSome m.nodes pid).2 hpidkey
      obtain ⟨rp, hlp⟩ := Option.isSome_iff_exists.1 hpsome
      obtain ⟨op, hGp, hopid, hiffp⟩ :=
        live_node_facts hI hrn hrept (lookupA_mem hlp)
      have heq := tool_delete_ok_eq (show get_node m i0 = some r from h1) hG
        hpar (show get_node m o.parent_id = some rp by rw [hp]; exact hlp) hGp
      have hsubl : (IdTree.mk i0 cs0).preIds.Sublist t.preIds :=
        subtreeAt_sublist t i0 _ hsubAt
      have hkeyslen : t.preIds.length = m.nodes.length := by
        have hh := hI.keysPerm.length_eq
        rw [List.length_map] at hh
        omega
      have hdep : (IdTree.mk i0 cs0).depth ≤ m.nodes.length + 1 := by
        have h2 := depth_le_preIds (IdTree.mk i0 cs0)
        have h3 := hsubl.length_le
        omega
      have hcount : countDesc m (m.nodes.length + 1) r =
          (IdTree.mk i0 cs0).preIds.length :=
        countDesc_of_rep _ r hrep _ hdep
      have hrpavoid : ∀ j ∈ (IdTree.mk i0 cs0).preIds,
          lookupA m.nodes j ≠ some rp := by
        intro j hj hc
        have hjp : j = pid := lookupA_inj_values hI.refsNodup hc hlp
        exact hpidnin (hjp ▸ hj)
      have hrep1 := @repNode_heapSet m rp
        { op with children := (op.children.filter
            fun c => ((heapGet m c).getD default).id ≠ i0) }
        (IdTree.mk i0 cs0) r pid hrep hrpavoid
      have hcoll := @collectIds_of_rep
        (heapSet m rp { op with children := (op.children.filter
            fun c => ((heapGet m c).getD default).id ≠ i0) })
        pid (IdTree.mk i0 cs0) r hrep1 (m.nodes.length + 1) hdep
      rw [heq]
      refine ⟨?_, ?_, ?_, ?_⟩
      · show DelRes.ok (countDesc m (m.nodes.length + 1) r) = _
        rw [hcount]
      · show removeRec _ (m.nodes.length + 1) r m.nodes = _
        rw [removeRec_filter, hcoll]
      · show (removeRec _ (m.nodes.length + 1) r m.nodes).length = _
        rw [removeRec_filter, hcoll]
        exact filter_not_mem_length hI hsubl
      · refine ⟨r, rp, { op with children := (op.children.filter
            fun c => ((heapGet m c).getD default).id ≠ i0) }, h1, ?_, ?_, ?_⟩
        · rw [objOfId_eq h1 hG, hp]
          exact hlp
        · show lookupA (setA m.heap rp _) rp = _
          rw [lookupA_setA_self]
        · intro hcmem
          have hpred := (List.mem_filter.1 hcmem).2
          rw [hG] at hpred
          simp only [Option.getD_some, decide_eq_true_eq] at hpred
          exact hpred hid

/-- The abstracting tree of `d8`. -/
def t8 : IdTree := .mk "0" [.mk "1" [.mk "2" []]]

theorem docInv_d8 : DocInv d8 t8 :=
  ⟨by decide, by decide, by decide, by decide, by decide, by decide,
    by decide, ⟨0, rfl, by decide⟩⟩

theorem deleteNode_spec_witness :
    (lookupA d8.nodes "1" = none →
      tool_delete_node d8 "1" = (DelRes.notFound, d8)) ∧
    ("1" = t8.rootId →
      tool_delete_node d8 "1" = (DelRes.rootForbidden, d8)) ∧
    (∀ sub, subtreeAt t8 "1" = some sub → "1" ≠ t8.rootId →
      (tool_delete_node d8 "1").1 = DelRes.ok sub.preIds.length ∧
      (tool_delete_node d8 "1").2.nodes =
        d8.nodes.filter (fun p => decide (p.1 ∉ sub.preIds)) ∧
      (tool_delete_node d8 "1").2.nodes.length =
        d8.nodes.length - sub.preIds.length ∧
      ∃ r rp op2, lookupA d8.nodes "1" = some r ∧
        lookupA d8.nodes ((objOfId d8 "1").parent_id) = some rp ∧
        heapGet (tool_delete_node d8 "1").2 rp = some op2 ∧
        r ∉ op2.children) :=
  deleteNode_spec docInv_d8 "1"

/-! ## Preservation machinery for the tree invariant -/

mutual
/-- Representation transfer between documents that agree, over the tree's
ids, on the `nodes` entry and on the stored object's identity-relevant
fields (`id`, `parent_id`, `children`). -/
theorem repNode_shape {m m' : SimpleMindMap} (t : IdTree) (r : Ref)
    (expP : String) (h : repNode m expP t r = true)
    (hnodes : ∀ j ∈ t.preIds, lookupA m'.nodes j = lookupA m.nodes j)
    (hheap : ∀ j ∈ t.preIds, ∀ rj, lookupA m.nodes j = some rj →
      ∀ o, heapGet m rj = some o → ∃ o', heapGet m' rj = some o' ∧
        o'.id = o.id ∧ o'.parent_id = o.parent_id ∧
        o'.children = o.children) :
    repNode m' expP t r = true := by
  cases t with
  | mk a cs =>
    obtain ⟨h1, o, hG, hid, hp, hfor⟩ := repNode_elim h
    have hahead : a ∈ (IdTree.mk a cs).preIds := by
      rw [IdTree.preIds]
      exact List.mem_cons_self _ _
    have h1' : lookupA m'.nodes a = some r := by
      rw [hnodes a hahead]
      exact h1
    obtain ⟨o', hG', hid', hp', hch'⟩ := hheap a hahead r h1 o hG
    have hfor' : repForest m' a cs o'.children := by
      rw [hch']
      refine repForest_shape cs o.children a hfor ?_ ?_
      · intro j hj
        exact hnodes j (by rw [IdTree.preIds]; exact List.mem_cons_of_mem _ hj)
      · intro j hj
        exact hheap j (by rw [IdTree.preIds]; exact List.mem_cons_of_mem _ hj)
    exact repNode_intro h1' hG' (hid'.trans hid) (hp'.trans hp) hfor'

theorem repForest_shape {m m' : SimpleMindMap} (cs : List IdTree)
    (rcs : List Ref) (pid : String) (h : repForest m pid cs rcs = true)
    (hnodes : ∀ j ∈ preIdsF cs, lookupA m'.nodes j = lookupA m.nodes j)
    (hheap : ∀ j ∈ preIdsF cs, ∀ rj, lookupA m.nodes j = some rj →
      ∀ o, heapGet m rj = some o → ∃ o', heapGet m' rj = some o' ∧
        o'.id = o.id ∧ o'.parent_id = o.parent_id ∧
        o'.children = o.children) :
    repForest m' pid cs rcs = true := by
  cases cs with
  | nil =>
    rw [repForest_elim_nil h]
    rfl
  | cons c cs' =>
    obtain ⟨rc, rcs', rfl, hc, hcs⟩ := repForest_elim_cons h
    rw [repForest, Bool.and_eq_true]
    constructor
    · refine repNode_shape c rc pid hc ?_ ?_
      · intro j hj
        exact hnodes j (by rw [preIdsF]; exact List.mem_append.2 (Or.inl hj))
      · intro j hj
        exact hheap j (by rw [preIdsF]; exact List.mem_append.2 (Or.inl hj))
    · refine repForest_shape cs' rcs' pid hcs ?_ ?_
      · intro j hj
        exact hnodes j (by rw [preIdsF]; exact List.mem_append.2 (Or.inr hj))
      · intro j hj
        exact hheap j (by rw [preIdsF]; exact List.mem_append.2 (Or.inr hj))
end

/-- Every reference of a realized forest realizes one of its trees. -/
theorem repForest_mem {m : SimpleMindMap} {pid : String} :
    ∀ (cs : List IdTree) (rcs : List Ref), repForest m pid cs rcs = true →
      ∀ x ∈ rcs, ∃ c ∈ cs, repNode m pid c x = true := by
  intro cs
  induction cs with
  | nil =>
    intro rcs h x hx
    rw [repForest_elim_nil h] at hx
    simp at hx
  | cons c cs' ih =>
    intro rcs h x hx
    obtain ⟨rc, rcs', rfl, hc, hcs⟩ := repForest_elim_cons h
    rcases List.mem_cons.1 hx with rfl | hx'
    · exact ⟨c, List.mem_cons_self _ _, hc⟩
    · obtain ⟨c', hc', hrep⟩ := ih rcs' hcs x hx'
      exact ⟨c', List.mem_cons_of_mem _ hc', hrep⟩

mutual
/-- Every id of a realized tree is reachable from the tree's reference
through `children` sequences. -/
theorem rep_reach {m : SimpleMindMap} (t : IdTree) (r : Ref) (expP : String)
    (h : repNode m expP t r = true) :
    ∀ j ∈ t.preIds, ∀ rj, lookupA m.nodes j = some rj →
      Relation.ReflTransGen (childStep m) r rj := by
  cases t with
  | mk a cs =>
    obtain ⟨h1, o, hG, hid, hp, hfor⟩ := repNode_elim h
    intro j hj rj hrj
    rw [IdTree.preIds] at hj
    rcases List.mem_cons.1 hj with rfl | hj'
    · rw [h1] at hrj
      obtain rfl := Option.some.inj hrj
      exact Relation.ReflTransGen.refl
    · obtain ⟨rc, hrc, hreach⟩ := repF_reach cs o.children a hfor j hj' rj hrj
      exact Relation.ReflTransGen.head ⟨o, hG, hrc⟩ hreach

theorem repF_reach {m : SimpleMindMap} (cs : List IdTree) (rcs : List Ref)
    (pid : String) (h : repForest m pid cs rcs = true) :
    ∀ j ∈ preIdsF cs, ∀ rj, lookupA m.nodes j = some rj →
      ∃ rc ∈ rcs, Relation.ReflTransGen (childStep m) rc rj := by
  cases cs with
  | nil =>
    intro j hj
    rw [preIdsF] at hj
    simp at hj
  | cons c cs' =>
    obtain ⟨rc, rcs', rfl, hc, hcs⟩ := repForest_elim_cons h
    intro j hj rj hrj
    rw [preIdsF] at hj
    rcases List.mem_append.1 hj with hjc | hjcs
    · exact ⟨rc, List.mem_cons_self _ _, rep_reach c rc pid hc j hjc rj hrj⟩
    · obtain ⟨rc', hrc', hreach⟩ := repF_reach cs' rcs' pid hcs j hjcs rj hrj
      exact ⟨rc', List.mem_cons_of_mem _ hrc', hreach⟩
end

/-- `DocInv` makes every mapped node reachable from the root. -/
theorem docInv_allReachable {m : SimpleMindMap} {t : IdTree}
    (hI : DocInv m t) : AllReachable m := by
  obtain ⟨rr, hrn, hrep⟩ := hI.rootRep
  refine ⟨rr, hrn, ?_⟩
  intro p hp
  have hj : p.1 ∈ t.preIds :=
    hI.keysPerm.mem_iff.1 (List.mem_map.2 ⟨p, hp, rfl⟩)
  exact rep_reach t rr "-1" hrep p.1 hj p.2 (lookupA_of_mem hI.keysNodup hp)

mutual
/-- Every id of a realized tree sits, at its reference, inside the children
sequence of a live parent object whose key maps to it — with the node's own
`parent_id` naming that parent key. -/
theorem occ_parent_link {m : SimpleMindMap} (t : IdTree) (r : Ref)
    (expP : String) (h : repNode m expP t r = true) (rP : Ref) (oP : NodeObj)
    (hlP : lookupA m.nodes expP = some rP) (hGP : heapGet m rP = some oP)
    (hmem : r ∈ oP.children) :
    ∀ j ∈ t.preIds, ∃ rj, lookupA m.nodes j = some rj ∧
      ∃ pid rp op, lookupA m.nodes pid = some rp ∧ heapGet m rp = some op ∧
        rj ∈ op.children ∧
        ∀ oj, heapGet m rj = some oj → oj.parent_id = pid := by
  cases t with
  | mk a cs =>
    obtain ⟨h1, o, hG, hid, hp, hfor⟩ := repNode_elim h
    intro j hj
    rw [IdTree.preIds] at hj
    rcases List.mem_cons.1 hj with rfl | hj'
    · refine ⟨r, h1, expP, rP, oP, hlP, hGP, hmem, ?_⟩
      intro oj hGj
      rw [hG] at hGj
      obtain rfl := Option.some.inj hGj
      exact hp
    · exact occF_parent_link cs o.children a hfor r o h1 hG
        (fun x hx => hx) j hj'

theorem occF_parent_link {m : SimpleMindMap} (cs : List IdTree)
    (rcs : List Ref) (pidP : String) (h : repForest m pidP cs rcs = true)
    (rP : Ref) (oP : NodeObj) (hlP : lookupA m.nodes pidP = some rP)
    (hGP : heapGet m rP = some oP) (hsub : ∀ x ∈ rcs, x ∈ oP.children) :
    ∀ j ∈ preIdsF cs, ∃ rj, lookupA m.nodes j = some rj ∧
      ∃ pid rp op, lookupA m.nodes pid = some rp ∧ heapGet m rp = some op ∧
        rj ∈ op.children ∧
        ∀ oj, heapGet m rj = some oj → oj.parent_id = pid := by
  cases cs with
  | nil =>
    intro j hj
    rw [preIdsF] at hj
    simp at hj
  | cons c cs' =>
    obtain ⟨rc, rcs', rfl, hc, hcs⟩ := repForest_elim_cons h
    intro j hj
    rw [preIdsF] at hj
    rcases List.mem_append.1 hj with hjc | hjcs
    · exact occ_parent_link c rc pidP hc rP oP hlP hGP
        (hsub rc (List.mem_cons_self _ _)) j hjc
    · exact occF_parent_link cs' rcs' pidP hcs rP oP hlP hGP
        (fun x hx => hsub x (List.mem_cons_of_mem _ hx)) j hjcs
end

/-- Under `DocInv`, every non-root mapped node is linked into the children
sequence of the object its `parent_id` resolves to. -/
theorem docInv_parent_link {m : SimpleMindMap} {t : IdTree} (hI : DocInv m t)
    {j : String} (hj : j ∈ t.preIds) (hne : j ≠ t.rootId) :
    ∃ rj, lookupA m.nodes j = some rj ∧
      ∃ pid rp op, lookupA m.nodes pid = some rp ∧ heapGet m rp = some op ∧
        rj ∈ op.children ∧
        ∀ oj, heapGet m rj = some oj → oj.parent_id = pid := by
  obtain ⟨rr, hrn, hrep⟩ := hI.rootRep
  cases t with
  | mk a cs =>
    obtain ⟨h1, o, hG, hid, hp, hfor⟩ := repNode_elim hrep
    rw [IdTree.preIds] at hj
    rcases List.mem_cons.1 hj with rfl | hj'
    · exact absurd rfl hne
    · exact occF_parent_link cs o.children a hfor rr o h1 hG
        (fun x hx => hx) j hj'

/-- `DocInv` makes the mapping and the children sequences mutually
consistent: the executable pairwise check holds. -/
theorem docInv_childrenConsistent {m : SimpleMindMap} {t : IdTree}
    (hI : DocInv m t) : childrenConsistentB m = true := by
  obtain ⟨rr, hrn, hrep⟩ := hI.rootRep
  unfold childrenConsistentB
  rw [List.all_eq_true]
  intro p1 hp1
  rw [List.all_eq_true]
  intro p2 hp2
  obtain ⟨o1, hG1, hid1, hiff1⟩ := live_node_facts hI hrn hrep
    (show (p1.1, p1.2) ∈ m.nodes by simpa using hp1)
  obtain ⟨o2, hG2, hid2, hiff2⟩ := live_node_facts hI hrn hrep
    (show (p2.1, p2.2) ∈ m.nodes by simpa using hp2)
  have hlook1 : lookupA m.nodes p1.1 = some p1.2 :=
    lookupA_of_mem hI.keysNodup (show (p1.1, p1.2) ∈ m.nodes by simpa using hp1)
  have hlook2 : lookupA m.nodes p2.1 = some p2.2 :=
    lookupA_of_mem hI.keysNodup (show (p2.1, p2.2) ∈ m.nodes by simpa using hp2)
  have hkey : p2.2 ∈ o1.children ↔ o2.parent_id = p1.1 := by
    constructor
    · intro hm
      have hp1pre : p1.1 ∈ t.preIds :=
        hI.keysPerm.mem_iff.1 (List.mem_map.2 ⟨(p1.1, p1.2),
          (show (p1.1, p1.2) ∈ m.nodes by simpa using hp1), rfl⟩)
      obtain ⟨pid, sub, r', hroot, hrep', hcase'⟩ :=
        repNode_occ t rr hrep p1.1 hp1pre
      cases sub with
      | mk b bcs =>
        have hb : b = p1.1 := hroot
        subst hb
        obtain ⟨h1b, ob, hGb, hidb, hpb, hbfor⟩ := repNode_elim hrep'
        rw [hlook1] at h1b
        obtain rfl := Option.some.inj h1b
        rw [hG1] at hGb
        obtain rfl := Option.some.inj hGb
        obtain ⟨c, hcmem, hcrep⟩ := repForest_mem bcs o1.children hbfor
          p2.2 hm
        cases c with
        | mk d dcs =>
          obtain ⟨h1d, od, hGd, hidd, hpd, hdfor⟩ := repNode_elim hcrep
          rw [hG2] at hGd
          obtain rfl := Option.some.inj hGd
          exact hpd
    · intro hpar
      have hp2pre : p2.1 ∈ t.preIds :=
        hI.keysPerm.mem_iff.1 (List.mem_map.2 ⟨(p2.1, p2.2),
          (show (p2.1, p2.2) ∈ m.nodes by simpa using hp2), rfl⟩)
      have hp1key : p1.1 ∈ t.preIds :=
        hI.keysPerm.mem_iff.1 (List.mem_map.2 ⟨(p1.1, p1.2),
          (show (p1.1, p1.2) ∈ m.nodes by simpa using hp1), rfl⟩)
      have hne2 : p2.1 ≠ t.rootId := by
        intro hr2
        have hrr2 : p2.2 = rr := by
          cases t with
          | mk a cs =>
            obtain ⟨h1a, oa, hGa, hida, hpa, hafor⟩ := repNode_elim hrep
            have : a = p2.1 := hr2.symm
            subst this
            rw [hlook2] at h1a
            exact Option.some.inj h1a
        have hsent : o2.parent_id = "-1" := hiff2.2 ⟨hr2, hrr2⟩
        rw [hpar] at hsent
        exact hI.noSentinel (hsent ▸ hp1key)
      obtain ⟨rj, hlj, pid, rp, op, hlpid, hGrp, hmem', hparline⟩ :=
        docInv_parent_link hI hp2pre hne2
      rw [hlook2] at hlj
      obtain rfl := Option.some.inj hlj
      have hpid1 : pid = p1.1 := by
        rw [← hparline o2 hG2]
        exact hpar
      subst hpid1
      rw [hlook1] at hlpid
      obtain rfl := Option.some.inj hlpid
      rw [hG1] at hGrp
      obtain rfl := Option.some.inj hGrp
      exact hmem'
  simp only [hG1, hG2]
  by_cases hcase : o2.parent_id = p1.1
  · have hmem := hkey.2 hcase
    simp [hcase, hmem]
  · have hmem : p2.2 ∉ o1.children := fun hm => hcase (hkey.1 hm)
    simp [hcase, hmem]

theorem setA_mem_elim {α β : Type} [DecidableEq α] {l : List (α × β)}
    {k : α} {v : β} {p : α × β} (h : p ∈ setA l k v) : p ∈ l ∨ p = (k, v) := by
  induction l with
  | nil =>
    simp only [setA, List.mem_singleton] at h
    exact Or.inr h
  | cons q t ih =>
    obtain ⟨k', v'⟩ := q
    simp only [setA] at h
    by_cases hk : k' = k
    · rw [if_pos hk] at h
      rcases List.mem_cons.1 h with rfl | h2
      · exact Or.inr rfl
      · exact Or.inl (List.mem_cons_of_mem _ h2)
    · rw [if_neg hk] at h
      rcases List.mem_cons.1 h with rfl | h2
      · exact Or.inl (List.mem_cons_self _ _)
      · rcases ih h2 with h3 | h3
        · exact Or.inl (List.mem_cons_of_mem _ h3)
        · exact Or.inr h3

/-- Executable form of the id-wellformedness side condition used by the
amended tree-invariant claim: every id that parses as an integer parses as a
non-negative one. -/
def nonNegIdsB (m : SimpleMindMap) : Bool :=
  m.nodes.all fun p =>
    match pyInt p.1 with
    | none => true
    | some v => 0 ≤ v

/-- `DocInv` is preserved by a heap update that keeps the stored object's
`id`, `parent_id` and `children`, at a reference that is a live node. -/
theorem docInv_heapSet_shape {m : SimpleMindMap} {t : IdTree}
    (hI : DocInv m t) {r : Ref} {o o2 : NodeObj} (hG : heapGet m r = some o)
    (hsh : o2.id = o.id ∧ o2.parent_id = o.parent_id ∧
      o2.children = o.children) :
    DocInv (heapSet m r o2) t := by
  have hrkey : r ∈ m.heap.map Prod.fst :=
    List.mem_map.2 ⟨(r, o), lookupA_mem hG, rfl⟩
  refine ⟨?_, ?_, hI.keysNodup, hI.refsNodup, hI.preNodup, hI.keysPerm,
    hI.noSentinel, ?_⟩
  · show ((setA m.heap r o2).map Prod.fst).Nodup
    rw [setA_map_fst_of_mem o2 hrkey]
    exact hI.heapNodup
  · intro p hp
    rcases setA_mem_elim hp with h2 | h2
    · exact hI.heapFresh p h2
    · subst h2
      exact hI.heapFresh (r, o) (lookupA_mem hG)
  · obtain ⟨rr, hrn, hrep⟩ := hI.rootRep
    refine ⟨rr, hrn, ?_⟩
    refine repNode_shape t rr "-1" hrep (fun j _ => rfl) ?_
    intro j hj rj hrj oj hGj
    by_cases hr : rj = r
    · subst hr
      rw [hG] at hGj
      obtain rfl := Option.some.inj hGj
      refine ⟨o2, ?_, hsh.1, hsh.2.1, hsh.2.2⟩
      show lookupA (setA m.heap rj o2) rj = some o2
      rw [lookupA_setA_self]
    · refine ⟨oj, ?_, rfl, rfl, rfl⟩
      show lookupA (setA m.heap r o2) rj = some oj
      rw [lookupA_setA_ne _ _ (fun hc => hr hc.symm)]
      exact hGj

/-- `update_node` preserves the document invariant (with the same
abstracting tree) and never changes the id-mapping. -/
theorem upd_preserves {m : SimpleMindMap} {t : IdTree} (hI : DocInv m t)
    (i : String) (nt nn : Option String) :
    DocInv (tool_update_node m i nt nn).2 t ∧
      (tool_update_node m i nt nn).2.nodes = m.nodes := by
  by_cases hbt : pyTruthyStr nt = true
  case neg =>
    by_cases hbn : pyTruthyStr nn = true
    case neg =>
      rw [update_node_noFields m i nt nn (by simpa using hbt)
        (by simpa using hbn)]
      exact ⟨hI, rfl⟩
    case pos =>
      rcases hL : lookupA m.nodes i with _ | r
      · rw [update_node_notFound m i nt nn (Or.inr hbn) hL]
        exact ⟨hI, rfl⟩
      · obtain ⟨rr, hrn, hrep⟩ := hI.rootRep
        obtain ⟨o, hG, hid, hiff⟩ := live_node_facts hI hrn hrep
          (lookupA_mem hL)
        rw [update_node_applies m i nt nn r o (Or.inr hbn) hL hG]
        refine ⟨docInv_heapSet_shape hI hG ?_, rfl⟩
        by_cases hnn : nn.isSome <;> simp [hnn, hbt]
  case pos =>
    rcases hL : lookupA m.nodes i with _ | r
    · rw [update_node_notFound m i nt nn (Or.inl hbt) hL]
      exact ⟨hI, rfl⟩
    · obtain ⟨rr, hrn, hrep⟩ := hI.rootRep
      obtain ⟨o, hG, hid, hiff⟩ := live_node_facts hI hrn hrep
        (lookupA_mem hL)
      rw [update_node_applies m i nt nn r o (Or.inl hbt) hL hG]
      refine ⟨docInv_heapSet_shape hI hG ?_, rfl⟩
      by_cases hnn : nn.isSome <;> simp [hnn, hbt]

theorem heapFresh_none {m : SimpleMindMap}
    (hfresh : ∀ p ∈ m.heap, p.1 < m.nextRef) :
    lookupA m.heap m.nextRef = none := by
  rw [lookupA_eq_none]
  intro hmem
  obtain ⟨p, hp, hpk⟩ := List.mem_map.1 hmem
  have hlt := hfresh p hp
  rw [hpk] at hlt
  exact absurd hlt (lt_irrefl _)

theorem mapM_pyInt_spec :
    ∀ (keys : List String) (vals : List ℤ), keys.mapM pyInt = some vals →
      (∀ k ∈ keys, ∃ v ∈ vals, pyInt k = some v) ∧
        (∀ v ∈ vals, ∃ k ∈ keys, pyInt k = some v) := by
  intro keys
  induction keys with
  | nil =>
    intro vals h
    rw [List.mapM_nil] at h
    obtain rfl := Option.some.inj h
    exact ⟨fun k hk => absurd hk (List.not_mem_nil k),
      fun v hv => absurd hv (List.not_mem_nil v)⟩
  | cons k0 ks ih =>
    intro vals h
    rw [List.mapM_cons] at h
    rcases hk0 : pyInt k0 with _ | v0
    · rw [hk0] at h
      simp at h
    · rw [hk0] at h
      rcases hks : ks.mapM pyInt with _ | vs
      · rw [hks] at h
        simp at h
      · rw [hks] at h
        simp only [Option.bind_some, Option.pure_def] at h
        obtain rfl := Option.some.inj h
        obtain ⟨hfwd, hbwd⟩ := ih vs hks
        constructor
        · intro k hk
          rcases List.mem_cons.1 hk with rfl | hk'
          · exact ⟨v0, List.mem_cons_self _ _, hk0⟩
          · obtain ⟨v, hv, hpv⟩ := hfwd k hk'
            exact ⟨v, List.mem_cons_of_mem _ hv, hpv⟩
        · intro v hv
          rcases List.mem_cons.1 hv with rfl | hv'
          · exact ⟨k0, List.mem_cons_self _ _, hk0⟩
          · obtain ⟨k, hk, hpv⟩ := hbwd v hv'
            exact ⟨k, List.mem_cons_of_mem _ hk, hpv⟩

theorem foldl_max_bound (l : List ℤ) :
    ∀ a : ℤ, a ≤ l.foldl max a ∧ ∀ x ∈ l, x ≤ l.foldl max a := by
  induction l with
  | nil =>
    intro a
    exact ⟨le_refl a, fun x hx => absurd hx (List.not_mem_nil x)⟩
  | cons h0 t ih =>
    intro a
    rw [List.foldl_cons]
    obtain ⟨h1, h2⟩ := ih (max a h0)
    refine ⟨le_trans (le_max_left a h0) h1, ?_⟩
    intro x hx
    rcases List.mem_cons.1 hx with rfl | hx'
    · exact le_trans (le_max_right a x) h1
    · exact h2 x hx'

theorem preIdsF_append :
    ∀ (xs ys : List IdTree), preIdsF (xs ++ ys) = preIdsF xs ++ preIdsF ys := by
  intro xs
  induction xs with
  | nil =>
    intro ys
    rfl
  | cons c t ih =>
    intro ys
    rw [List.cons_append, preIdsF, preIdsF, ih, List.append_assoc]

mutual
theorem insertLeafT_no (pid nid : String) (t : IdTree)
    (h : pid ∉ t.preIds) : insertLeafT pid nid t = t := by
  cases t with
  | mk a cs =>
    rw [IdTree.preIds] at h
    rw [insertLeafT]
    rw [if_neg (show ¬ a = pid by
      intro hc
      subst hc
      exact h (List.mem_cons_self _ _))]
    rw [insertLeafF_no pid nid cs (fun hc => h (List.mem_cons_of_mem _ hc))]

theorem insertLeafF_no (pid nid : String) (cs : List IdTree)
    (h : pid ∉ preIdsF cs) : insertLeafF pid nid cs = cs := by
  cases cs with
  | nil => rfl
  | cons c cs' =>
    rw [preIdsF] at h
    rw [insertLeafF]
    rw [insertLeafT_no pid nid c
      (fun hc => h (List.mem_append.2 (Or.inl hc)))]
    rw [insertLeafF_no pid nid cs'
      (fun hc => h (List.mem_append.2 (Or.inr hc)))]
end

mutual
theorem insertLeafT_perm (pid nid : String) (t : IdTree)
    (hnd : t.preIds.Nodup) (hin : pid ∈ t.preIds) :
    (insertLeafT pid nid t).preIds.Perm (nid :: t.preIds) := by
  cases t with
  | mk a cs =>
    rw [IdTree.preIds] at hnd hin
    rw [List.nodup_cons] at hnd
    rw [insertLeafT]
    by_cases hapid : a = pid
    · rw [if_pos hapid]
      rw [IdTree.preIds, preIdsF_append]
      have hleaf : preIdsF [IdTree.mk nid []] = [nid] := rfl
      rw [hleaf, IdTree.preIds]
      exact (List.Perm.cons a
          (List.perm_append_singleton nid (preIdsF cs))).trans
        (List.Perm.swap nid a (preIdsF cs))
    · rw [if_neg hapid]
      have hin' : pid ∈ preIdsF cs := by
        rcases List.mem_cons.1 hin with h2 | h2
        · exact absurd h2.symm hapid
        · exact h2
      rw [IdTree.preIds, IdTree.preIds]
      exact (List.Perm.cons a
          (insertLeafF_perm pid nid cs hnd.2 hin')).trans
        (List.Perm.swap nid a (preIdsF cs))

theorem insertLeafF_perm (pid nid : String) (cs : List IdTree)
    (hnd : (preIdsF cs).Nodup) (hin : pid ∈ preIdsF cs) :
    (preIdsF (insertLeafF pid nid cs)).Perm (nid :: preIdsF cs) := by
  cases cs with
  | nil =>
    rw [preIdsF] at hin
    simp at hin
  | cons c cs' =>
    rw [preIdsF] at hnd hin
    have hndc : c.preIds.Nodup := (List.nodup_append.1 hnd).1
    have hndcs' : (preIdsF cs').Nodup := (List.nodup_append.1 hnd).2.1
    have hdisj : c.preIds.Disjoint (preIdsF cs') :=
      (List.nodup_append.1 hnd).2.2
    rw [insertLeafF, preIdsF, preIdsF]
    rcases List.mem_append.1 hin with hc | hcs
    · have hnocs' : pid ∉ preIdsF cs' := fun h2 => hdisj hc h2
      rw [insertLeafF_no pid nid cs' hnocs']
      exact List.Perm.append_right (preIdsF cs')
        (insertLeafT_perm pid nid c hndc hc)
    · have hnoc : pid ∉ c.preIds := fun h2 => hdisj h2 hcs
      rw [insertLeafT_no pid nid c hnoc]
      exact (List.Perm.append_left c.preIds
        (insertLeafF_perm pid nid cs' hndcs' hcs)).trans List.perm_middle
end

theorem repForest_append_single {m : SimpleMindMap} {pid : String} :
    ∀ (cs : List IdTree) (rcs : List Ref),
      repForest m pid cs rcs = true →
      ∀ (c1 : IdTree) (r1 : Ref), repNode m pid c1 r1 = true →
      repForest m pid (cs ++ [c1]) (rcs ++ [r1]) = true := by
  intro cs
  induction cs with
  | nil =>
    intro rcs h c1 r1 h1
    rw [repForest_elim_nil h]
    show repForest m pid (c1 :: []) (r1 :: []) = true
    rw [repForest, Bool.and_eq_true]
    exact ⟨h1, rfl⟩
  | cons c cs' ih =>
    intro rcs h c1 r1 h1
    obtain ⟨rc, rcs', rfl, hc, hcs⟩ := repForest_elim_cons h
    rw [List.cons_append, List.cons_append, repForest, Bool.and_eq_true]
    exact ⟨hc, ih rcs' hcs c1 r1 h1⟩

/-- Lookups of ids other than the inserted id and the parent id are
unchanged by the insertion (dict and heap). -/
theorem insert_shape_agree {m m' : SimpleMindMap} {nid : String}
    {rp rN : Ref} {op newObj : NodeObj}
    (hvals : (m.nodes.map Prod.snd).Nodup)
    (hlp : lookupA m.nodes newObj.parent_id = some rp)
    (hm'nodes : m'.nodes = setA m.nodes nid rN)
    (hm'heap : m'.heap = setA (m.heap ++ [(rN, newObj)]) rp
      { op with children := op.children ++ [rN] }) :
    ∀ j, j ≠ nid → j ≠ newObj.parent_id →
      lookupA m'.nodes j = lookupA m.nodes j ∧
      (∀ rj, lookupA m.nodes j = some rj → ∀ o, heapGet m rj = some o →
        heapGet m' rj = some o) := by
  intro j hjn hjp
  constructor
  · rw [hm'nodes]
    exact lookupA_setA_ne _ _ (fun hc => hjn hc.symm)
  · intro rj hrj o hG
    have hrjrp : rp ≠ rj := by
      intro hc
      subst hc
      exact hjp (lookupA_inj_values hvals hrj hlp)
    show lookupA m'.heap rj = some o
    rw [hm'heap, lookupA_setA_ne _ _ hrjrp]
    exact lookupA_append_left _ hG

mutual
/-- Inserting the fresh leaf under the parent id preserves realization. -/
theorem repNode_insert {m m' : SimpleMindMap} {nid : String} {rp rN : Ref}
    {op newObj : NodeObj}
    (hvals : (m.nodes.map Prod.snd).Nodup)
    (hlp : lookupA m.nodes newObj.parent_id = some rp)
    (hGp : heapGet m rp = some op)
    (hNid : newObj.id = nid)
    (hnewch : newObj.children = [])
    (hfreshN : lookupA m.heap rN = none)
    (hm'nodes : m'.nodes = setA m.nodes nid rN)
    (hm'heap : m'.heap = setA (m.heap ++ [(rN, newObj)]) rp
      { op with children := op.children ++ [rN] }) :
    ∀ (t : IdTree) (r : Ref) (expP : String),
      repNode m expP t r = true → t.preIds.Nodup → nid ∉ t.preIds →
      newObj.parent_id ∈ t.preIds →
      repNode m' expP (insertLeafT newObj.parent_id nid t) r = true := by
  intro t r expP h hnd hnidf hin
  cases t with
  | mk a cs =>
    obtain ⟨h1, o, hG, hid, hp, hfor⟩ := repNode_elim h
    rw [IdTree.preIds] at hnd hnidf hin
    rw [List.nodup_cons] at hnd
    have hane : nid ≠ a := by
      intro hc
      exact hnidf (hc ▸ List.mem_cons_self _ _)
    have hnidcs : nid ∉ preIdsF cs :=
      fun hc => hnidf (List.mem_cons_of_mem _ hc)
    have h1' : lookupA m'.nodes a = some r := by
      rw [hm'nodes, lookupA_setA_ne _ _ hane]
      exact h1
    by_cases hapid : a = newObj.parent_id
    · have hrrp : r = rp := by
        rw [hapid] at h1
        rw [h1] at hlp
        exact Option.some.inj hlp
      subst hrrp
      have hoeq : o = op := by
        rw [hG] at hGp
        exact Option.some.inj hGp
      subst hoeq
      rw [insertLeafT, if_pos hapid]
      have hG2 : heapGet m' r = some { o with children := o.children ++ [rN] } := by
        show lookupA m'.heap r = _
        rw [hm'heap, lookupA_setA_self]
      have hrpN : r ≠ rN := by
        intro hc
        have hGp' : lookupA m.heap rN = some o := by
          rw [← hc]
          exact hG
        rw [hfreshN] at hGp'
        exact Option.noConfusion hGp'
      have hpart1 : repForest m' a cs o.children = true := by
        refine repForest_shape cs o.children a hfor ?_ ?_
        · intro j hj
          rw [hm'nodes]
          exact lookupA_setA_ne _ _
            (fun hc => hnidcs (hc ▸ hj))
        · intro j hj rj hrj oj hGj
          have hjne : j ≠ nid := by
            intro hc
            exact hnidcs (hc ▸ hj)
          have hjpar : j ≠ newObj.parent_id := by
            intro hc
            exact hnd.1 ((hc.trans hapid.symm) ▸ hj)
          obtain ⟨_, hagree⟩ :=
            insert_shape_agree hvals hlp hm'nodes hm'heap j hjne hjpar
          exact ⟨oj, hagree rj hrj oj hGj, rfl, rfl, rfl⟩
      have hleaf : repNode m' a (IdTree.mk nid []) rN = true := by
        refine repNode_intro ?_ ?_ hNid hapid.symm ?_
        · rw [hm'nodes, lookupA_setA_self]
        · show lookupA m'.heap rN = some newObj
          rw [hm'heap, lookupA_setA_ne _ _ hrpN]
          rw [lookupA_append_right _ hfreshN]
          simp [lookupA]
        · rw [hnewch]
          rfl
      exact repNode_intro h1' hG2 hid hp
        (repForest_append_single cs o.children hpart1 _ rN hleaf)
    · have hjpar : a ≠ newObj.parent_id := hapid
      obtain ⟨_, hagree⟩ :=
        insert_shape_agree hvals hlp hm'nodes hm'heap a
          (fun hc => hane hc.symm) hjpar
      have hG' : heapGet m' r = some o := hagree r h1 o hG
      rw [insertLeafT, if_neg hapid]
      have hin' : newObj.parent_id ∈ preIdsF cs := by
        rcases List.mem_cons.1 hin with h2 | h2
        · exact absurd h2.symm hapid
        · exact h2
      exact repNode_intro h1' hG' hid hp
        (repForest_insert hvals hlp hGp hNid hnewch hfreshN hm'nodes hm'heap
          cs o.children a hfor hnd.2 hnidcs hin')

theorem repForest_insert {m m' : SimpleMindMap} {nid : String} {rp rN : Ref}
    {op newObj : NodeObj}
    (hvals : (m.nodes.map Prod.snd).Nodup)
    (hlp : lookupA m.nodes newObj.parent_id = some rp)
    (hGp : heapGet m rp = some op)
    (hNid : newObj.id = nid)
    (hnewch : newObj.children = [])
    (hfreshN : lookupA m.heap rN = none)
    (hm'nodes : m'.nodes = setA m.nodes nid rN)
    (hm'heap : m'.heap = setA (m.heap ++ [(rN, newObj)]) rp
      { op with children := op.children ++ [rN] }) :
    ∀ (cs : List IdTree) (rcs : List Ref) (pidP : String),
      repForest m pidP cs rcs = true → (preIdsF cs).Nodup →
      nid ∉ preIdsF cs → newObj.parent_id ∈ preIdsF cs →
      repForest m' pidP (insertLeafF newObj.parent_id nid cs) rcs = true := by
  intro cs rcs pidP h hnd hnidf hin
  cases cs with
  | nil =>
    rw [preIdsF] at hin
    simp at hin
  | cons c cs' =>
    obtain ⟨rc, rcs', rfl, hc, hcs⟩ := repForest_elim_cons h
    rw [preIdsF] at hnd hnidf hin
    have hndc : c.preIds.Nodup := (List.nodup_append.1 hnd).1
    have hndcs' : (preIdsF cs').Nodup := (List.nodup_append.1 hnd).2.1
    have hdisj : c.preIds.Disjoint (preIdsF cs') :=
      (List.nodup_append.1 hnd).2.2
    have hnidc : nid ∉ c.preIds :=
      fun hc2 => hnidf (List.mem_append.2 (Or.inl hc2))
    have hnidcs' : nid ∉ preIdsF cs' :=
      fun hc2 => hnidf (List.mem_append.2 (Or.inr hc2))
    have hshape : ∀ (d : IdTree) (rd : Ref),
        repNode m pidP d rd = true →
        (∀ j ∈ d.preIds, j ≠ nid ∧ j ≠ newObj.parent_id) →
        repNode m' pidP d rd = true := by
      intro d rd hdrep havoid
      refine repNode_shape d rd pidP hdrep ?_ ?_
      · intro j hj
        exact (insert_shape_agree hvals hlp hm'nodes hm'heap j
          (havoid j hj).1 (havoid j hj).2).1
      · intro j hj rj hrj oj hGj
        exact ⟨oj, (insert_shape_agree hvals hlp hm'nodes hm'heap j
          (havoid j hj).1 (havoid j hj).2).2 rj hrj oj hGj, rfl, rfl, rfl⟩
    have hshapeF : ∀ (ds : List IdTree) (rds : List Ref),
        repForest m pidP ds rds = true →
        (∀ j ∈ preIdsF ds, j ≠ nid ∧ j ≠ newObj.parent_id) →
        repForest m' pidP ds rds = true := by
      intro ds rds hdrep havoid
      refine repForest_shape ds rds pidP hdrep ?_ ?_
      · intro j hj
        exact (insert_shape_agree hvals hlp hm'nodes hm'heap j
          (havoid j hj).1 (havoid j hj).2).1
      · intro j hj rj hrj oj hGj
        exact ⟨oj, (insert_shape_agree hvals hlp hm'nodes hm'heap j
          (havoid j hj).1 (havoid j hj).2).2 rj hrj oj hGj, rfl, rfl, rfl⟩
    rw [insertLeafF, repForest, Bool.and_eq_true]
    rcases List.mem_append.1 hin with hinc | hincs'
    · constructor
      · exact repNode_insert hvals hlp hGp hNid hnewch hfreshN hm'nodes
          hm'heap c rc pidP hc hndc hnidc hinc
      · have hnops' : newObj.parent_id ∉ preIdsF cs' :=
          fun h2 => hdisj hinc h2
        rw [insertLeafF_no _ _ _ hnops']
        refine hshapeF cs' rcs' hcs ?_
        intro j hj
        exact ⟨fun hc2 => hnidcs' (hc2 ▸ hj),
          fun hc2 => hnops' (hc2 ▸ hj)⟩
    · constructor
      · have hnopc : newObj.parent_id ∉ c.preIds :=
          fun h2 => hdisj h2 hincs'
        rw [insertLeafT_no _ _ _ hnopc]
        refine hshape c rc hc ?_
        intro j hj
        exact ⟨fun hc2 => hnidc (hc2 ▸ hj),
          fun hc2 => hnopc (hc2 ▸ hj)⟩
      · exact repForest_insert hvals hlp hGp hNid hnewch hfreshN hm'nodes
          hm'heap cs' rcs' pidP hcs hndcs' hnidcs' hincs'
end

theorem nonNegIds_of_B {m : SimpleMindMap} (h : nonNegIdsB m = true) :
    ∀ k ∈ m.nodes.map Prod.fst, ∀ v : ℤ, pyInt k = some v → 0 ≤ v := by
  intro k hk v hv
  rw [nonNegIdsB, List.all_eq_true] at h
  obtain ⟨p, hp, hpk⟩ := List.mem_map.1 hk
  have h2 := h p hp
  subst hpk
  simp only [hv] at h2
  simpa using h2

/-- Inserting a fresh node object under a resolvable parent preserves the
document invariant, the new abstracting tree being the old one with a leaf
appended under the parent. -/
theorem insert_DocInv {m : SimpleMindMap} {t : IdTree} (hI : DocInv m t)
    (newObj : NodeObj) (rp : Ref)
    (hlp : lookupA m.nodes newObj.parent_id = some rp)
    (hnewch : newObj.children = [])
    (hfresh_id : newObj.id ∉ m.nodes.map Prod.fst)
    (hnsent : newObj.id ≠ "-1") :
    DocInv (addNodeObj m newObj)
      (insertLeafT newObj.parent_id newObj.id t) ∧
    (addNodeObj m newObj).nodes =
      m.nodes ++ [(newObj.id, m.nextRef)] := by
  obtain ⟨rr, hrn, hrep⟩ := hI.rootRep
  obtain ⟨op, hGp, hopid, hiffp⟩ := live_node_facts hI hrn hrep
    (lookupA_mem hlp)
  have hparmem : newObj.parent_id ∈ m.nodes.map Prod.fst :=
    List.mem_map.2 ⟨(newObj.parent_id, rp), lookupA_mem hlp, rfl⟩
  have hparentpre : newObj.parent_id ∈ t.preIds :=
    hI.keysPerm.mem_iff.1 hparmem
  have hnidpre : newObj.id ∉ t.preIds :=
    fun hc => hfresh_id (hI.keysPerm.mem_iff.2 hc)
  have hsentkeys : ("-1" : String) ∉ m.nodes.map Prod.fst :=
    fun hc => hI.noSentinel (hI.keysPerm.mem_iff.1 hc)
  have hpne : newObj.parent_id ≠ "-1" :=
    fun hc => hsentkeys (hc ▸ hparmem)
  have hidne : newObj.id ≠ newObj.parent_id :=
    fun hc => hfresh_id (hc ▸ hparmem)
  have hfreshN : lookupA m.heap m.nextRef = none := heapFresh_none hI.heapFresh
  have hM1 : heapGet { m with
      heap := m.heap ++ [(m.nextRef, newObj)]
      nextRef := m.nextRef + 1 } m.nextRef = some newObj := by
    show lookupA (m.heap ++ [(m.nextRef, newObj)]) m.nextRef = some newObj
    rw [lookupA_append_right _ hfreshN]
    simp [lookupA]
  have hlp1 : lookupA (setA (SimpleMindMap.nodes { m with
      heap := m.heap ++ [(m.nextRef, newObj)]
      nextRef := m.nextRef + 1 }) newObj.id m.nextRef) newObj.parent_id =
      some rp := by
    show lookupA (setA m.nodes newObj.id m.nextRef) newObj.parent_id = some rp
    rw [lookupA_setA_ne _ _ hidne]
    exact hlp
  have hop1 : heapGet { m with
      heap := m.heap ++ [(m.nextRef, newObj)]
      nextRef := m.nextRef + 1 } rp = some op :=
    lookupA_append_left _ hGp
  have hstep : addNodeObj m newObj =
      { m with
        heap := setA (m.heap ++ [(m.nextRef, newObj)]) rp
          { op with children := op.children ++ [m.nextRef] }
        nextRef := m.nextRef + 1
        nodes := setA m.nodes newObj.id m.nextRef } := by
    show add_node { m with
        heap := m.heap ++ [(m.nextRef, newObj)]
        nextRef := m.nextRef + 1 } m.nextRef = _
    rw [add_node_link hM1 hpne hlp1 hop1]
  have hnodesapp : setA m.nodes newObj.id m.nextRef =
      m.nodes ++ [(newObj.id, m.nextRef)] :=
    setA_eq_append _ hfresh_id
  have hperm := insertLeafT_perm newObj.parent_id newObj.id t hI.preNodup
    hparentpre
  have hrNnotvals : m.nextRef ∉ m.nodes.map Prod.snd := by
    intro hc
    obtain ⟨p, hp, hpv⟩ := List.mem_map.1 hc
    obtain ⟨o2, hG2, _, _⟩ := live_node_facts hI hrn hrep
      (show (p.1, p.2) ∈ m.nodes by simpa using hp)
    rw [hpv] at hG2
    have hG2' : lookupA m.heap m.nextRef = some o2 := hG2
    rw [hfreshN] at hG2'
    exact Option.noConfusion hG2'
  have hrpheap : rp ∈ m.heap.map Prod.fst :=
    List.mem_map.2 ⟨(rp, op), lookupA_mem hGp, rfl⟩
  have hrNheap : m.nextRef ∉ m.heap.map Prod.fst := by
    rw [← lookupA_eq_none]
    exact hfreshN
  constructor
  case right =>
    rw [hstep]
    exact hnodesapp
  rw [hstep]
  refine ⟨?_, ?_, ?_, ?_, ?_, ?_, ?_, ?_⟩
  · show ((setA (m.heap ++ [(m.nextRef, newObj)]) rp
      { op with children := op.children ++ [m.nextRef] }).map Prod.fst).Nodup
    rw [setA_map_fst_of_mem _
      (by rw [List.map_append]; exact List.mem_append.2 (Or.inl hrpheap))]
    rw [List.map_append]
    rw [List.nodup_append]
    refine ⟨hI.heapNodup, List.nodup_singleton _, ?_⟩
    intro a ha hb
    rw [show (List.map Prod.fst [(m.nextRef, newObj)]) = [m.nextRef] from rfl]
      at hb
    rw [List.mem_singleton] at hb
    subst hb
    exact hrNheap ha
  · intro p hp
    rcases setA_mem_elim hp with h2 | h2
    · rcases List.mem_append.1 h2 with h3 | h3
      · have hb := hI.heapFresh p h3
        show p.1 < m.nextRef + 1
        exact Nat.lt_succ_of_lt hb
      · rw [List.mem_singleton] at h3
        subst h3
        show m.nextRef < m.nextRef + 1
        exact Nat.lt_succ_self _
    · subst h2
      show rp < m.nextRef + 1
      have hb := hI.heapFresh _ (lookupA_mem hGp)
      exact Nat.lt_succ_of_lt hb
  · show ((setA m.nodes newObj.id m.nextRef).map Prod.fst).Nodup
    rw [hnodesapp, List.map_append, List.nodup_append]
    refine ⟨hI.keysNodup, List.nodup_singleton _, ?_⟩
    intro a ha hb
    rw [show (List.map Prod.fst [(newObj.id, m.nextRef)]) = [newObj.id]
      from rfl] at hb
    rw [List.mem_singleton] at hb
    subst hb
    exact hfresh_id ha
  · show ((setA m.nodes newObj.id m.nextRef).map Prod.snd).Nodup
    rw [hnodesapp, List.map_append, List.nodup_append]
    refine ⟨hI.refsNodup, List.nodup_singleton _, ?_⟩
    intro a ha hb
    rw [show (List.map Prod.snd [(newObj.id, m.nextRef)]) = [m.nextRef]
      from rfl] at hb
    rw [List.mem_singleton] at hb
    subst hb
    exact hrNnotvals ha
  · exact hperm.symm.nodup
      (List.nodup_cons.2 ⟨hnidpre, hI.preNodup⟩)
  · show ((setA m.nodes newObj.id m.nextRef).map Prod.fst).Perm _
    rw [hnodesapp, List.map_append]
    rw [show (List.map Prod.fst [(newObj.id, m.nextRef)]) = [newObj.id]
      from rfl]
    exact ((List.perm_append_singleton _ _).trans
      (List.Perm.cons _ hI.keysPerm)).trans hperm.symm
  · intro hc
    rw [hperm.mem_iff] at hc
    rcases List.mem_cons.1 hc with h2 | h2
    · exact hnsent h2.symm
    · exact hI.noSentinel h2
  · refine ⟨rr, hrn, ?_⟩
    exact repNode_insert hI.refsNodup hlp hGp rfl hnewch hfreshN rfl rfl
      t rr "-1" hrep hI.preNodup hnidpre hparentpre

/-- The `add_node` tool preserves the document invariant and the id
side condition: on failure the document is unchanged; on success the fresh
node is grafted as a leaf under its parent. -/
theorem add_preserves {m : SimpleMindMap} {t : IdTree} (hI : DocInv m t)
    (hNN : nonNegIdsB m = true) (sf : ℚ → ℚ) (pidA text notes : String) :
    ∃ t', DocInv (tool_add_node sf m pidA text notes).2 t' ∧
      nonNegIdsB (tool_add_node sf m pidA text notes).2 = true := by
  rcases hlook : get_node m pidA with _ | rp
  · unfold tool_add_node
    simp only [hlook]
    exact ⟨t, hI, hNN⟩
  · rcases hmapM : (m.nodes.map Prod.fst).mapM pyInt with _ | vals
    · unfold tool_add_node
      simp only [hlook, hmapM]
      exact ⟨t, hI, hNN⟩
    · rcases vals with _ | ⟨v0, vs⟩
      · unfold tool_add_node
        simp only [hlook, hmapM, pyMaxList]
        exact ⟨t, hI, hNN⟩
      · have hkey := tool_add_node_ok sf text notes hlook hmapM
          (show pyMaxList (v0 :: vs) = some (vs.foldl max v0) from rfl)
        have hNNspec := nonNegIds_of_B hNN
        obtain ⟨hfwd, hbwd⟩ := mapM_pyInt_spec _ _ hmapM
        have hv00 : (0 : ℤ) ≤ v0 := by
          obtain ⟨k, hk, hpk⟩ := hbwd v0 (List.mem_cons_self _ _)
          exact hNNspec k hk v0 hpk
        have hmx : (0 : ℤ) ≤ vs.foldl max v0 :=
          le_trans hv00 (foldl_max_bound vs v0).1
        have hparse : pyInt (intDecStr (vs.foldl max v0 + 1)) =
            some (vs.foldl max v0 + 1) :=
          pyInt_intDecStr_pos _ (by omega)
        have hfresh_id : intDecStr (vs.foldl max v0 + 1) ∉
            m.nodes.map Prod.fst := by
          intro hc
          obtain ⟨v, hvmem, hpv⟩ := hfwd _ hc
          rw [hparse] at hpv
          obtain rfl := Option.some.inj hpv
          rcases List.mem_cons.1 hvmem with h2 | h2
          · have := (foldl_max_bound vs v0).1
            omega
          · have := (foldl_max_bound vs v0).2 _ h2
            omega
        have hnsent : intDecStr (vs.foldl max v0 + 1) ≠ "-1" := by
          intro hc
          rw [hc] at hparse
          have hneg : pyInt "-1" = some (-1) := by decide
          rw [hneg] at hparse
          have := Option.some.inj hparse
          omega
        rw [hkey]
        obtain ⟨hinv, hnodes⟩ := insert_DocInv hI
          (mkNode (intDecStr (vs.foldl max v0 + 1)) text pidA
            (computePosition sf
              (if ((heapGet m rp).getD default).parent_id ≠ "-1" then
                (get_node m ((heapGet m rp).getD default).parent_id).map
                  (fun rg => (((heapGet m rg).getD default).x,
                    ((heapGet m rg).getD default).y))
              else none)
              (((heapGet m rp).getD default).x,
                ((heapGet m rp).getD default).y)
              ((heapGet m rp).getD default).children.length).1
            (computePosition sf
              (if ((heapGet m rp).getD default).parent_id ≠ "-1" then
                (get_node m ((heapGet m rp).getD default).parent_id).map
                  (fun rg => (((heapGet m rg).getD default).x,
                    ((heapGet m rg).getD default).y))
              else none)
              (((heapGet m rp).getD default).x,
                ((heapGet m rp).getD default).y)
              ((heapGet m rp).getD default).children.length).2
            notes ("GENERATED_" ++ intDecStr (vs.foldl max v0 + 1)))
          rp (show lookupA m.nodes pidA = some rp from hlook) rfl
          hfresh_id hnsent
        refine ⟨_, hinv, ?_⟩
        show nonNegIdsB (addNodeObj m _) = true
        rw [nonNegIdsB, hnodes, List.all_append, Bool.and_eq_true]
        refine ⟨hNN, ?_⟩
        show List.all [(intDecStr (vs.foldl max v0 + 1), m.nextRef)] _ = true
        rw [List.all_eq_true]
        intro p hp
        rw [List.mem_singleton] at hp
        subst hp
        simp only [hparse]
        simp only [decide_eq_true_eq]
        omega

theorem lookupA_filter_not_mem {l : List (String × Ref)} {S : List String}
    {k : String} (hk : k ∉ S) :
    lookupA (l.filter fun p => decide (p.1 ∉ S)) k = lookupA l k := by
  induction l with
  | nil => rfl
  | cons p t ih =>
    obtain ⟨k', v⟩ := p
    rw [List.filter_cons]
    by_cases hp : k' ∈ S
    · have hcond : ¬ (decide (((k', v) : String × Ref).1 ∉ S) = true) := by
        simpa using hp
      rw [if_neg hcond, ih]
      have hne : k' ≠ k := fun hc => hk (hc ▸ hp)
      show lookupA t k = lookupA ((k', v) :: t) k
      simp [lookupA, hne]
    · have hcond : decide (((k', v) : String × Ref).1 ∉ S) = true := by
        simpa using hp
      rw [if_pos hcond]
      show lookupA ((k', v) :: List.filter (fun p => decide (p.1 ∉ S)) t) k =
        lookupA ((k', v) :: t) k
      have e1 : lookupA
          ((k', v) :: List.filter (fun p => decide (p.1 ∉ S)) t) k =
          if k' = k then some v
          else lookupA (List.filter (fun p => decide (p.1 ∉ S)) t) k := rfl
      have e2 : lookupA ((k', v) :: t) k =
          if k' = k then some v else lookupA t k := rfl
      rw [e1, e2, ih]

theorem rootId_mem_preIds (t : IdTree) : t.rootId ∈ t.preIds := by
  cases t with
  | mk a cs =>
    rw [IdTree.preIds]
    exact List.mem_cons_self _ _

mutual
theorem subtreeAt_isSome_of_mem (t : IdTree) (i : String)
    (h : i ∈ t.preIds) : (subtreeAt t i).isSome = true := by
  cases t with
  | mk a cs =>
    rw [subtreeAt]
    by_cases ha : a = i
    · rw [if_pos ha]
      rfl
    · rw [if_neg ha]
      rw [IdTree.preIds] at h
      rcases List.mem_cons.1 h with h2 | h2
      · exact absurd h2.symm ha
      · exact subtreeAtF_isSome_of_mem cs i h2

theorem subtreeAtF_isSome_of_mem (cs : List IdTree) (i : String)
    (h : i ∈ preIdsF cs) : (subtreeAtF cs i).isSome = true := by
  cases cs with
  | nil =>
    rw [preIdsF] at h
    simp at h
  | cons c cs' =>
    rw [preIdsF] at h
    rw [subtreeAtF]
    rcases hc : subtreeAt c i with _ | s
    · rcases List.mem_append.1 h with h2 | h2
      · have := subtreeAt_isSome_of_mem c i h2
        rw [hc] at this
        simp at this
      · exact subtreeAtF_isSome_of_mem cs' i h2
    · rfl
end

mutual
theorem subtreeAt_mem (t : IdTree) (i : String) (sub : IdTree)
    (h : subtreeAt t i = some sub) : i ∈ t.preIds := by
  cases t with
  | mk a cs =>
    rw [subtreeAt] at h
    by_cases ha : a = i
    · rw [IdTree.preIds]
      exact ha ▸ List.mem_cons_self _ _
    · rw [if_neg ha] at h
      rw [IdTree.preIds]
      exact List.mem_cons_of_mem _ (subtreeAtF_mem cs i sub h)

theorem subtreeAtF_mem (cs : List IdTree) (i : String) (sub : IdTree)
    (h : subtreeAtF cs i = some sub) : i ∈ preIdsF cs := by
  cases cs with
  | nil => simp [subtreeAtF] at h
  | cons c cs' =>
    rw [subtreeAtF] at h
    rw [preIdsF]
    rcases hc : subtreeAt c i with _ | s
    · rw [hc] at h
      exact List.mem_append.2 (Or.inr (subtreeAtF_mem cs' i sub h))
    · exact List.mem_append.2 (Or.inl (subtreeAt_mem c i s hc))
end

mutual
theorem removeSubT_no (i : String) (t : IdTree) (h : i ∉ t.preIds) :
    removeSubT i t = t := by
  cases t with
  | mk a cs =>
    rw [IdTree.preIds] at h
    rw [removeSubT]
    rw [removeSubF_no i cs (fun hc => h (List.mem_cons_of_mem _ hc))]

theorem removeSubF_no (i : String) (cs : List IdTree)
    (h : i ∉ preIdsF cs) : removeSubF i cs = cs := by
  cases cs with
  | nil => rfl
  | cons c cs' =>
    rw [preIdsF] at h
    have hic : i ∉ c.preIds := fun hc => h (List.mem_append.2 (Or.inl hc))
    have hics' : i ∉ preIdsF cs' :=
      fun hc => h (List.mem_append.2 (Or.inr hc))
    rw [removeSubF]
    rw [if_neg (show ¬ c.rootId = i by
      intro hc
      exact hic (hc ▸ rootId_mem_preIds c))]
    rw [removeSubT_no i c hic, removeSubF_no i cs' hics']
end

mutual
theorem removeSubT_preIds (t : IdTree) (i : String) (sub : IdTree)
    (hnd : t.preIds.Nodup) (hroot : t.rootId ≠ i)
    (hs : subtreeAt t i = some sub) :
    (removeSubT i t).preIds =
      t.preIds.filter (fun a => decide (a ∉ sub.preIds)) := by
  cases t with
  | mk a cs =>
    have hai : a ≠ i := hroot
    rw [subtreeAt, if_neg hai] at hs
    rw [IdTree.preIds] at hnd
    rw [List.nodup_cons] at hnd
    rw [removeSubT, IdTree.preIds, IdTree.preIds, List.filter_cons]
    have hasub : a ∉ sub.preIds := by
      intro hc
      exact hnd.1 ((subtreeAtF_sublist cs i sub hs).subset hc)
    rw [if_pos (by simpa using hasub)]
    rw [removeSubF_preIds cs i sub hnd.2 hs]

theorem removeSubF_preIds (cs : List IdTree) (i : String) (sub : IdTree)
    (hnd : (preIdsF cs).Nodup) (hs : subtreeAtF cs i = some sub) :
    preIdsF (removeSubF i cs) =
      (preIdsF cs).filter (fun a => decide (a ∉ sub.preIds)) := by
  cases cs with
  | nil => simp [subtreeAtF] at hs
  | cons c cs' =>
    rw [preIdsF] at hnd
    have hndc : c.preIds.Nodup := (List.nodup_append.1 hnd).1
    have hndcs' : (preIdsF cs').Nodup := (List.nodup_append.1 hnd).2.1
    have hdisj : c.preIds.Disjoint (preIdsF cs') :=
      (List.nodup_append.1 hnd).2.2
    rw [subtreeAtF] at hs
    rw [removeSubF, preIdsF, List.filter_append]
    rcases hcsub : subtreeAt c i with _ | s
    · rw [hcsub] at hs
      have hic : i ∉ c.preIds := by
        intro hc
        have := subtreeAt_isSome_of_mem c i hc
        rw [hcsub] at this
        simp at this
      rw [if_neg (show ¬ c.rootId = i by
        intro hc
        exact hic (hc ▸ rootId_mem_preIds c))]
      have hsubcs' : sub.preIds.Sublist (preIdsF cs') :=
        subtreeAtF_sublist cs' i sub hs
      have hckeep : c.preIds.filter (fun a => decide (a ∉ sub.preIds)) =
          c.preIds := by
        apply List.filter_eq_self.2
        intro a ha
        simp only [decide_eq_true_eq]
        intro hc
        exact hdisj ha (hsubcs'.subset hc)
      rw [hckeep, removeSubT_no i c hic, preIdsF,
        removeSubF_preIds cs' i sub hndcs' hs]
    · rw [hcsub] at hs
      obtain rfl := Option.some.inj hs
      have hic : i ∈ c.preIds := subtreeAt_mem c i s hcsub
      have hsubc : s.preIds.Sublist c.preIds := subtreeAt_sublist c i s hcsub
      have hics' : i ∉ preIdsF cs' := fun hc => hdisj hic hc
      have hcs'keep : (preIdsF cs').filter
          (fun a => decide (a ∉ s.preIds)) = preIdsF cs' := by
        apply List.filter_eq_self.2
        intro a ha
        simp only [decide_eq_true_eq]
        intro hc
        exact hdisj (hsubc.subset hc) ha
      by_cases hcroot : c.rootId = i
      · rw [if_pos hcroot]
        have hcall : c = s := by
          cases c with
          | mk b bcs =>
            have hb : b = i := hcroot
            rw [subtreeAt, if_pos hb] at hcsub
            exact (Option.some.inj hcsub)
        subst hcall
        have hcdrop : c.preIds.filter
            (fun a => decide (a ∉ c.preIds)) = [] := by
          apply List.filter_eq_nil_iff.2
          intro a ha
          simp [ha]
        rw [hcdrop, hcs'keep, List.nil_append,
          removeSubF_no i cs' hics']
      · rw [if_neg hcroot]
        rw [preIdsF, removeSubT_preIds c i s hndc hcroot hcsub]
        rw [hcs'keep, removeSubF_no i cs' hics']
end

mutual
/-- Realization transfer for `delete_node`: pruning the parent's children
list and dropping the deleted subtree's ids from the dict realizes the tree
with the target subtree removed. -/
theorem repNode_remove {m m' : SimpleMindMap} {i pidT : String}
    {rp ri : Ref} {op oi : NodeObj} {S : List String}
    (hvals : (m.nodes.map Prod.snd).Nodup)
    (hlpP : lookupA m.nodes pidT = some rp)
    (hGp : heapGet m rp = some op)
    (hri : lookupA m.nodes i = some ri)
    (hoi : heapGet m ri = some oi)
    (hparT : oi.parent_id = pidT)
    (hm'nodes : m'.nodes = m.nodes.filter (fun p => decide (p.1 ∉ S)))
    (hm'heap : m'.heap = setA m.heap rp
      { op with children := (op.children.filter
          fun c => ((heapGet m c).getD default).id ≠ i) }) :
    ∀ (t : IdTree) (r : Ref) (expP : String),
      repNode m expP t r = true →
      (∀ j ∈ (removeSubT i t).preIds, j ∉ S) →
      t.rootId ≠ i →
      repNode m' expP (removeSubT i t) r = true := by
  intro t r expP h hsurv hroot
  cases t with
  | mk a cs =>
    obtain ⟨h1, o, hG, hid, hp, hfor⟩ := repNode_elim h
    rw [removeSubT] at hsurv ⊢
    have haS : a ∉ S := hsurv a
      (by rw [IdTree.preIds]; exact List.mem_cons_self _ _)
    have hsurvF : ∀ j ∈ preIdsF (removeSubF i cs), j ∉ S := fun j hj =>
      hsurv j (by rw [IdTree.preIds]; exact List.mem_cons_of_mem _ hj)
    have h1' : lookupA m'.nodes a = some r := by
      rw [hm'nodes, lookupA_filter_not_mem haS]
      exact h1
    have hforest := repForest_remove hvals hlpP hGp hri hoi hparT
      hm'nodes hm'heap cs o.children a hfor hsurvF
    by_cases har : r = rp
    · subst har
      have hoeq : o = op := by
        rw [hG] at hGp
        exact Option.some.inj hGp
      subst hoeq
      have hG' : heapGet m' r = some { o with
          children := (o.children.filter
            fun c => ((heapGet m c).getD default).id ≠ i) } := by
        show lookupA m'.heap r = _
        rw [hm'heap, lookupA_setA_self]
      exact repNode_intro h1' hG' hid hp hforest
    · have hG' : heapGet m' r = some o := by
        show lookupA m'.heap r = some o
        rw [hm'heap, lookupA_setA_ne _ _ (fun hc => har hc.symm)]
        exact hG
      have hkeep : (o.children.filter
          fun c => ((heapGet m c).getD default).id ≠ i) = o.children := by
        apply List.filter_eq_self.2
        intro rc hrc
        obtain ⟨c, hcmem, hcrep⟩ := repForest_mem cs o.children hfor rc hrc
        cases c with
        | mk b bcs =>
          obtain ⟨hb1, ob, hbG, hbid, hbp, hbfor⟩ := repNode_elim hcrep
          rw [hbG]
          simp only [Option.getD_some, decide_eq_true_eq]
          intro hc2
          have hbi : b = i := by
            rw [← hbid]
            exact hc2
          rw [hbi] at hb1
          rw [hri] at hb1
          obtain rfl := Option.some.inj hb1
          rw [hoi] at hbG
          obtain rfl := Option.some.inj hbG
          have hapidT : a = pidT := by
            rw [← hbp]
            exact hparT
          rw [hapidT] at h1
          rw [hlpP] at h1
          exact har (Option.some.inj h1).symm
      rw [hkeep] at hforest
      exact repNode_intro h1' hG' hid hp hforest

theorem repForest_remove {m m' : SimpleMindMap} {i pidT : String}
    {rp ri : Ref} {op oi : NodeObj} {S : List String}
    (hvals : (m.nodes.map Prod.snd).Nodup)
    (hlpP : lookupA m.nodes pidT = some rp)
    (hGp : heapGet m rp = some op)
    (hri : lookupA m.nodes i = some ri)
    (hoi : heapGet m ri = some oi)
    (hparT : oi.parent_id = pidT)
    (hm'nodes : m'.nodes = m.nodes.filter (fun p => decide (p.1 ∉ S)))
    (hm'heap : m'.heap = setA m.heap rp
      { op with children := (op.children.filter
          fun c => ((heapGet m c).getD default).id ≠ i) }) :
    ∀ (cs : List IdTree) (rcs : List Ref) (pidP : String),
      repForest m pidP cs rcs = true →
      (∀ j ∈ preIdsF (removeSubF i cs), j ∉ S) →
      repForest m' pidP (removeSubF i cs)
        (rcs.filter fun c => ((heapGet m c).getD default).id ≠ i) = true := by
  intro cs rcs pidP h hsurv
  cases cs with
  | nil =>
    rw [repForest_elim_nil h]
    rw [removeSubF]
    rfl
  | cons c cs' =>
    obtain ⟨rc, rcs', rfl, hc, hcs⟩ := repForest_elim_cons h
    rw [removeSubF] at hsurv ⊢
    rw [List.filter_cons]
    by_cases hcroot : c.rootId = i
    · rw [if_pos hcroot] at hsurv ⊢
      cases c with
      | mk b bcs =>
        obtain ⟨hb1, ob, hbG, hbid, hbp, hbfor⟩ := repNode_elim hc
        have hobid : ob.id = i := by
          rw [hbid]
          exact hcroot
        have hpred : ¬ (decide (((heapGet m rc).getD default).id ≠ i)) =
            true := by
          rw [hbG]
          simp [hobid]
        rw [if_neg (by simpa using hpred)]
        exact repForest_remove hvals hlpP hGp hri hoi hparT hm'nodes
          hm'heap cs' rcs' pidP hcs hsurv
    · rw [if_neg hcroot] at hsurv ⊢
      have hsurvc : ∀ j ∈ (removeSubT i c).preIds, j ∉ S := fun j hj =>
        hsurv j (by rw [preIdsF]; exact List.mem_append.2 (Or.inl hj))
      have hsurvcs' : ∀ j ∈ preIdsF (removeSubF i cs'), j ∉ S :=
        fun j hj =>
        hsurv j (by rw [preIdsF]; exact List.mem_append.2 (Or.inr hj))
      have hpred : (decide (((heapGet m rc).getD default).id ≠ i)) =
          true := by
        cases c with
        | mk b bcs =>
          obtain ⟨hb1, ob, hbG, hbid, hbp, hbfor⟩ := repNode_elim hc
          rw [hbG]
          simp only [Option.getD_some, decide_eq_true_eq]
          intro hc2
          apply hcroot
          show b = i
          rw [← hbid]
          exact hc2
      rw [if_pos (by simpa using hpred)]
      rw [repForest, Bool.and_eq_true]
      constructor
      · exact repNode_remove hvals hlpP hGp hri hoi hparT hm'nodes
          hm'heap c rc pidP hc hsurvc hcroot
      · exact repForest_remove hvals hlpP hGp hri hoi hparT hm'nodes
          hm'heap cs' rcs' pidP hcs hsurvcs'
end

/-- The `delete_node` tool preserves the document invariant and the id side
condition: failures leave the document unchanged; success removes the
target's subtree from the abstracting tree. -/
theorem del_preserves {m : SimpleMindMap} {t : IdTree} (hI : DocInv m t)
    (hNN : nonNegIdsB m = true) (i : String) :
    ∃ t', DocInv (tool_delete_node m i).2 t' ∧
      nonNegIdsB (tool_delete_node m i).2 = true := by
  obtain ⟨rr, hrn, hrept⟩ := hI.rootRep
  rcases hlook : lookupA m.nodes i with _ | r
  · rw [tool_delete_notFound (show get_node m i = none from hlook)]
    exact ⟨t, hI, hNN⟩
  · obtain ⟨o, hG, hid, hiff⟩ := live_node_facts hI hrn hrept
      (lookupA_mem hlook)
    by_cases hpar : o.parent_id = "-1"
    · rw [tool_delete_root (show get_node m i = some r from hlook) hG hpar]
      exact ⟨t, hI, hNN⟩
    · have hneroot : i ≠ t.rootId := by
        intro hc
        have hr : r = rr := by
          cases t with
          | mk a cs =>
            obtain ⟨h1a, oa, hGa, hida, hpa, hafor⟩ := repNode_elim hrept
            have ha : a = i := hc.symm
            subst ha
            rw [hlook] at h1a
            exact Option.some.inj h1a
        exact hpar (hiff.2 ⟨hc, hr⟩)
      have hipre : i ∈ t.preIds :=
        hI.keysPerm.mem_iff.1
          (List.mem_map.2 ⟨(i, r), lookupA_mem hlook, rfl⟩)
      have hsome := subtreeAt_isSome_of_mem t i hipre
      rcases hsubAt : subtreeAt t i with _ | sub
      · rw [hsubAt] at hsome
        simp at hsome
      obtain ⟨pid, r2, hl2, hrepS, hpidnin, hcase⟩ :=
        subtreeAt_rep t rr "-1" hrept hI.preNodup hI.noSentinel i sub hsubAt
      rw [hlook] at hl2
      obtain rfl := Option.some.inj hl2
      have hrootid : sub.rootId = i := subtreeAt_rootId t i sub hsubAt
      have hparpid : o.parent_id = pid := by
        cases sub with
        | mk i0 cs0 =>
          have hi0 : i0 = i := hrootid
          subst hi0
          obtain ⟨h1s, os, hGs, hids, hps, hsfor⟩ := repNode_elim hrepS
          rw [hG] at hGs
          obtain rfl := Option.some.inj hGs
          exact hps
      have hpidmem : pid ∈ t.preIds := by
        rcases hcase with ⟨hpid1, hsubt, hr⟩ | hmem2
        · exact absurd (by rw [← hsubt]; exact hrootid.symm) hneroot
        · exact hmem2
      have hpsome : (lookupA m.nodes pid).isSome :=
        (lookupA_isSome m.nodes pid).2 (hI.keysPerm.mem_iff.2 hpidmem)
      obtain ⟨rp, hlp⟩ := Option.isSome_iff_exists.1 hpsome
      obtain ⟨op, hGp, hopid, hiffp⟩ := live_node_facts hI hrn hrept
        (lookupA_mem hlp)
      have heq := tool_delete_ok_eq (show get_node m i = some r from hlook)
        hG hpar (show get_node m o.parent_id = some rp by
          rw [hparpid]; exact hlp) hGp
      have hsubl : sub.preIds.Sublist t.preIds :=
        subtreeAt_sublist t i sub hsubAt
      have hkeyslen : t.preIds.length = m.nodes.length := by
        have hh := hI.keysPerm.length_eq
        rw [List.length_map] at hh
        omega
      have hdep : sub.depth ≤ m.nodes.length + 1 := by
        have h2 := depth_le_preIds sub
        have h3 := hsubl.length_le
        omega
      have hrpavoid : ∀ j ∈ sub.preIds, lookupA m.nodes j ≠ some rp := by
        intro j hj hc
        have hjp : j = pid := lookupA_inj_values hI.refsNodup hc hlp
        exact hpidnin (hjp ▸ hj)
      have hrep1 := @repNode_heapSet m rp
        { op with children := (op.children.filter
            fun c => ((heapGet m c).getD default).id ≠ i) }
        sub r pid hrepS hrpavoid
      have hcoll := @collectIds_of_rep
        (heapSet m rp { op with children := (op.children.filter
            fun c => ((heapGet m c).getD default).id ≠ i) })
        pid sub r hrep1 (m.nodes.length + 1) hdep
      have hdoc : (tool_delete_node m i).2 =
          { heapSet m rp { op with children := (op.children.filter
              fun c => ((heapGet m c).getD default).id ≠ i) } with
            nodes := m.nodes.filter
              (fun p => decide (p.1 ∉ sub.preIds)) } := by
        rw [heq, removeRec_filter, hcoll]
      have hpreeq := removeSubT_preIds t i sub hI.preNodup
        (fun hc => hneroot hc.symm) hsubAt
      refine ⟨removeSubT i t, ?_, ?_⟩
      · rw [hdoc]
        refine ⟨?_, ?_, ?_, ?_, ?_, ?_, ?_, ?_⟩
        · have hrpheap : rp ∈ m.heap.map Prod.fst :=
            List.mem_map.2 ⟨(rp, op), lookupA_mem hGp, rfl⟩
          show ((setA m.heap rp _).map Prod.fst).Nodup
          rw [setA_map_fst_of_mem _ hrpheap]
          exact hI.heapNodup
        · intro p hp
          rcases setA_mem_elim hp with h2 | h2
          · exact hI.heapFresh p h2
          · subst h2
            show rp < m.nextRef
            exact hI.heapFresh (rp, op) (lookupA_mem hGp)
        · show ((List.filter _ m.nodes).map Prod.fst).Nodup
          exact ((List.filter_sublist _).map Prod.fst).nodup hI.keysNodup
        · show ((List.filter _ m.nodes).map Prod.snd).Nodup
          exact ((List.filter_sublist _).map Prod.snd).nodup hI.refsNodup
        · rw [hpreeq]
          exact (List.filter_sublist _).nodup hI.preNodup
        · show ((List.filter _ m.nodes).map Prod.fst).Perm
            (removeSubT i t).preIds
          rw [hpreeq]
          have hcomm : (m.nodes.filter
              (fun p => decide (p.1 ∉ sub.preIds))).map Prod.fst =
              (m.nodes.map Prod.fst).filter
                (fun k => decide (k ∉ sub.preIds)) := by
            rw [show (fun p : String × Ref => decide (p.1 ∉ sub.preIds)) =
              ((fun k => decide (k ∉ sub.preIds)) ∘ Prod.fst) from rfl]
            rw [List.filter_map]
          rw [hcomm]
          exact hI.keysPerm.filter _
        · rw [hpreeq]
          intro hc
          exact hI.noSentinel (List.mem_of_mem_filter hc)
        · refine ⟨rr, hrn, ?_⟩
          refine repNode_remove hI.refsNodup hlp hGp hlook hG hparpid
            rfl rfl t rr "-1" hrept ?_ ?_
          · intro j hj
            rw [hpreeq] at hj
            have hj2 := (List.mem_filter.1 hj).2
            simpa using hj2
          · exact fun hc => hneroot hc.symm
      · rw [hdoc]
        show nonNegIdsB { heapSet m rp _ with
          nodes := m.nodes.filter (fun p => decide (p.1 ∉ sub.preIds)) } = true
        rw [nonNegIdsB, List.all_eq_true]
        intro p hp
        have hp' : p ∈ m.nodes := List.mem_of_mem_filter hp
        rw [nonNegIdsB, List.all_eq_true] at hNN
        exact hNN p hp'

/-- Any single tool call preserves the document invariant and the
non-negative-ids side condition. -/
theorem applyOp_preserves {m : SimpleMindMap} {t : IdTree} (hI : DocInv m t)
    (hNN : nonNegIdsB m = true) (sf : ℚ → ℚ) (op : Op) :
    ∃ t', DocInv (applyOp sf m op) t' ∧
      nonNegIdsB (applyOp sf m op) = true := by
  cases op with
  | add pid text notes => exact add_preserves hI hNN sf pid text notes
  | upd i nt nn =>
    obtain ⟨hI', hnodes⟩ := upd_preserves hI i nt nn
    refine ⟨t, hI', ?_⟩
    show nonNegIdsB (tool_update_node m i nt nn).2 = true
    rw [nonNegIdsB, hnodes]
    exact hNN
  | del i => exact del_preserves hI hNN i

theorem applyOps_preserves (sf : ℚ → ℚ) :
    ∀ (ops : List Op) (m : SimpleMindMap) (t : IdTree), DocInv m t →
      nonNegIdsB m = true →
      ∃ t', DocInv (applyOps sf m ops) t' ∧
        nonNegIdsB (applyOps sf m ops) = true := by
  intro ops
  induction ops with
  | nil =>
    intro m t hI hNN
    exact ⟨t, hI, hNN⟩
  | cons op ops ih =>
    intro m t hI hNN
    obtain ⟨t1, hI1, hNN1⟩ := applyOp_preserves hI hNN sf op
    exact ih _ t1 hI1 hNN1

/-- **C4 (amended).** Starting from a document satisfying the §3 invariants
witnessed by an abstracting tree — which in particular rules out a node
whose id is the sentinel string `"-1"` — and whose ids, when they parse as
integers, are non-negative, after *any* sequence of `add_node`,
`update_node` and `delete_node` tool calls every node appears in its
parent's children sequence iff its `parent_id` equals that parent's id, and
every mapped node is reachable from the root.  (Without the id
restrictions the property fails: see the counterexample.) -/
theorem treeInvariant_amended (sf : ℚ → ℚ) (m : SimpleMindMap) (t : IdTree)
    (ops : List Op) (hI : DocInv m t) (hNN : nonNegIdsB m = true) :
    childrenConsistentB (applyOps sf m ops) = true ∧
      AllReachable (applyOps sf m ops) := by
  obtain ⟨t', hI', _⟩ := applyOps_preserves sf ops m t hI hNN
  exact ⟨docInv_childrenConsistent hI', docInv_allReachable hI'⟩

theorem treeInvariant_amended_witness :
    childrenConsistentB (applyOps (fun _ => 100) d8
        [Op.add "1" "kid" "", Op.upd "2" (some "T") none, Op.del "1"]) =
      true ∧
      AllReachable (applyOps (fun _ => 100) d8
        [Op.add "1" "kid" "", Op.upd "2" (some "T") none, Op.del "1"]) :=
  treeInvariant_amended (fun _ => 100) d8 t8
    [Op.add "1" "kid" "", Op.upd "2" (some "T") none, Op.del "1"]
    docInv_d8 (by decide)
